import Mathlib

/-! # docker-workshop, `03-multi-stage/main.go`

A shallow embedding of the Go API server of the workshop and of the parts of
the Go standard library it runs on (`net/http`, `net/url`, `encoding/json`,
`time`, `path`, `log`), followed by the properties of the server.

Conventions of the embedding.

* Text is a `List Char`; paths, header keys and values are `String`.  All the
  text the program itself produces is ASCII, where characters and bytes agree.
* `time.Now()` is an argument: every handler receives the clock reading it
  takes.
* The handlers of this program are named by `HandlerId`; the handlers that
  `net/http` supplies on its own (not found, redirect, method not allowed, bad
  request) are kept symbolic in `Answer`, with the status code each of them
  sends.
* Of a response the model keeps the status, the headers set by the handler and
  the body.  The headers that the server adds by itself (`Date`,
  `Content-Length`) are left out.
-/

namespace GoAPI

/-! ## `net/http`: headers -/

/-- An `http.Header` with one value per key, the newest binding first. -/
structure Header where
  entries : List (String × String)
deriving DecidableEq

/-- The method `Header.Set`: the key is bound to the single value given. -/
def Header.Set (h : Header) (key value : String) : Header :=
  ⟨(key, value) :: h.entries.filter (fun kv => kv.1 != key)⟩

/-- The method `Header.Get`: the value bound to the key, empty when there is none. -/
def Header.Get (h : Header) (key : String) : String :=
  match h.entries.find? (fun kv => kv.1 == key) with
  | some kv => kv.2
  | none => ""

/-! ## `net/url`: escaped paths

A path is a sequence of bytes; a byte is written as the character with the
same code. -/

/-- The function `ishex` of `net/url`. -/
def ishex (c : Char) : Bool :=
  (48 ≤ c.toNat ∧ c.toNat ≤ 57) ∨ (97 ≤ c.toNat ∧ c.toNat ≤ 102) ∨
    (65 ≤ c.toNat ∧ c.toNat ≤ 70)

/-- The function `unhex` of `net/url`. -/
def unhex (c : Char) : Nat :=
  if 48 ≤ c.toNat ∧ c.toNat ≤ 57 then c.toNat - 48
  else if 97 ≤ c.toNat ∧ c.toNat ≤ 102 then c.toNat - 97 + 10
  else if 65 ≤ c.toNat ∧ c.toNat ≤ 70 then c.toNat - 65 + 10
  else 0

/-- The function `unescape` of `net/url` in the modes for paths: every `%XX`
is replaced by the byte it names, every other character is kept; `none` stands
for the `EscapeError` of a `%` that two hexadecimal digits do not follow. -/
def url.unescape : List Char → Option (List Char)
  | [] => some []
  | c :: rest =>
    if c = '%' then
      match rest with
      | a :: b :: rest2 =>
        if ishex a ∧ ishex b then
          (url.unescape rest2).map (fun t => Char.ofNat (unhex a * 16 + unhex b) :: t)
        else none
      | _ => none
    else (url.unescape rest).map (fun t => c :: t)

/-- The function `pathUnescape` of `net/http`: `url.PathUnescape`, with the
text itself for a text that is not validly escaped. -/
def pathUnescape (path : String) : String :=
  match url.unescape path.data with
  | some u => String.mk u
  | none => path

/-- An incoming `http.Request` as `net/http` hands it to the server handler.
`Path`, `EscapedPath` and `RawQuery` are `r.URL.Path`, `r.URL.EscapedPath()`
and `r.URL.RawQuery`, `URLHost` is `r.URL.Host`.  The last three fields are
what `readRequest` guarantees.

* `asterisk`: `url.ParseRequestURI` gives the asterisk form of the request
  target the path `*`, and a `CONNECT *` is read as an authority with an empty
  path.
* `decoded`: the path is the escaped path with its escapes undone
  (`URL.setPath` decodes the path as it is written, `URL.EscapedPath` answers
  with the written path or with `r.URL.Path` escaped anew).
* `rooted`: the path of a request target that is not the asterisk is empty or
  starts with a slash, and the slash that starts it is never written as an
  escape. -/
structure Request where
  Method : String
  RequestURI : String
  Path : String
  EscapedPath : String
  RawQuery : String
  URLHost : String
  Host : String
  Hdr : Header
  Body : List Char
  asterisk : RequestURI = "*" → Path = "*" ∨ Path = ""
  decoded : Path = pathUnescape EscapedPath
  rooted : EscapedPath = "" ∨ EscapedPath = "*" ∨ EscapedPath.data.head? = some '/'

/-! ## `net/http`: the response writer -/

/-- The `http.response` behind the `ResponseWriter` interface.

* `handlerHeader` is the map returned by `w.Header()`;
* `wroteHeader`, `status` and `sent` record the call of `WriteHeader`: the
  status code and the headers as they were at that moment;
* `body` is the text that went to the connection;
* `budget` is the connection: `none` accepts every write, `some n` accepts `n`
  more characters and fails the write that exceeds them. -/
structure ResponseWriter where
  reqMethod : String
  handlerHeader : Header
  wroteHeader : Bool
  status : Nat
  sent : Header
  body : List Char
  budget : Option Nat
deriving DecidableEq

/-- The response writer the server creates for a request. -/
def newResponseWriter (r : Request) (budget : Option Nat) : ResponseWriter :=
  { reqMethod := r.Method, handlerHeader := ⟨[]⟩, wroteHeader := false, status := 0,
    sent := ⟨[]⟩, body := [], budget := budget }

/-- The call `w.Header().Set(key, value)`. -/
def ResponseWriter.SetHeader (w : ResponseWriter) (key value : String) : ResponseWriter :=
  { w with handlerHeader := w.handlerHeader.Set key value }

/-- The method `WriteHeader` for a final status code: the first call fixes the
status and the headers, a later call changes nothing. -/
def ResponseWriter.WriteHeader (w : ResponseWriter) (code : Nat) : ResponseWriter :=
  if w.wroteHeader then w
  else { w with wroteHeader := true, status := code, sent := w.handlerHeader }

/-- The function `bodyAllowedForStatus` of `net/http`. -/
def bodyAllowedForStatus (status : Nat) : Bool :=
  if 100 ≤ status ∧ status ≤ 199 then false
  else if status = 204 then false
  else if status = 304 then false
  else true

/-- The method `Write`, with the error it returns (`none` is Go's `nil`).
An unwritten header is written first with status 200; for a `HEAD` request the
text is swallowed without error (the "eat writes" of `chunkWriter.Write`);
otherwise the text goes to the connection, which takes what its budget
allows. -/
def ResponseWriter.Write (w : ResponseWriter) (data : List Char) :
    ResponseWriter × Option String :=
  let w1 := if w.wroteHeader then w else w.WriteHeader 200
  if data.isEmpty then (w1, none)
  else if !bodyAllowedForStatus w1.status then
    (w1, some "http: request method or response status code does not allow body")
  else if w1.reqMethod = "HEAD" then (w1, none)
  else
    match w1.budget with
    | none => ({ w1 with body := w1.body ++ data }, none)
    | some n =>
      if data.length ≤ n then
        ({ w1 with body := w1.body ++ data, budget := some (n - data.length) }, none)
      else
        ({ w1 with body := w1.body ++ data.take n, budget := some 0 }, some "write: broken pipe")

/-- The end of `finishRequest`: a handler that returned without writing gets
the header written with status 200. -/
def ResponseWriter.finishRequest (w : ResponseWriter) : ResponseWriter :=
  if w.wroteHeader then w else w.WriteHeader 200

/-! ## `time`: clock readings and their RFC 3339 text -/

/-- A `time.Time` as `time.Now()` returns it: the instant (`sec` seconds and
`nsec` nanoseconds after the Unix epoch) and the offset, in seconds east of
UTC, of the zone that the local `Location` has in force at that instant.
Go keeps `sec` in 64 bits; the model is exact wherever that arithmetic does not
wrap, and where it wraps the year is outside 0..9999 in Go and here alike. -/
structure Time where
  sec : Int
  nsec : Fin 1000000000
  offset : Int
deriving DecidableEq

/-- The instant of a clock reading in nanoseconds since the Unix epoch
(`UnixNano` without the 64-bit limit); instants are compared through it. -/
def Time.unixNano (t : Time) : Int := t.sec * 1000000000 + t.nsec.val

/-- The seconds from the absolute epoch of package `time` (1 January of the
year -292277022399) to the Unix epoch: `unixToInternal + internalToAbsolute`. -/
def unixToAbsolute : Int := 9223372028715321600

/-- The constant `absoluteZeroYear` of package `time`. -/
def absoluteZeroYear : Int := -292277022399

/-- The method `abs`: seconds since the absolute epoch, in the zone of `t`. -/
def Time.abs (t : Time) : Int := t.sec + t.offset + unixToAbsolute

/-- The function `isLeap` of package `time`. -/
def isLeap (year : Int) : Bool :=
  year % 4 = 0 ∧ (year % 100 ≠ 0 ∨ year % 400 = 0)

/-- The first half of `absDate`: the year holding the absolute second `abs`
and the day within that year, counted from 0. -/
@[irreducible] def absYear (abs : Int) : Int × Int :=
  let d := abs / 86400
  let n400 := d / 146097
  let d1 := d - 146097 * n400
  let n100 := d1 / 36524
  let n100 := n100 - n100 / 4
  let d2 := d1 - 36524 * n100
  let n4 := d2 / 1461
  let d3 := d2 - 1461 * n4
  let n1 := d3 / 365
  let n1 := n1 - n1 / 4
  (400 * n400 + 100 * n100 + 4 * n4 + n1 + absoluteZeroYear, d3 - 365 * n1)

/-- The table `daysBefore` of package `time`: `daysBefore m` is the number of
days of a common year that precede month `m + 1`. -/
def daysBefore (m : Int) : Int :=
  if m ≤ 0 then 0 else if m = 1 then 31 else if m = 2 then 59 else if m = 3 then 90
  else if m = 4 then 120 else if m = 5 then 151 else if m = 6 then 181
  else if m = 7 then 212 else if m = 8 then 243 else if m = 9 then 273
  else if m = 10 then 304 else if m = 11 then 334 else 365

/-- The second half of `absDate`: month (1..12) and day of the month (1..31)
of day `yday` (from 0) of the year `year`. -/
@[irreducible] def monthDay (year yday : Int) : Int × Int :=
  if isLeap year ∧ yday = 31 + 29 - 1 then (2, 29)
  else
    let day := if isLeap year ∧ yday > 31 + 29 - 1 then yday - 1 else yday
    let month := day / 31
    let stop := daysBefore (month + 1)
    if day ≥ stop then (month + 2, day - stop + 1)
    else (month + 1, day - daysBefore month + 1)

/-- The function `absClock`: hour, minute and second of the day. -/
@[irreducible] def absClock (abs : Int) : Int × Int × Int :=
  let s := abs % 86400
  let hour := s / 3600
  let s1 := s - hour * 3600
  let min := s1 / 60
  (hour, min, s1 - min * 60)

/-- The year of `t` in its zone (`t.Year()`). -/
def Time.Year (t : Time) : Int := (absYear t.abs).1

/-- The decimal digit `d` as a character. -/
def digitChar (d : Nat) : Char := Char.ofNat (48 + d % 10)

/-- The last `w` decimal digits of `n`, the most significant first. -/
def digitsW : Nat → Nat → List Char
  | 0, _ => []
  | w + 1, n => digitsW w (n / 10) ++ [digitChar (n % 10)]

/-- The number of decimal digits of `n` (1 for 0); `fuel` bounds the recursion
and `n` itself is always enough. -/
def decimalLen : Nat → Nat → Nat
  | 0, _ => 1
  | fuel + 1, n => if n < 10 then 1 else decimalLen fuel (n / 10) + 1

/-- The function `appendInt` of package `time`: the decimal text of `x`, padded
with zeros to `width` digits, after a minus sign when `x` is negative. -/
def appendInt (x : Int) (width : Nat) : List Char :=
  let u := x.natAbs
  (if x < 0 then ['-'] else []) ++ digitsW (max width (decimalLen u u)) u

/-- Drop the zeros at the end of a digit string (the trimming loop of
`appendNano`). -/
def trimZeros (ds : List Char) : List Char :=
  (ds.reverse.dropWhile (fun c => c = '0')).reverse

/-- The function `appendNano` for the layout `.999999999`: nothing for a whole
second, otherwise the point and the nine digits without their final zeros. -/
def appendNano (nanosec : Nat) : List Char :=
  if nanosec = 0 then [] else '.' :: trimZeros (appendInt nanosec 9)

/-- The zone part written by `appendFormatRFC3339`: `Z` for offset 0, otherwise
sign, hours and minutes; the seconds of the offset are dropped (Go divides
towards zero). -/
def appendZone (offset : Int) : List Char :=
  if offset = 0 then ['Z']
  else
    let zone := Int.tdiv offset 60
    let sign := if zone < 0 then '-' else '+'
    let zone := if zone < 0 then -zone else zone
    sign :: (appendInt (zone / 60) 2 ++ ':' :: appendInt (zone % 60) 2)

/-- The method `appendFormatRFC3339` with nanoseconds: the layout
`2006-01-02T15:04:05.999999999Z07:00`. -/
def Time.appendFormatRFC3339 (t : Time) : List Char :=
  let abs := t.abs
  let yd := absYear abs
  let md := monthDay yd.1 yd.2
  let hms := absClock abs
  appendInt yd.1 4 ++ '-' :: (appendInt md.1 2 ++ '-' :: (appendInt md.2 2 ++ 'T' ::
    (appendInt hms.1 2 ++ ':' :: (appendInt hms.2.1 2 ++ ':' :: (appendInt hms.2.2 2 ++
      (appendNano t.nsec.val ++ appendZone t.offset))))))

/-- The checks of `appendStrictRFC3339` (Go 1.20 and later; before that
`MarshalJSON` checked the year alone): RFC 3339 has four digits for the year
and two for the hours of the zone, which must stay below 24. -/
def Time.strictRFC3339 (t : Time) : Except String Unit :=
  if t.Year < 0 ∨ 9999 < t.Year then .error "year outside of range [0,9999]"
  else if t.offset ≠ 0 ∧ 24 ≤ (Int.tdiv t.offset 60).natAbs / 60 then
    .error "timezone hour outside of range [0,23]"
  else .ok ()

/-- The method `Time.MarshalJSON`: the RFC 3339 text between double quotes, or
the error of the strict check (`Time.MarshalJSON: year outside of range
[0,9999]`). -/
def Time.MarshalJSON (t : Time) : Except String (List Char) :=
  match t.strictRFC3339 with
  | .error e => .error ("Time.MarshalJSON: " ++ e)
  | .ok _ => .ok ('"' :: (t.appendFormatRFC3339 ++ ['"']))

/-! ## `encoding/json`: the encoder -/

/-- The hexadecimal digit `d` in lower case, from the table `hex` of `encoding/json`. -/
def hexChar (d : Nat) : Char :=
  if d % 16 < 10 then Char.ofNat (48 + d % 16) else Char.ofNat (87 + d % 16)

/-- The text that the encoder writes for one character of a string, HTML
escaping on (the default of `json.NewEncoder`): quote and backslash get a
backslash, newline, carriage return and tab their short form, the other control
characters and `<`, `>`, `&`, U+2028, U+2029 the form `\u` and four digits. -/
def encodeChar (c : Char) : List Char :=
  if c = '"' then ['\\', '"']
  else if c = '\\' then ['\\', '\\']
  else if c = '\n' then ['\\', 'n']
  else if c = '\r' then ['\\', 'r']
  else if c = '\t' then ['\\', 't']
  else if c.toNat < 32 ∨ c = '<' ∨ c = '>' ∨ c = '&' ∨ c.toNat = 8232 ∨ c.toNat = 8233 then
    ['\\', 'u', hexChar (c.toNat / 4096), hexChar (c.toNat / 256), hexChar (c.toNat / 16),
      hexChar c.toNat]
  else [c]

/-- The JSON text of a Go string. -/
def encodeString (s : String) : List Char :=
  '"' :: (s.data.flatMap encodeChar ++ ['"'])

/-- The type `Response` of `main.go`. -/
structure Response where
  Message : String
  Timestamp : Time
deriving DecidableEq

/-- The encoding `json.Marshal` gives a `Response`: the two fields in the order
of their declaration under the keys of their tags, the time through its
`MarshalJSON`, whose error becomes the error of the whole. -/
def Response.marshal (v : Response) : Except String (List Char) :=
  match v.Timestamp.MarshalJSON with
  | .error e => .error ("json: error calling MarshalJSON for type time.Time: " ++ e)
  | .ok ts =>
    .ok ("\x7b\"message\":".data ++ (encodeString v.Message ++
      (",\"timestamp\":".data ++ (ts ++ ['\x7d']))))

/-- The call `json.NewEncoder(w).Encode(v)`: when the value cannot be
marshalled the error is returned and nothing is written; otherwise the
encoding and a newline go to `w` in one `Write`, whose error is returned. -/
def Encode (w : ResponseWriter) (v : Response) : ResponseWriter × Option String :=
  match v.marshal with
  | .error e => (w, some e)
  | .ok b => w.Write (b ++ ['\n'])

/-! ## `path.Clean` and `cleanPath` -/

/-- The backtracking loop of `path.Clean` on a `..` element: from write
position `w`, step back while above `dotdot` and not on a slash. -/
def backtrack (out : List Char) (dotdot : Nat) : Nat → Nat
  | 0 => 0
  | w + 1 => if w + 1 > dotdot ∧ out.getD (w + 1) '/' ≠ '/' then backtrack out dotdot w else w + 1

/-- The main loop of `path.Clean`: `rest` is the unread input, `out` the text
written so far and `dotdot` the position a `..` may not cross.  Every round
reads at least one character, so a fuel above the length of the input is
never used up. -/
def cleanLoop (rooted : Bool) : Nat → List Char → List Char → Nat → List Char
  | 0, _, out, _ => out
  | _ + 1, [], out, _ => out
  | fuel + 1, c :: rest, out, dotdot =>
    if c = '/' then cleanLoop rooted fuel rest out dotdot
    else if c = '.' ∧ (rest = [] ∨ rest.head? = some '/') then
      cleanLoop rooted fuel rest out dotdot
    else if c = '.' ∧ rest.head? = some '.' ∧
        (rest.tail = [] ∨ rest.tail.head? = some '/') then
      if out.length > dotdot then
        cleanLoop rooted fuel rest.tail (out.take (backtrack out dotdot (out.length - 1))) dotdot
      else if !rooted then
        let out1 := (if out.length > 0 then out ++ ['/'] else out) ++ ['.', '.']
        cleanLoop rooted fuel rest.tail out1 out1.length
      else cleanLoop rooted fuel rest.tail out dotdot
    else
      let out1 :=
        if (rooted ∧ out.length ≠ 1) ∨ (!rooted ∧ out.length ≠ 0) then out ++ ['/'] else out
      cleanLoop rooted fuel ((c :: rest).dropWhile (fun x => x ≠ '/'))
        (out1 ++ (c :: rest).takeWhile (fun x => x ≠ '/')) dotdot

/-- The function `path.Clean`. -/
def Clean (path : List Char) : List Char :=
  if path = [] then ['.']
  else
    let rooted : Bool := path.head? = some '/'
    let out :=
      if rooted then cleanLoop rooted (path.length + 1) path.tail ['/'] 1
      else cleanLoop rooted (path.length + 1) path [] 0
    if out = [] then ['.'] else out

/-- The function `cleanPath` of `net/http`: the canonical form of a request
path, rooted, without `.` and `..` elements and double slashes, keeping a
final slash. -/
def cleanPath (p : String) : String :=
  if p = "" then "/"
  else
    let p1 : List Char := if p.data.head? ≠ some '/' then '/' :: p.data else p.data
    let np := Clean p1
    if p1.getLast? = some '/' ∧ np ≠ ['/'] then
      if p1.length = np.length + 1 ∧ np.isPrefixOf p1 then String.mk p1
      else String.mk (np ++ ['/'])
    else String.mk np

/-- The function `net.SplitHostPort`, keeping only the host; `none` stands for
its errors. -/
def splitHost (hp : List Char) : Option (List Char) :=
  if ¬ hp.contains ':' then none
  else
    let i := hp.length - 1 - hp.reverse.indexOf ':'
    if hp.head? = some '[' then
      if ¬ hp.contains ']' then none
      else
        let stop := hp.indexOf ']'
        if stop + 1 = hp.length then none
        else if stop + 1 ≠ i then none
        else if (hp.drop 1).contains '[' then none
        else if (hp.drop (stop + 1)).contains ']' then none
        else some ((hp.take stop).drop 1)
    else if (hp.take i).contains ':' then none
    else if hp.contains '[' then none
    else if hp.contains ']' then none
    else some (hp.take i)

/-- The function `stripHostPort` of `net/http`. -/
def stripHostPort (h : String) : String :=
  if ¬ h.data.contains ':' then h
  else
    match splitHost h.data with
    | some host => String.mk host
    | none => h

/-! ## `net/http`: the patterns of the request multiplexer

The multiplexer is the one of Go 1.22 and later, as it runs unless the setting
`httpmuxgo121` of `GODEBUG` asks for the older one.  The texts of its errors are
shortened. -/

/-- The handlers this program defines. -/
inductive HandlerId
  | health
  | api
deriving DecidableEq

/-- The type `segment` of `net/http`, one element of the path of a pattern: a
literal (`s` is its text, with `/` for the `{$}` that ends a pattern), a
wildcard (`s` is its name), or a multi wildcard, which also stands for the
slash that ends a pattern. -/
structure segment where
  s : String
  wild : Bool
  multi : Bool
deriving DecidableEq

/-- The type `pattern` of `net/http`: the text of the pattern and what
`parsePattern` read in it. -/
structure pattern where
  str : String
  method : String
  host : String
  segments : List segment
deriving DecidableEq

/-- The method `lastSegment`. -/
def pattern.lastSegment (p : pattern) : segment :=
  p.segments.getLast?.getD { s := "", wild := false, multi := false }

/-- The function `httpguts.IsTokenRune`: the characters of an HTTP token. -/
def isTokenRune (c : Char) : Bool :=
  c.isAlphanum ∨ c.toNat ∈ [33, 35, 36, 37, 38, 39, 42, 43, 45, 46, 94, 95, 96, 124, 126]

/-- The function `validMethod` of `net/http`. -/
def validMethod (method : List Char) : Bool :=
  method ≠ [] ∧ method.all isTokenRune

/-- The function `isValidWildcardName`: a Go identifier.  The letters and
digits are those of ASCII. -/
def isValidWildcardName (name : List Char) : Bool :=
  name ≠ [] ∧ (name.head?.all fun c => c.isAlpha ∨ c = '_') ∧
    name.all fun c => c.isAlphanum ∨ c = '_'

/-- The loop of `parsePattern` over the path of a pattern: `rest` is the path
still to read, which starts with a slash, and `seen` holds the names of the
wildcards read so far.  Every round reads at least the slash. -/
def parseSegments : Nat → List Char → List (List Char) → Except String (List segment)
  | 0, _, _ => .ok []
  | _ + 1, [], _ => .ok []
  | fuel + 1, _ :: rest1, seen =>
    if rest1 = [] then .ok [{ s := "", wild := true, multi := true }]
    else
      let seg := rest1.takeWhile (fun x => x ≠ '/')
      let rest2 := rest1.dropWhile (fun x => x ≠ '/')
      if ¬ seg.contains '\x7b' then
        (parseSegments fuel rest2 seen).map fun segs =>
          { s := pathUnescape (String.mk seg), wild := false, multi := false } :: segs
      else if seg.head? ≠ some '\x7b' then .error "bad wildcard segment (must start with a brace)"
      else if seg.getLast? ≠ some '\x7d' then .error "bad wildcard segment (must end with a brace)"
      else
        let name := (seg.drop 1).dropLast
        if name = ['$'] then
          if rest2 ≠ [] then .error "dollar wildcard not at end"
          else .ok [{ s := "/", wild := false, multi := false }]
        else
          let multi : Bool := ['.', '.', '.'].isSuffixOf name
          let name1 := if multi then name.take (name.length - 3) else name
          if multi ∧ rest2 ≠ [] then .error "multi wildcard not at end"
          else if name1 = [] then .error "empty wildcard"
          else if ¬ isValidWildcardName name1 then .error "bad wildcard name"
          else if seen.contains name1 then .error "duplicate wildcard name"
          else
            (parseSegments fuel rest2 (name1 :: seen)).map fun segs =>
              { s := String.mk name1, wild := true, multi := multi } :: segs

/-- The function `parsePattern` of `net/http`: a pattern is
`[METHOD ][HOST]/[PATH]`. -/
def parsePattern (s : String) : Except String pattern :=
  if s = "" then .error "empty pattern"
  else
    let blank : Char → Bool := fun c => c = ' ' ∨ c = '\t'
    let found : Bool := s.data.any blank
    let method := if found then s.data.takeWhile (fun c => !blank c) else []
    let rest :=
      if found then ((s.data.dropWhile (fun c => !blank c)).drop 1).dropWhile blank else s.data
    if method ≠ [] ∧ ¬ validMethod method then .error "invalid method"
    else if ¬ rest.contains '/' then .error "host/path missing /"
    else
      let host := rest.takeWhile (fun x => x ≠ '/')
      let path := rest.dropWhile (fun x => x ≠ '/')
      if host.contains '\x7b' then .error "host contains a brace (missing initial /?)"
      else if method ≠ [] ∧ method ≠ "CONNECT".data ∧
          String.mk path ≠ cleanPath (String.mk path) then
        .error "non-CONNECT pattern with unclean path can never match"
      else
        (parseSegments (path.length + 1) path []).map fun segs =>
          { str := s, method := String.mk method, host := String.mk host, segments := segs }

/-- The type `relationship` of `net/http`: how the sets of requests that two
patterns match lie to each other. -/
inductive relationship
  | equivalent
  | moreGeneral
  | moreSpecific
  | disjoint
  | overlaps
deriving DecidableEq

/-- The function `inverseRelationship`. -/
def inverseRelationship : relationship → relationship
  | .moreSpecific => .moreGeneral
  | .moreGeneral => .moreSpecific
  | r => r

/-- The function `combineRelationships`. -/
def combineRelationships (r1 r2 : relationship) : relationship :=
  match r1 with
  | .equivalent => r2
  | .disjoint => .disjoint
  | .overlaps => if r2 = .disjoint then .disjoint else .overlaps
  | _ =>
    if r2 = .equivalent then r1
    else if r2 = inverseRelationship r1 then .overlaps
    else r2

/-- The function `compareSegments`. -/
def compareSegments (s1 s2 : segment) : relationship :=
  if s1.multi ∧ s2.multi then .equivalent
  else if s1.multi then .moreGeneral
  else if s2.multi then .moreSpecific
  else if s1.wild ∧ s2.wild then .equivalent
  else if s1.wild then (if s2.s = "/" then .disjoint else .moreGeneral)
  else if s2.wild then (if s1.s = "/" then .disjoint else .moreSpecific)
  else if s1.s = s2.s then .equivalent
  else .disjoint

/-- The loop of `comparePaths` over the segments at the same places, and what
follows it when one pattern is longer; `multi1` and `multi2` tell whether the
patterns end in a multi wildcard. -/
def compareSegmentLists (multi1 multi2 : Bool) :
    relationship → List segment → List segment → relationship
  | rel, [], [] => rel
  | rel, [], _ :: _ => if multi1 then combineRelationships rel .moreGeneral else .disjoint
  | rel, _ :: _, [] => if multi2 then combineRelationships rel .moreSpecific else .disjoint
  | rel, s1 :: segs1, s2 :: segs2 =>
    let rel1 := combineRelationships rel (compareSegments s1 s2)
    if rel1 = .disjoint then .disjoint else compareSegmentLists multi1 multi2 rel1 segs1 segs2

/-- The method `comparePaths`. -/
def pattern.comparePaths (p1 p2 : pattern) : relationship :=
  if p1.segments.length ≠ p2.segments.length ∧ ¬ p1.lastSegment.multi ∧
      ¬ p2.lastSegment.multi then .disjoint
  else
    compareSegmentLists p1.lastSegment.multi p2.lastSegment.multi .equivalent
      p1.segments p2.segments

/-- The method `compareMethods`. -/
def pattern.compareMethods (p1 p2 : pattern) : relationship :=
  if p1.method = p2.method then .equivalent
  else if p1.method = "" then .moreGeneral
  else if p2.method = "" then .moreSpecific
  else if p1.method = "GET" ∧ p2.method = "HEAD" then .moreGeneral
  else if p2.method = "GET" ∧ p1.method = "HEAD" then .moreSpecific
  else .disjoint

/-- The method `comparePathsAndMethods`. -/
def pattern.comparePathsAndMethods (p1 p2 : pattern) : relationship :=
  if p1.compareMethods p2 = .disjoint then .disjoint
  else combineRelationships (p1.compareMethods p2) (p1.comparePaths p2)

/-- The method `conflictsWith`: two patterns conflict when they match the same
requests, or overlap without one being more specific. -/
def pattern.conflictsWith (p1 p2 : pattern) : Bool :=
  if p1.host ≠ p2.host then false
  else p1.comparePathsAndMethods p2 = .equivalent ∨ p1.comparePathsAndMethods p2 = .overlaps

/-! ## `net/http`: the routing tree -/

/-- A leaf of the routing tree, seen from a node above it: the pattern and the
handler the leaf holds, and the keys on the way from the node down to it.  The
key of a literal is its text, the key of a wildcard is the empty text, and a
multi wildcard leads to the child `multiChild`. -/
structure routingLeaf where
  keys : List segment
  pattern : pattern
  handler : HandlerId
deriving DecidableEq

/-- The type `routingNode` of `net/http`, a node of the routing tree, kept as
the list of the leaves at and below it, in the order of registration.  A node
without leaves is the `nil` of Go. -/
structure routingNode where
  leaves : List routingLeaf
deriving DecidableEq

/-- The key under which a segment is found among the children of a node. -/
def segment.key (s : segment) : String := if s.wild then "" else s.s

/-- The method `findChild`: the child for a key; the child for the empty key is
`emptyChild`. -/
def routingNode.findChild (n : routingNode) (key : String) : routingNode :=
  ⟨n.leaves.filterMap fun l =>
    match l.keys with
    | k :: rest => if ¬ k.multi ∧ k.key = key then some { l with keys := rest } else none
    | [] => none⟩

/-- The fields `pattern` and `handler` of a node: set when the node is a leaf. -/
def routingNode.leaf (n : routingNode) : Option routingLeaf :=
  n.leaves.find? fun l => l.keys.isEmpty

/-- The field `multiChild` of a node, itself a leaf: the one set last. -/
def routingNode.multiChild (n : routingNode) : Option routingLeaf :=
  n.leaves.reverse.find? fun l =>
    match l.keys with
    | k :: _ => k.multi
    | [] => false

/-- The way from the root to the leaf of a pattern: host, method, segments. -/
def pattern.keys (p : pattern) : List segment :=
  { s := p.host, wild := false, multi := false } ::
    { s := p.method, wild := false, multi := false } :: p.segments

/-- The method `addPattern` with `addSegments` and `set`: the tree with a leaf
for the pattern.  A multi wildcard gets a new `multiChild` in the place of the
one there was; any other leaf must be new.  An error stands for a panic. -/
def routingNode.addPattern (n : routingNode) (p : pattern) (h : HandlerId) :
    Except String routingNode :=
  let way : List segment → List (Bool × String) := fun ks => ks.map fun k => (k.multi, k.key)
  let l : routingLeaf := { keys := p.keys, pattern := p, handler := h }
  if p.segments.dropLast.any (fun k => k.multi) then .error "multi wildcard not at end"
  else if p.lastSegment.multi then
    .ok ⟨n.leaves.filter (fun x => way x.keys ≠ way p.keys) ++ [l]⟩
  else if n.leaves.any (fun x => way x.keys = way p.keys) then .error "non-nil leaf fields"
  else .ok ⟨n.leaves ++ [l]⟩

/-- The function `firstSegment`: the first segment of a path, unescaped, and
the rest of the path; the segment of the path `/` is `/`. -/
def firstSegment (path : List Char) : String × List Char :=
  if path = ['/'] then ("/", [])
  else
    (pathUnescape (String.mk ((path.drop 1).takeWhile fun x => x ≠ '/')),
      (path.drop 1).dropWhile fun x => x ≠ '/')

/-- The method `matchPath`: the leaf for a path below a node.  A literal is
tried first, then the single wildcard, which does not take the segment `/`,
then the multi wildcard.  Every round takes at least one character off the
path, so a fuel above its length is never used up.  The texts the wildcards
match are not kept: no handler of this program reads them. -/
def routingNode.matchPath (n : routingNode) : Nat → List Char → Option routingLeaf
  | 0, _ => none
  | fuel + 1, path =>
    if n.leaves.isEmpty then none
    else if path.isEmpty then n.leaf
    else
      match (n.findChild (firstSegment path).1).matchPath fuel (firstSegment path).2 with
      | some l => some l
      | none =>
        let viaWildcard :=
          if (firstSegment path).1 ≠ "/" then
            (n.findChild "").matchPath fuel (firstSegment path).2
          else none
        match viaWildcard with
        | some l => some l
        | none => n.multiChild

/-- The method `matchMethodAndPath`: the method itself, then `GET` for a
`HEAD`, then the patterns without method. -/
def routingNode.matchMethodAndPath (n : routingNode) (method : String) (path : List Char) :
    Option routingLeaf :=
  if n.leaves.isEmpty then none
  else
    match (n.findChild method).matchPath (path.length + 1) path with
    | some l => some l
    | none =>
      let viaGet :=
        if method = "HEAD" then (n.findChild "GET").matchPath (path.length + 1) path else none
      match viaGet with
      | some l => some l
      | none => (n.findChild "").matchPath (path.length + 1) path

/-- The method `match` of `routingNode`: the patterns with the host of the
request first, then the patterns without host. -/
def routingNode.matchHost (root : routingNode) (host method : String) (path : List Char) :
    Option routingLeaf :=
  let viaHost := if host ≠ "" then (root.findChild host).matchMethodAndPath method path else none
  match viaHost with
  | some l => some l
  | none => (root.findChild "").matchMethodAndPath method path

/-- The method `matchingMethodsPath`: the methods among the children of a node
whose patterns match the path. -/
def routingNode.matchingMethodsPath (n : routingNode) (path : List Char) : List String :=
  let methods := n.leaves.filterMap fun l =>
    match l.keys with
    | k :: _ => if k.key ≠ "" then some k.key else none
    | [] => none
  methods.dedup.filter fun m => ((n.findChild m).matchPath (path.length + 1) path).isSome

/-- The method `matchingMethods` of `routingNode`; a pattern for `GET` also
takes `HEAD`. -/
def routingNode.matchingMethods (root : routingNode) (host : String) (path : List Char) :
    List String :=
  let ms := (if host ≠ "" then (root.findChild host).matchingMethodsPath path else []) ++
    (root.findChild "").matchingMethodsPath path
  if ms.contains "GET" then ms ++ ["HEAD"] else ms

/-! ## `net/http`: the request multiplexer -/

/-- The type `ServeMux` of `net/http`: the routing tree.  The index that
speeds up the search for conflicts is left out. -/
structure ServeMux where
  tree : routingNode
deriving DecidableEq

/-- The method `registerErr`, reached through `http.HandleFunc`, which panics
with the error: the pattern is parsed, must not conflict with a pattern
registered before, and is added to the tree. -/
def ServeMux.registerErr (mux : ServeMux) (patstr : String) (h : HandlerId) :
    Except String ServeMux :=
  if patstr = "" then .error "http: invalid pattern"
  else
    match parsePattern patstr with
    | .error e => .error ("parsing " ++ patstr ++ ": " ++ e)
    | .ok pat =>
      match mux.tree.leaves.find? (fun l => pat.conflictsWith l.pattern) with
      | some l => .error ("pattern " ++ patstr ++ " conflicts with pattern " ++ l.pattern.str)
      | none => (mux.tree.addPattern pat h).map fun t => { tree := t }

/-- What dispatch settles on: a handler of this program, or one of the
handlers `net/http` makes up: the not-found handler, the redirect handler for
the URL `url.URL{Path: path, RawQuery: rawQuery}` (its text, in which the path
is escaped anew, goes to the header `Location`), and the handler that answers
405 with the methods allowed. -/
inductive Handler
  | registered (h : HandlerId)
  | NotFoundHandler
  | RedirectHandler (path rawQuery : String) (code : Nat)
  | MethodNotAllowed (allow : List String)
deriving DecidableEq

/-- The status of the redirects of the multiplexer, `StatusTemporaryRedirect`;
earlier releases of this multiplexer send `StatusMovedPermanently`, 301. -/
def StatusTemporaryRedirect : Nat := 307

/-- The function `exactMatch`: the match does not rest on a multi wildcard that
took a text that is not empty. -/
def exactMatch (n : Option routingLeaf) (path : List Char) : Bool :=
  match n with
  | none => false
  | some l =>
    if ¬ l.pattern.lastSegment.multi then true
    else if path ≠ [] ∧ path.getLast? ≠ some '/' then false
    else l.pattern.segments.length = path.count '/'

/-- The method `matchOrRedirect`: the leaf for host, method and path, and,
when the URL of the request is given, the URL to redirect to: a path that has
no exact match and does not end in a slash is redirected when it has an exact
match with a slash added. -/
def ServeMux.matchOrRedirect (mux : ServeMux) (host method path : String) (u : Option Request) :
    Option routingLeaf × Option (String × String) :=
  let n := mux.tree.matchHost host method path.data
  match u with
  | none => (n, none)
  | some r =>
    if ¬ exactMatch n path.data ∧ path.data.getLast? ≠ some '/' ∧
        exactMatch (mux.tree.matchHost host method (path.data ++ ['/'])) (path.data ++ ['/']) then
      (none, some (cleanPath r.Path ++ "/", r.RawQuery))
    else (n, none)

/-- The method `matchingMethods` of `ServeMux`: the methods, in order, whose
patterns match the host and the path, or the path with a slash added. -/
def ServeMux.matchingMethods (mux : ServeMux) (host path : String) : List String :=
  let ms := mux.tree.matchingMethods host path.data ++
    (if path.data.getLast? ≠ some '/' then mux.tree.matchingMethods host (path.data ++ ['/'])
     else [])
  ms.dedup.insertionSort fun a b => a ≤ b

/-- The end of `findHandler`: the handler of the leaf found; without a leaf,
405 when the path matches for other methods and the not-found handler when it
does not. -/
def ServeMux.leafHandler (mux : ServeMux) (n : Option routingLeaf) (host path : String) :
    Handler :=
  match n with
  | some l => .registered l.handler
  | none =>
    if mux.matchingMethods host path ≠ [] then .MethodNotAllowed (mux.matchingMethods host path)
    else .NotFoundHandler

/-- The method `findHandler`: the handler for a request.  A `CONNECT` request
is matched on its escaped path as it is; for every other method the escaped
path is cleaned first, and a path that differs from its clean form is answered
by a redirect to the clean form. -/
def ServeMux.findHandler (mux : ServeMux) (r : Request) : Handler :=
  if r.Method = "CONNECT" then
    match (mux.matchOrRedirect r.URLHost r.Method r.EscapedPath (some r)).2 with
    | some u => .RedirectHandler u.1 u.2 StatusTemporaryRedirect
    | none =>
      mux.leafHandler (mux.matchOrRedirect r.Host r.Method r.EscapedPath none).1 r.URLHost
        r.EscapedPath
  else
    let host := stripHostPort r.Host
    let path := cleanPath r.EscapedPath
    match mux.matchOrRedirect host r.Method path (some r) with
    | (_, some u) => .RedirectHandler u.1 u.2 StatusTemporaryRedirect
    | (n, none) =>
      if path ≠ r.EscapedPath then .RedirectHandler path r.RawQuery StatusTemporaryRedirect
      else mux.leafHandler n host path

/-! ## The process and the handlers of `main.go` -/

/-- What the server sends back for a request: the response a handler of this
program wrote, or the answer of `net/http` itself. -/
inductive Answer
  | handled (h : HandlerId) (w : ResponseWriter)
  | notFound
  | redirect (path rawQuery : String) (code : Nat)
  | methodNotAllowed (allow : List String)
  | badRequest
  | options
deriving DecidableEq

/-- The status code of an answer: the one the handler's writer recorded, 404
for `http.NotFound`, the code of the redirect, 405 for a method that is not
allowed, 400 for the asterisk form sent to the multiplexer, 200 for the
server's own reply to `OPTIONS *`. -/
def Answer.status : Answer → Nat
  | .handled _ w => w.status
  | .notFound => 404
  | .redirect _ _ code => code
  | .methodNotAllowed _ => 405
  | .badRequest => 400
  | .options => 200

/-- The handler of this program that produced the answer, if one did. -/
def Answer.handler : Answer → Option HandlerId
  | .handled h _ => some h
  | _ => none

/-- What the process does that is seen from outside, in the order it happens. -/
inductive Event
  | logged (line : String)
  | listen (addr : String)
  | answered (a : Answer)
  | exit (code : Nat)
deriving DecidableEq

/-- The state of the process that every piece of code has in reach: the route
table `http.DefaultServeMux`, and the trace of what was logged through package
`log` (without the date and time that start each line), of the calls to
listen, of the answers the server gave, and of `os.Exit`. -/
structure Proc where
  mux : ServeMux
  trace : List Event
deriving DecidableEq

/-- The function `healthHandler` of `main.go`.  `now` is the reading that
`time.Now()` returns; the error of `Encode` is dropped. -/
def healthHandler (now : Time) (w : ResponseWriter) (_r : Request) (p : Proc) :
    ResponseWriter × Proc :=
  let w1 := w.SetHeader "Content-Type" "application/json"
  let res := Encode w1 { Message := "Service is healthy", Timestamp := now }
  (res.1, p)

/-- The function `apiHandler` of `main.go`. -/
def apiHandler (now : Time) (w : ResponseWriter) (_r : Request) (p : Proc) :
    ResponseWriter × Proc :=
  let w1 := w.SetHeader "Content-Type" "application/json"
  let res := Encode w1 { Message := "Hello from Go API", Timestamp := now }
  (res.1, p)

/-- The function a `HandlerId` names. -/
def HandlerId.ServeHTTP : HandlerId → Time → ResponseWriter → Request → Proc →
    ResponseWriter × Proc
  | .health => healthHandler
  | .api => apiHandler

/-- The method `ServeMux.ServeHTTP`: the asterisk form is refused with 400,
every other request goes to the handler that `findHandler` picks, on a fresh
response writer that the server finishes once the handler has returned. -/
def ServeMux.ServeHTTP (mux : ServeMux) (now : Time) (r : Request) (budget : Option Nat)
    (p : Proc) : Answer × Proc :=
  if r.RequestURI = "*" then (.badRequest, p)
  else
    match mux.findHandler r with
    | .registered h =>
      let res := h.ServeHTTP now (newResponseWriter r budget) r p
      (.handled h res.1.finishRequest, res.2)
    | .NotFoundHandler => (.notFound, p)
    | .RedirectHandler path q code => (.redirect path q code, p)
    | .MethodNotAllowed allow => (.methodNotAllowed allow, p)

/-- The method `serverHandler.ServeHTTP` for a server without handler of its
own, as `http.ListenAndServe(addr, nil)` starts it: `OPTIONS *` is answered by
the server, everything else by `http.DefaultServeMux`. -/
def serverHandler (now : Time) (r : Request) (budget : Option Nat) (p : Proc) :
    Answer × Proc :=
  if r.RequestURI = "*" ∧ r.Method = "OPTIONS" then (.options, p)
  else p.mux.ServeHTTP now r budget p

/-- One request reaching the server: the request, the reading `time.Now()`
returns while it is handled, and the budget of its connection. -/
structure Exchange where
  r : Request
  now : Time
  budget : Option Nat

/-- The accept loop of `Server.Serve` over the requests that arrive, one after
the other: the answers in order and the process afterwards, each answer
recorded in the trace once its handler has returned. -/
def Serve (p : Proc) : List Exchange → List Answer × Proc
  | [] => ([], p)
  | x :: xs =>
    let a := serverHandler x.now x.r x.budget p
    let rest := Serve { a.2 with trace := a.2.trace ++ [.answered a.1] } xs
    (a.1 :: rest.1, rest.2)

/-- What a call of `http.ListenAndServe` meets: `net.Listen` fails; or the
server accepts and serves some requests and then returns the error of `Accept`
(`none` is Go's `nil`, which the documentation of `net/http` rules out); or it
is still serving after the requests seen so far. -/
inductive ListenOutcome
  | bindError (err : String)
  | stopped (served : List Exchange) (err : Option String)
  | running (served : List Exchange)

/-- How far `main` got. -/
inductive Status
  | blocked
  | exited (code : Nat)
deriving DecidableEq

/-- The result of running `main`: the process, the answers the server gave,
and whether `main` is still inside `ListenAndServe` or the process is over. -/
structure Run where
  proc : Proc
  answers : List Answer
  status : Status

/-- The two calls of `http.HandleFunc` that open `main`, on the empty
`DefaultServeMux`. -/
def registerRoutes : Except String ServeMux :=
  match ServeMux.registerErr { tree := ⟨[]⟩ } "/health" .health with
  | .error e => .error e
  | .ok mux => mux.registerErr "/api" .api

/-- The call `log.Fatal(err)`: the line is logged and the process exits with
status 1. -/
def logFatal (p : Proc) (err : String) : Proc :=
  { p with trace := p.trace ++ [.logged err, .exit 1] }

/-- The function `main` of `main.go`; `net` tells what `ListenAndServe` meets
on the address it is given.  A panic of `HandleFunc` ends the process with
status 2. -/
def main (net : String → ListenOutcome) : Run :=
  match registerRoutes with
  | .error e =>
    { proc := { mux := { tree := ⟨[]⟩ },
                trace := [.logged ("panic: " ++ e), .exit 2] },
      answers := [], status := .exited 2 }
  | .ok mux =>
    let p : Proc :=
      { mux := mux, trace := [.logged "Server starting on :8080", .listen ":8080"] }
    match net ":8080" with
    | .bindError err => { proc := logFatal p err, answers := [], status := .exited 1 }
    | .stopped served (some err) =>
      let s := Serve p served
      { proc := logFatal s.2 err, answers := s.1, status := .exited 1 }
    | .stopped served none =>
      let s := Serve p served
      { proc := { s.2 with trace := s.2.trace ++ [.exit 0] }, answers := s.1,
        status := .exited 0 }
    | .running served =>
      let s := Serve p served
      { proc := s.2, answers := s.1, status := .blocked }

/-- The pattern that `parsePattern` reads in a text of the form `/name`. -/
def literalPattern (name : String) : pattern :=
  { str := "/" ++ name, method := "", host := "",
    segments := [{ s := name, wild := false, multi := false }] }

/-- The route table that `main` serves with: the leaves for `/health` and
`/api`, each below the empty host and the empty method. -/
def routes : ServeMux :=
  { tree :=
      ⟨[{ keys := (literalPattern "health").keys
          pattern := literalPattern "health"
          handler := .health },
        { keys := (literalPattern "api").keys
          pattern := literalPattern "api"
          handler := .api }]⟩ }

/-- The process as it stands when the server starts to accept requests. -/
def started : Proc :=
  { mux := routes, trace := [.logged "Server starting on :8080", .listen ":8080"] }

/-- The answer of the server that `main` started to a request handled at the
clock reading `now`, on a connection that takes every write. -/
def respond (r : Request) (now : Time) : Answer :=
  (serverHandler now r none started).1

/-- The body of an answer written by a handler of this program. -/
def Answer.body : Answer → List Char
  | .handled _ w => w.body
  | _ => []

/-- The headers sent with an answer written by a handler of this program. -/
def Answer.header : Answer → Header
  | .handled _ w => w.sent
  | _ => ⟨[]⟩

/-! ## The client side: reading the body back

What it means that a body decodes as JSON, and that a timestamp parses as an
RFC 3339 date-time.  The decoder reads the JSON objects whose members are
strings, the shape of every body this server writes. -/

/-- JSON white space. -/
def isSpace (c : Char) : Bool := c = ' ' ∨ c = '\n' ∨ c = '\r' ∨ c = '\t'

/-- Skip the white space in front. -/
def skipSpace (s : List Char) : List Char := s.dropWhile isSpace

/-- The value of a hexadecimal digit. -/
def hexVal (c : Char) : Option Nat :=
  if 48 ≤ c.toNat ∧ c.toNat ≤ 57 then some (c.toNat - 48)
  else if 97 ≤ c.toNat ∧ c.toNat ≤ 102 then some (c.toNat - 87)
  else if 65 ≤ c.toNat ∧ c.toNat ≤ 70 then some (c.toNat - 55)
  else none

/-- The character a backslash escape of one letter stands for. -/
def unescape (e : Char) : Option Char :=
  if e = '"' then some '"'
  else if e = '\\' then some '\\'
  else if e = '/' then some '/'
  else if e = 'b' then some (Char.ofNat 8)
  else if e = 'f' then some (Char.ofNat 12)
  else if e = 'n' then some '\n'
  else if e = 'r' then some '\r'
  else if e = 't' then some '\t'
  else none

/-- The character of the escape `\u` followed by the four digits. -/
def unescapeHex (a b c d : Char) : Option Char :=
  match hexVal a, hexVal b, hexVal c, hexVal d with
  | some x, some y, some z, some u => some (Char.ofNat (((x * 16 + y) * 16 + z) * 16 + u))
  | _, _, _, _ => none

/-- Read a JSON string whose opening quote has been read: its characters and
the input after the closing quote.  A bare control character is refused. -/
def readString : List Char → Option (List Char × List Char)
  | [] => none
  | c :: rest =>
    if c = '"' then some ([], rest)
    else if c = '\\' then
      match rest with
      | [] => none
      | e :: rest1 =>
        if e = 'u' then
          match rest1 with
          | a :: b :: c2 :: d :: rest2 =>
            match unescapeHex a b c2 d, readString rest2 with
            | some ch, some r => some (ch :: r.1, r.2)
            | _, _ => none
          | _ => none
        else
          match unescape e, readString rest1 with
          | some ch, some r => some (ch :: r.1, r.2)
          | _, _ => none
    else if c.toNat < 32 then none
    else
      match readString rest with
      | some r => some (c :: r.1, r.2)
      | none => none

/-- Read one quoted string after white space. -/
def readQuoted (s : List Char) : Option (List Char × List Char) :=
  match skipSpace s with
  | [] => none
  | c :: rest => if c = '"' then readString rest else none

/-- Read the character `c` after white space. -/
def readChar (c : Char) (s : List Char) : Option (List Char) :=
  match skipSpace s with
  | [] => none
  | x :: rest => if x = c then some rest else none

/-- Read the members of an object up to its closing brace: `key : value`
pairs separated by commas.  The fuel bounds the number of members. -/
def readMembers : Nat → List Char → Option (List (String × String) × List Char)
  | 0, _ => none
  | fuel + 1, s =>
    match readQuoted s with
    | none => none
    | some (k, s1) =>
      match readChar ':' s1 with
      | none => none
      | some s2 =>
        match readQuoted s2 with
        | none => none
        | some (v, s3) =>
          match skipSpace s3 with
          | [] => none
          | c :: s4 =>
            if c = ',' then
              match readMembers fuel s4 with
              | some r => some ((String.mk k, String.mk v) :: r.1, r.2)
              | none => none
            else if c = '\x7d' then some ([(String.mk k, String.mk v)], s4)
            else none

/-- Decode a body as one JSON object with string members: the members in the
order they are written; nothing but white space may follow the object. -/
def decodeObject (body : List Char) : Option (List (String × String)) :=
  match skipSpace body with
  | [] => none
  | c :: s1 =>
    if c = '\x7b' then
      match skipSpace s1 with
      | [] => none
      | c1 :: s2 =>
        if c1 = '\x7d' then (if skipSpace s2 = [] then some [] else none)
        else
          match readMembers body.length s1 with
          | some r => if skipSpace r.2 = [] then some r.1 else none
          | none => none
    else none

/-- The value of a field of the decoded body. -/
def decodeField (body : List Char) (key : String) : Option String :=
  match decodeObject body with
  | some ms => (ms.find? (fun kv => kv.1 == key)).map (fun kv => kv.2)
  | none => none

/-- The value of a decimal digit. -/
def digitVal (c : Char) : Option Nat :=
  if 48 ≤ c.toNat ∧ c.toNat ≤ 57 then some (c.toNat - 48) else none

/-- Read exactly `w` decimal digits: their value and the rest of the input. -/
def readDigits : Nat → List Char → Option (Nat × List Char)
  | 0, s => some (0, s)
  | w + 1, s =>
    match readDigits w s with
    | some (v, c :: rest) =>
      match digitVal c with
      | some d => some (v * 10 + d, rest)
      | none => none
    | _ => none

/-- Read the fraction of a second, if there is one: a point and at least one
digit, of which nine count; the value is in nanoseconds. -/
def readFraction (s : List Char) : Option (Nat × List Char) :=
  match s with
  | [] => some (0, [])
  | c :: rest =>
    if c = '.' then
      let ds := rest.takeWhile (fun x => (digitVal x).isSome)
      if ds = [] then none
      else
        match readDigits 9 ((ds ++ List.replicate 9 '0').take 9) with
        | some r => some (r.1, rest.dropWhile (fun x => (digitVal x).isSome))
        | none => none
    else some (0, c :: rest)

/-- Read the zone that ends an RFC 3339 date-time: `Z`, or a sign, two digits
of hours below 24, a colon and two digits of minutes below 60.  The value is
the offset in seconds east of UTC. -/
def readZone (s : List Char) : Option Int :=
  if s = ['Z'] then some 0
  else
    match s with
    | [] => none
    | sign :: rest =>
      if sign = '+' ∨ sign = '-' then
        match readDigits 2 rest with
        | some (hh, c :: rest2) =>
          if c = ':' then
            match readDigits 2 rest2 with
            | some (mm, []) =>
              if hh ≤ 23 ∧ mm ≤ 59 then
                some ((if sign = '-' then -1 else 1) * ((hh : Int) * 3600 + (mm : Int) * 60))
              else none
            | _ => none
          else none
        | _ => none
      else none

/-- The function `daysSinceEpoch` of package `time`: the days from the absolute
epoch to 1 January of the year. -/
@[irreducible] def daysSinceEpoch (year : Int) : Int :=
  let y := year - absoluteZeroYear
  let n400 := y / 400
  let y1 := y - 400 * n400
  let n100 := y1 / 100
  let y2 := y1 - 100 * n100
  let n4 := y2 / 4
  let y3 := y2 - 4 * n4
  146097 * n400 + 36524 * n100 + 1461 * n4 + 365 * y3

/-- The number of days of a month. -/
def daysIn (month year : Int) : Int :=
  if month = 2 ∧ isLeap year then 29 else daysBefore month - daysBefore (month - 1)

/-- The absolute second of a civil date and time of day, as `time.Date`
computes it. -/
def civilToAbs (year month day hh mm ss : Int) : Int :=
  let d := daysSinceEpoch year + daysBefore (month - 1) +
    (if isLeap year ∧ month ≥ 3 then 1 else 0) + (day - 1)
  d * 86400 + hh * 3600 + mm * 60 + ss

/-- Parse an RFC 3339 date-time, `YYYY-MM-DDTHH:MM:SS`, an optional fraction
of the second and the zone, into the clock reading it denotes.  Fields out of
range are refused. -/
def parseRFC3339 (s : List Char) : Option Time :=
  match readDigits 4 s with
  | some (year, c1 :: s1) =>
    match readDigits 2 s1 with
    | some (month, c2 :: s2) =>
      match readDigits 2 s2 with
      | some (day, c3 :: s3) =>
        match readDigits 2 s3 with
        | some (hh, c4 :: s4) =>
          match readDigits 2 s4 with
          | some (mm, c5 :: s5) =>
            match readDigits 2 s5 with
            | some (ss, s6) =>
              match readFraction s6 with
              | some (nsec, s7) =>
                match readZone s7 with
                | some offset =>
                  if h : c1 = '-' ∧ c2 = '-' ∧ c3 = 'T' ∧ c4 = ':' ∧ c5 = ':' ∧
                      1 ≤ month ∧ month ≤ 12 ∧ 1 ≤ day ∧ (day : Int) ≤ daysIn month year ∧
                      hh ≤ 23 ∧ mm ≤ 59 ∧ ss ≤ 59 ∧ nsec < 1000000000 then
                    some { sec := civilToAbs year month day hh mm ss - unixToAbsolute - offset,
                           nsec := ⟨nsec, h.2.2.2.2.2.2.2.2.2.2.2.2⟩,
                           offset := offset }
                  else none
                | none => none
              | none => none
            | none => none
          | _ => none
        | _ => none
      | _ => none
    | _ => none
  | _ => none

/-- The `message` field of a body, when the body decodes. -/
def decodeMessage (body : List Char) : Option String := decodeField body "message"

/-- The `timestamp` field of a body as a clock reading, when the body decodes
and the field parses. -/
def decodeTimestamp (body : List Char) : Option Time :=
  match decodeField body "timestamp" with
  | some ts => parseRFC3339 ts.data
  | none => none

/-! ## Notions the properties are stated with -/

/-- The pattern a handler is registered under in `main`. -/
def HandlerId.pattern : HandlerId → String
  | .health => "/health"
  | .api => "/api"

/-- The leaf of a handler in the routing tree of `main`, seen from the leaf
itself. -/
def HandlerId.leaf : HandlerId → routingLeaf
  | .health => { keys := [], pattern := literalPattern "health", handler := .health }
  | .api => { keys := [], pattern := literalPattern "api", handler := .api }

/-- The node of the routing tree of `main` at a depth: the tree itself at depth
0, the node of the empty host at depth 1, below it the node of the empty
method at depth 2, whose children are the two leaves. -/
def routesFrom (depth : Nat) : routingNode :=
  ⟨[{ HandlerId.health.leaf with keys := (literalPattern "health").keys.drop depth },
    { HandlerId.api.leaf with keys := (literalPattern "api").keys.drop depth }]⟩

/-- An element of a path in canonical form: a text that is not empty, holds no
slash and is neither `.` nor `..`. -/
def element (s : List Char) : Prop := s ≠ [] ∧ '/' ∉ s ∧ s ≠ ['.'] ∧ s ≠ ['.', '.']

/-- The path `/s1/s2/.../sk` made of the elements `s1`, ..., `sk`. -/
def joinPath : List (List Char) → List Char
  | [] => []
  | s :: rest => '/' :: s ++ joinPath rest

/-- The rooted path made of some elements: `/` when there is none. -/
def rootPath (segs : List (List Char)) : List Char :=
  if segs = [] then ['/'] else joinPath segs

/-- A path in canonical form: a rooted path made of elements, with or without
a final slash. -/
def canonical (p : List Char) : Prop :=
  ∃ segs, (∀ s ∈ segs, element s) ∧
    (p = rootPath segs ∨ (segs ≠ [] ∧ p = joinPath segs ++ ['/']))

/-- The message a handler puts in its `Response`. -/
def HandlerId.message : HandlerId → String
  | .health => "Service is healthy"
  | .api => "Hello from Go API"

/-- The request target a client writes for a path: the path itself when it is
the asterisk or starts with a slash, and with a slash put in front when it
does not. -/
def target (path : String) : String :=
  if path = "*" ∨ path.data.head? = some '/' then path else "/" ++ path

/-- The request `method path` of a client of `localhost:8080`, without query,
headers or body, for a path written in valid encoding: the escaped path is the
path as written, the path is what it decodes to. -/
def request (method path : String) : Request :=
  { Method := method, RequestURI := target path, Path := pathUnescape (target path),
    EscapedPath := target path, RawQuery := "", URLHost := "",
    Host := "localhost:8080", Hdr := ⟨[]⟩, Body := [],
    asterisk := fun h => Or.inl (by rw [h]; rfl),
    decoded := rfl,
    rooted := by
      unfold target
      split_ifs with h
      · rcases h with h | h
        · exact Or.inr (Or.inl h)
        · exact Or.inr (Or.inr h)
      · exact Or.inr (Or.inr rfl) }

/-- The clock reading 2024-01-01T00:00:00Z. -/
def newYear2024 : Time := { sec := 1704067200, nsec := 0, offset := 0 }

/-- The clock reading 10000-01-01T00:00:00Z, one second after the last year
RFC 3339 can write. -/
def year10000 : Time := { sec := 253402300800, nsec := 0, offset := 0 }

/-- The instant 2024-01-01T00:00:00Z read in a zone whose offset is 1 hour and
30 seconds east of UTC. -/
def oddZoneReading : Time := { sec := 1704067200, nsec := 0, offset := 3630 }

/-- The instant one second after `oddZoneReading`, read in a zone whose offset
is 1 hour east of UTC. -/
def nextReading : Time := { sec := 1704067201, nsec := 0, offset := 3600 }

/-- A listener that binds, serves one `GET /health` at 2024-01-01T00:00:00Z and
then returns an error of `Accept`. -/
def failsAfterOne (_addr : String) : ListenOutcome :=
  .stopped [{ r := request "GET" "/health", now := newYear2024, budget := none }]
    (some "accept tcp [::]:8080: accept4: cannot allocate memory")

/-- A clock gives a reading at every moment of a run, the moments counted
from 0.  It is non-decreasing when a later moment never reads an earlier
instant. -/
def nonDecreasing (clock : Nat → Time) : Prop :=
  ∀ i j, i ≤ j → (clock i).unixNano ≤ (clock j).unixNano

/-- A clock in UTC that starts at 2024-01-01T00:00:00Z and advances one second
from each moment to the next. -/
def tickingClock (n : Nat) : Time := { sec := 1704067200 + n, nsec := 0, offset := 0 }

/-- The characters a clock reading is written with. -/
def timeChar (c : Char) : Prop :=
  (48 ≤ c.toNat ∧ c.toNat ≤ 57) ∨ c = '-' ∨ c = ':' ∨ c = 'T' ∨ c = 'Z' ∨ c = '+' ∨ c = '.'

/-- The clock readings RFC 3339 can write: the year, in the zone of the
reading, lies in 0..9999 and the zone is less than 24 hours away from UTC. -/
def Time.inRFC3339 (t : Time) : Prop :=
  0 ≤ t.Year ∧ t.Year ≤ 9999 ∧ (Int.tdiv t.offset 60).natAbs / 60 < 24

instance (t : Time) : Decidable t.inRFC3339 := by
  unfold Time.inRFC3339
  exact inferInstance

/-- The zone offset of the reading is a whole number of minutes. -/
def Time.wholeMinutes (t : Time) : Prop := t.offset % 60 = 0

instance (t : Time) : Decidable t.wholeMinutes := by
  unfold Time.wholeMinutes
  exact inferInstance

/-! ## Escaped paths -/

theorem unescape_cons (c : Char) (s : List Char) (h : c ≠ '%') :
    url.unescape (c :: s) = (url.unescape s).map (fun t => c :: t) := by
  rw [url.unescape.eq_def]
  simp [h]

theorem pathUnescape_cons (c : Char) (s : List Char) (h : c ≠ '%') :
    pathUnescape (String.mk (c :: s)) = String.mk (c :: (pathUnescape (String.mk s)).data) := by
  unfold pathUnescape
  simp only [unescape_cons c s h]
  cases url.unescape s <;> simp

theorem ishex_ne_slash (a : Char) (h : ishex a = true) : a ≠ '/' := by
  rintro rfl
  revert h
  decide

theorem slash_mem_unescape : ∀ (n : Nat) (s t : List Char), s.length ≤ n →
    url.unescape s = some t → '/' ∈ s → '/' ∈ t := by
  intro n
  induction n with
  | zero =>
    intro s t hl _ hm
    cases s with
    | nil => simp at hm
    | cons c r => simp at hl
  | succ n ih =>
    intro s t hl hu hm
    cases s with
    | nil => simp at hm
    | cons c r =>
      by_cases hc : c = '%'
      · subst hc
        rw [url.unescape.eq_def] at hu
        simp only [if_true] at hu
        match r, hu, hm, hl with
        | [], hu, _, _ => simp at hu
        | [_], hu, _, _ => simp at hu
        | a :: b :: r2, hu, hm, hl =>
          simp only at hu
          split_ifs at hu with hx
          · cases h2 : url.unescape r2 with
            | none => simp [h2] at hu
            | some t2 =>
              simp only [h2, Option.map_some', Option.some.injEq] at hu
              have ha := ishex_ne_slash a hx.1
              have hb := ishex_ne_slash b hx.2
              have hm2 : '/' ∈ r2 := by
                simp only [List.mem_cons] at hm
                rcases hm with hm | hm | hm | hm
                · exact absurd hm (by decide)
                · exact absurd hm.symm ha
                · exact absurd hm.symm hb
                · exact hm
              have := ih r2 t2 (by simp at hl; omega) h2 hm2
              rw [← hu]
              exact List.mem_cons_of_mem _ this
      · rw [unescape_cons c r hc] at hu
        cases h2 : url.unescape r with
        | none => simp [h2] at hu
        | some t2 =>
          simp only [h2, Option.map_some', Option.some.injEq] at hu
          rw [← hu]
          simp only [List.mem_cons] at hm ⊢
          rcases hm with hm | hm
          · left; exact hm
          · right; exact ih r t2 (by simp at hl; omega) h2 hm

theorem slash_mem_pathUnescape (s : List Char) (h : '/' ∈ s) :
    '/' ∈ (pathUnescape (String.mk s)).data := by
  unfold pathUnescape
  cases h2 : url.unescape s with
  | none => simpa using h
  | some t => simpa using slash_mem_unescape s.length s t (le_refl _) h2 h

theorem takeWhile_no_slash (s : List Char) (h : '/' ∉ s) :
    s.takeWhile (fun x => x ≠ '/') = s := by
  induction s with
  | nil => rfl
  | cons c r ih =>
    simp only [List.mem_cons, not_or] at h
    have hc : c ≠ '/' := fun e => h.1 e.symm
    rw [List.takeWhile_cons]
    simp only [ne_eq, hc, not_false_eq_true, decide_True, if_true]
    rw [ih h.2]

theorem dropWhile_no_slash (s : List Char) (h : '/' ∉ s) :
    s.dropWhile (fun x => x ≠ '/') = [] := by
  induction s with
  | nil => rfl
  | cons c r ih =>
    simp only [List.mem_cons, not_or] at h
    have hc : c ≠ '/' := fun e => h.1 e.symm
    rw [List.dropWhile_cons]
    simp only [ne_eq, hc, not_false_eq_true, decide_True, if_true]
    exact ih h.2

theorem no_slash_of_dropWhile (s : List Char) (h : s.dropWhile (fun x => x ≠ '/') = []) :
    '/' ∉ s := by
  induction s with
  | nil => simp
  | cons c r ih =>
    by_cases hc : c = '/'
    · simp [List.dropWhile, hc] at h
    · simp only [List.dropWhile, ne_eq, hc, not_false_eq_true, decide_True] at h
      simp only [List.mem_cons, not_or]
      exact ⟨fun e => hc e.symm, ih h⟩

/-- A rooted path with a single element that is neither empty nor a dot
element is in canonical form. -/
theorem cleanPath_segment (s : List Char) (h1 : '/' ∉ s) (h2 : s ≠ []) (h3 : s ≠ ['.'])
    (h4 : s ≠ ['.', '.']) : cleanPath (String.mk ('/' :: s)) = String.mk ('/' :: s) := by
  have hclean : Clean ('/' :: s) = '/' :: s := by
    unfold Clean
    simp only [List.cons_ne_nil, if_false, List.head?_cons, decide_True, if_true, List.tail_cons,
      List.length_cons]
    cases s with
    | nil => exact absurd rfl h2
    | cons c r =>
      simp only [List.mem_cons, not_or] at h1
      have hc : c ≠ '/' := fun e => h1.1 e.symm
      have hr : r.head? ≠ some '/' := by
        intro e
        cases r with
        | nil => simp at e
        | cons d r2 =>
          simp only [List.head?_cons, Option.some.injEq] at e
          exact h1.2 (by rw [e]; exact List.mem_cons_self _ _)
      have hr2 : r.tail.head? ≠ some '/' := by
        intro e
        cases r with
        | nil => simp at e
        | cons d r2 =>
          cases r2 with
          | nil => simp at e
          | cons d2 r3 =>
            simp only [List.tail_cons, List.head?_cons, Option.some.injEq] at e
            exact h1.2 (by rw [e]; simp)
      have n1 : ¬ (c = '.' ∧ (r = [] ∨ r.head? = some '/')) := by
        rintro ⟨a, b | b⟩
        · exact h3 (by rw [a, b])
        · exact hr b
      have n2 : ¬ (c = '.' ∧ r.head? = some '.' ∧ (r.tail = [] ∨ r.tail.head? = some '/')) := by
        rintro ⟨a, b, d | d⟩
        · apply h4
          cases r with
          | nil => simp at b
          | cons x r2 =>
            simp only [List.head?_cons, Option.some.injEq] at b
            simp only [List.tail_cons] at d
            rw [a, b, d]
        · exact hr2 d
      have ht : (c :: r).takeWhile (fun x => x ≠ '/') = c :: r :=
        takeWhile_no_slash _ (by simp only [List.mem_cons, not_or]; exact h1)
      have hd : (c :: r).dropWhile (fun x => x ≠ '/') = [] :=
        dropWhile_no_slash _ (by simp only [List.mem_cons, not_or]; exact h1)
      rw [cleanLoop]
      simp only [hc, if_false, n1, n2, ht, hd]
      simp [cleanLoop]
  have hlast : ('/' :: s).getLast? ≠ some '/' := by
    intro e
    have hm : '/' ∈ s := by
      cases s with
      | nil => exact absurd rfl h2
      | cons c r =>
        rw [List.getLast?_cons_cons] at e
        exact List.mem_of_getLast?_eq_some e
    exact h1 hm
  unfold cleanPath
  have hne : String.mk ('/' :: s) ≠ "" := by
    intro e
    have := congrArg String.data e
    simp at this
  simp only [hne, if_false, List.head?_cons, ne_eq, not_true_eq_false, hclean, hlast, false_and]

/-! ## Paths in canonical form -/

theorem joinPath_append (a b : List (List Char)) :
    joinPath (a ++ b) = joinPath a ++ joinPath b := by
  induction a with
  | nil => rfl
  | cons s a ih => simp [joinPath, ih]

theorem joinPath_length (s : List Char) (rest : List (List Char)) (hs : s ≠ []) :
    2 ≤ (joinPath (s :: rest)).length := by
  cases s with
  | nil => exact absurd rfl hs
  | cons c r => simp [joinPath]

theorem rootPath_length (segs : List (List Char)) (h : ∀ s ∈ segs, element s) :
    (rootPath segs).length > 1 ↔ segs ≠ [] := by
  unfold rootPath
  cases segs with
  | nil => simp
  | cons s rest =>
    have := joinPath_length s rest (h s (List.mem_cons_self _ _)).1
    simp
    omega

/-- Adding an element to a rooted path, as `path.Clean` writes it. -/
theorem rootPath_concat (segs : List (List Char)) (seg : List Char)
    (h : ∀ s ∈ segs, element s) :
    (if (rootPath segs).length ≠ 1 then rootPath segs ++ ['/'] else rootPath segs) ++ seg =
      rootPath (segs ++ [seg]) := by
  have hne : segs ++ [seg] ≠ [] := by simp
  cases segs with
  | nil => simp [rootPath, joinPath]
  | cons s rest =>
    have h2 := joinPath_length s rest (h s (List.mem_cons_self _ _)).1
    have h3 : (rootPath (s :: rest)).length ≠ 1 := by
      unfold rootPath
      simp only [List.cons_ne_nil, if_false]
      omega
    rw [if_pos h3]
    unfold rootPath
    rw [if_neg hne, if_neg (List.cons_ne_nil _ _), joinPath_append]
    simp [joinPath]

/-- The step back of `path.Clean` over the last element of a path. -/
theorem backtrack_spec (pre last : List Char) (hl : '/' ∉ last) :
    ∀ j, j ≤ last.length → 1 ≤ pre.length + j →
      backtrack (pre ++ '/' :: last) 1 (pre.length + j) = max pre.length 1 := by
  intro j
  induction j with
  | zero =>
    intro _ h1
    obtain ⟨k, hk⟩ : ∃ k, pre.length = k + 1 := ⟨pre.length - 1, by omega⟩
    have hget : (pre ++ '/' :: last).getD (k + 1) '/' = '/' := by
      rw [← hk, List.getD_append_right _ _ _ _ (le_refl _)]
      simp
    simp only [Nat.add_zero, hk, backtrack, hget, ne_eq, not_true_eq_false, and_false, if_false]
    omega
  | succ j ih =>
    intro h0 _
    have hj : j < last.length := by omega
    have hget : (pre ++ '/' :: last).getD (pre.length + j + 1) '/' = last[j] := by
      rw [List.getD_append_right _ _ _ _ (by omega)]
      have : pre.length + j + 1 - pre.length = j + 1 := by omega
      rw [this, List.getD_cons_succ, List.getD_eq_getElem _ _ hj]
    have hne : last[j] ≠ '/' := by
      intro e
      exact hl (e ▸ List.getElem_mem hj)
    show backtrack (pre ++ '/' :: last) 1 (pre.length + j + 1) = _
    rw [backtrack, hget]
    by_cases hw : pre.length + j + 1 > 1
    · rw [if_pos ⟨hw, hne⟩]
      exact ih (by omega) (by omega)
    · rw [if_neg (fun h => hw h.1)]
      omega

theorem takeWhile_eq_nil (l : List Char) (h : l.takeWhile (fun x => x ≠ '/') = []) :
    l = [] ∨ l.head? = some '/' := by
  cases l with
  | nil => exact Or.inl rfl
  | cons c r =>
    right
    by_cases hc : c = '/'
    · rw [hc]; rfl
    · rw [List.takeWhile_cons] at h
      simp [hc] at h

theorem takeWhile_no_slash_mem (l : List Char) : '/' ∉ l.takeWhile (fun x => x ≠ '/') := by
  intro h
  have := List.mem_takeWhile_imp h
  simp at this

/-- What `path.Clean` copies to its output is an element. -/
theorem takeWhile_element (c : Char) (rest : List Char) (hc : c ≠ '/')
    (n1 : ¬ (c = '.' ∧ (rest = [] ∨ rest.head? = some '/')))
    (n2 : ¬ (c = '.' ∧ rest.head? = some '.' ∧
      (rest.tail = [] ∨ rest.tail.head? = some '/'))) :
    element ((c :: rest).takeWhile (fun x => x ≠ '/')) := by
  have ht : (c :: rest).takeWhile (fun x => x ≠ '/') =
      c :: rest.takeWhile (fun x => x ≠ '/') := by
    rw [List.takeWhile_cons]
    simp [hc]
  refine ⟨?_, takeWhile_no_slash_mem _, ?_, ?_⟩
  · rw [ht]
    simp
  · rw [ht]
    intro e
    simp only [List.cons.injEq] at e
    exact n1 ⟨e.1, takeWhile_eq_nil rest e.2⟩
  · rw [ht]
    intro e
    simp only [List.cons.injEq] at e
    apply n2
    refine ⟨e.1, ?_⟩
    cases rest with
    | nil => simp at e
    | cons d r2 =>
      by_cases hd : d = '/'
      · rw [List.takeWhile_cons] at e
        simp [hd] at e
      · rw [List.takeWhile_cons] at e
        simp only [ne_eq, hd, not_false_eq_true, decide_True, if_true, List.cons.injEq] at e
        refine ⟨by rw [e.2.1]; rfl, ?_⟩
        exact takeWhile_eq_nil r2 e.2.2

/-- The output of the loop of `path.Clean` on a rooted path stays a rooted path
made of elements. -/
theorem cleanLoop_inv : ∀ (fuel : Nat) (rest : List Char) (segs : List (List Char)),
    (∀ s ∈ segs, element s) →
    ∃ segs2, (∀ s ∈ segs2, element s) ∧
      cleanLoop true fuel rest (rootPath segs) 1 = rootPath segs2 := by
  intro fuel
  induction fuel with
  | zero =>
    intro rest segs h
    exact ⟨segs, h, by rw [cleanLoop]⟩
  | succ fuel ih =>
    intro rest segs h
    cases rest with
    | nil => exact ⟨segs, h, by rw [cleanLoop]⟩
    | cons c rest =>
      rw [cleanLoop]
      by_cases hc : c = '/'
      · rw [if_pos hc]
        exact ih rest segs h
      · rw [if_neg hc]
        by_cases n1 : c = '.' ∧ (rest = [] ∨ rest.head? = some '/')
        · rw [if_pos n1]
          exact ih rest segs h
        · rw [if_neg n1]
          by_cases n2 : c = '.' ∧ rest.head? = some '.' ∧
              (rest.tail = [] ∨ rest.tail.head? = some '/')
          · rw [if_pos n2]
            by_cases hs : segs = []
            · have hlen : ¬ (rootPath segs).length > 1 := by
                rw [rootPath_length segs h]
                exact fun x => x hs
              rw [if_neg hlen]
              simp only [Bool.not_true, Bool.false_eq_true, if_false]
              exact ih rest.tail segs h
            · have hlen : (rootPath segs).length > 1 := (rootPath_length segs h).mpr hs
              rw [if_pos hlen]
              obtain ⟨init, last, rfl⟩ : ∃ init last, segs = init ++ [last] :=
                ⟨segs.dropLast, segs.getLast hs, (List.dropLast_append_getLast hs).symm⟩
              have hlast : element last := h last (by simp)
              have hinit : ∀ s ∈ init, element s := fun s hm => h s (by simp [hm])
              have hout : rootPath (init ++ [last]) = joinPath init ++ '/' :: last := by
                unfold rootPath
                rw [if_neg (by simp), joinPath_append]
                simp [joinPath]
              have hb : backtrack (rootPath (init ++ [last])) 1
                  ((rootPath (init ++ [last])).length - 1) = max (joinPath init).length 1 := by
                rw [hout]
                have : (joinPath init ++ '/' :: last).length - 1 =
                    (joinPath init).length + last.length := by simp
                rw [this]
                have hl1 : 1 ≤ last.length := by
                  cases last with
                  | nil => exact absurd rfl hlast.1
                  | cons _ _ => simp
                exact backtrack_spec _ _ hlast.2.1 _ (le_refl _) (by omega)
              rw [hb]
              have htake : (rootPath (init ++ [last])).take (max (joinPath init).length 1) =
                  rootPath init := by
                rw [hout]
                cases init with
                | nil => simp [rootPath, joinPath]
                | cons s0 r0 =>
                  have := joinPath_length s0 r0 (hinit s0 (List.mem_cons_self _ _)).1
                  have hm : max (joinPath (s0 :: r0)).length 1 = (joinPath (s0 :: r0)).length := by
                    omega
                  rw [hm, List.take_left']
                  · simp [rootPath]
                  · rfl
              rw [htake]
              exact ih rest.tail init hinit
          · rw [if_neg n2]
            simp only [Bool.not_true, Bool.false_eq_true, false_and, or_false, true_and]
            rw [rootPath_concat segs _ h]
            apply ih
            intro s hm
            simp only [List.mem_append, List.mem_singleton] at hm
            rcases hm with hm | hm
            · exact h s hm
            · rw [hm]
              exact takeWhile_element c rest hc n1 n2

/-- The function `path.Clean` gives a rooted path a form made of elements. -/
theorem Clean_rooted (p : List Char) :
    ∃ segs, (∀ s ∈ segs, element s) ∧ Clean ('/' :: p) = rootPath segs := by
  obtain ⟨segs, h1, h2⟩ := cleanLoop_inv (p.length + 1 + 1) p [] (by simp)
  refine ⟨segs, h1, ?_⟩
  unfold Clean
  have h0 : rootPath [] = ['/'] := rfl
  rw [h0] at h2
  simp only [List.cons_ne_nil, if_false, List.head?_cons, decide_True, if_true, List.tail_cons,
    List.length_cons, h2]
  have : rootPath segs ≠ [] := by
    unfold rootPath
    cases segs with
    | nil => simp
    | cons s r => simp [joinPath]
  simp [this]

theorem rootPath_head (segs : List (List Char)) : (rootPath segs).head? = some '/' := by
  unfold rootPath
  cases segs with
  | nil => rfl
  | cons s r => rfl

/-- A path that `cleanPath` leaves as it is, is a rooted path made of elements,
with or without a final slash. -/
theorem cleanPath_fixed_shape (p : String) (h : cleanPath p = p) : canonical p.data := by
  unfold canonical
  unfold cleanPath at h
  by_cases hp : p = ""
  · rw [if_pos hp, hp] at h
    exact absurd h (by decide)
  · rw [if_neg hp] at h
    have key : ∀ q : List Char,
        ∃ segs, (∀ s ∈ segs, element s) ∧ ∀ res : String,
          (if ('/' :: q).getLast? = some '/' ∧ Clean ('/' :: q) ≠ ['/'] then
            if ('/' :: q).length = (Clean ('/' :: q)).length + 1 ∧
                (Clean ('/' :: q)).isPrefixOf ('/' :: q) then String.mk ('/' :: q)
            else String.mk (Clean ('/' :: q) ++ ['/'])
          else String.mk (Clean ('/' :: q))) = res →
          (res.data = rootPath segs ∨ (segs ≠ [] ∧ res.data = joinPath segs ++ ['/'])) ∨
          (res.data = '/' :: q ∧ (segs ≠ [] ∧ '/' :: q = joinPath segs ++ ['/'])) := by
      intro q
      obtain ⟨segs, h1, h2⟩ := Clean_rooted q
      refine ⟨segs, h1, ?_⟩
      intro res hres
      rw [h2] at hres
      have hsegs : rootPath segs ≠ ['/'] → segs ≠ [] := by
        intro hne hs
        exact hne (by rw [hs]; rfl)
      have hroot : segs ≠ [] → rootPath segs = joinPath segs := by
        intro hs
        unfold rootPath
        rw [if_neg hs]
      split_ifs at hres with c1 c2
      · right
        refine ⟨by rw [← hres], hsegs c1.2, ?_⟩
        obtain ⟨t, ht⟩ := List.isPrefixOf_iff_prefix.mp c2.2
        have hlen : t.length = 1 := by
          have := congrArg List.length ht
          rw [List.length_append] at this
          omega
        obtain ⟨x, rfl⟩ := List.length_eq_one.mp hlen
        have hx : x = '/' := by
          have hl := c1.1
          rw [← ht, List.getLast?_append] at hl
          simpa using hl
        rw [← ht, hx, hroot (hsegs c1.2)]
      · left
        right
        refine ⟨hsegs c1.2, ?_⟩
        rw [← hres, hroot (hsegs c1.2)]
      · left
        left
        rw [← hres]
    by_cases hr : p.data.head? = some '/'
    · obtain ⟨q, hq⟩ : ∃ q, p.data = '/' :: q := by
        cases hd : p.data with
        | nil => rw [hd] at hr; simp at hr
        | cons c q =>
          rw [hd] at hr
          simp only [List.head?_cons, Option.some.injEq] at hr
          exact ⟨q, by rw [hr]⟩
      obtain ⟨segs, h1, h2⟩ := key q
      refine ⟨segs, h1, ?_⟩
      have hh : ¬ (p.data.head? ≠ some '/') := fun x => x hr
      simp only [hh, if_false, hq] at h
      rcases h2 p h with h3 | h3
      · exact h3
      · right
        exact ⟨h3.2.1, by rw [hq]; exact h3.2.2⟩
    · exfalso
      obtain ⟨segs, h1, h2⟩ := key p.data
      simp only [ne_eq, hr, not_false_eq_true, if_true] at h
      rcases h2 p h with h3 | h3
      · rcases h3 with h3 | h3
        · apply hr
          rw [h3]
          exact rootPath_head segs
        · apply hr
          rw [h3.2]
          cases segs with
          | nil => exact absurd rfl h3.1
          | cons s r => rfl
      · have := congrArg List.length h3.1
        simp at this

theorem takeWhile_append_slash (s x : List Char) (hs : '/' ∉ s)
    (hx : x = [] ∨ x.head? = some '/') :
    (s ++ x).takeWhile (fun c => c ≠ '/') = s ∧ (s ++ x).dropWhile (fun c => c ≠ '/') = x := by
  induction s with
  | nil =>
    rcases hx with hx | hx
    · subst hx
      exact ⟨rfl, rfl⟩
    · cases x with
      | nil => exact ⟨rfl, rfl⟩
      | cons c r =>
        simp only [List.head?_cons, Option.some.injEq] at hx
        subst hx
        exact ⟨rfl, rfl⟩
  | cons c r ih =>
    simp only [List.mem_cons, not_or] at hs
    have hc : c ≠ '/' := fun e => hs.1 e.symm
    have := ih hs.2
    rw [List.cons_append, List.takeWhile_cons, List.dropWhile_cons]
    simp only [ne_eq, hc, not_false_eq_true, decide_True, if_true, this, and_self]

theorem joinPath_head (rest : List (List Char)) (trailing : List Char)
    (ht : trailing = [] ∨ trailing = ['/']) :
    joinPath rest ++ trailing = [] ∨ (joinPath rest ++ trailing).head? = some '/' := by
  cases rest with
  | nil =>
    rcases ht with ht | ht
    · left; rw [ht]; rfl
    · right; rw [ht]; rfl
  | cons s r => right; rfl

/-- The loop of `path.Clean` copies a path made of elements. -/
theorem cleanLoop_canonical : ∀ (rest : List (List Char)) (s : List Char)
    (acc : List (List Char)) (trailing : List Char) (fuel : Nat),
    element s → (∀ x ∈ rest, element x) → (∀ x ∈ acc, element x) →
    (trailing = [] ∨ trailing = ['/']) →
    (s ++ (joinPath rest ++ trailing)).length < fuel →
    cleanLoop true fuel (s ++ (joinPath rest ++ trailing)) (rootPath acc) 1 =
      rootPath (acc ++ s :: rest) := by
  intro rest
  induction rest with
  | nil =>
    intro s acc trailing fuel hs _ hacc ht hfuel
    obtain ⟨f, rfl⟩ : ∃ f, fuel = f + 1 := ⟨fuel - 1, by omega⟩
    obtain ⟨c, s1, rfl⟩ : ∃ c s1, s = c :: s1 := by
      cases s with
      | nil => exact absurd rfl hs.1
      | cons c s1 => exact ⟨c, s1, rfl⟩
    have hno := hs.2.1
    simp only [List.mem_cons, not_or] at hno
    have hc : c ≠ '/' := fun e => hno.1 e.symm
    have hx := joinPath_head [] trailing ht
    have n1 : ¬ (c = '.' ∧ (s1 ++ (joinPath [] ++ trailing) = [] ∨
        (s1 ++ (joinPath [] ++ trailing)).head? = some '/')) := by
      rintro ⟨a, b⟩
      cases s1 with
      | nil => exact hs.2.2.1 (by rw [a])
      | cons d s2 =>
        rcases b with b | b
        · simp at b
        · simp only [List.cons_append, List.head?_cons, Option.some.injEq] at b
          exact hno.2 (by rw [b]; exact List.mem_cons_self _ _)
    have n2 : ¬ (c = '.' ∧ (s1 ++ (joinPath [] ++ trailing)).head? = some '.' ∧
        ((s1 ++ (joinPath [] ++ trailing)).tail = [] ∨
          (s1 ++ (joinPath [] ++ trailing)).tail.head? = some '/')) := by
      rintro ⟨a, b, d⟩
      cases s1 with
      | nil =>
        rcases hx with hx | hx
        · rw [List.nil_append, hx] at b
          simp at b
        · rw [List.nil_append, hx] at b
          simp at b
      | cons d1 s2 =>
        simp only [List.cons_append, List.head?_cons, Option.some.injEq, List.tail_cons] at b d
        cases s2 with
        | nil => exact hs.2.2.2 (by rw [a, b])
        | cons d2 s3 =>
          rcases d with d | d
          · simp at d
          · simp only [List.cons_append, List.head?_cons, Option.some.injEq] at d
            exact hno.2 (by rw [d]; simp)
    have htd := takeWhile_append_slash (c :: s1) (joinPath [] ++ trailing) hs.2.1 hx
    rw [List.cons_append, cleanLoop, if_neg hc, if_neg n1, if_neg n2]
    simp only [Bool.not_true, Bool.false_eq_true, false_and, or_false, true_and]
    rw [← List.cons_append, htd.1, htd.2, rootPath_concat acc _ hacc]
    rcases ht with ht | ht
    · subst ht
      cases f <;> simp [joinPath, cleanLoop]
    · subst ht
      cases f with
      | zero => simp [joinPath, cleanLoop]
      | succ f2 =>
        simp only [joinPath, List.nil_append]
        rw [cleanLoop, if_pos rfl]
        cases f2 <;> simp [cleanLoop]
  | cons s2 rest2 ih =>
    intro s acc trailing fuel hs hrest hacc ht hfuel
    obtain ⟨f, rfl⟩ : ∃ f, fuel = f + 1 := ⟨fuel - 1, by omega⟩
    obtain ⟨c, s1, rfl⟩ : ∃ c s1, s = c :: s1 := by
      cases s with
      | nil => exact absurd rfl hs.1
      | cons c s1 => exact ⟨c, s1, rfl⟩
    have hno := hs.2.1
    simp only [List.mem_cons, not_or] at hno
    have hc : c ≠ '/' := fun e => hno.1 e.symm
    have hx := joinPath_head (s2 :: rest2) trailing ht
    have n1 : ¬ (c = '.' ∧ (s1 ++ (joinPath (s2 :: rest2) ++ trailing) = [] ∨
        (s1 ++ (joinPath (s2 :: rest2) ++ trailing)).head? = some '/')) := by
      rintro ⟨a, b⟩
      cases s1 with
      | nil => exact hs.2.2.1 (by rw [a])
      | cons d s3 =>
        rcases b with b | b
        · simp at b
        · simp only [List.cons_append, List.head?_cons, Option.some.injEq] at b
          exact hno.2 (by rw [b]; exact List.mem_cons_self _ _)
    have n2 : ¬ (c = '.' ∧ (s1 ++ (joinPath (s2 :: rest2) ++ trailing)).head? = some '.' ∧
        ((s1 ++ (joinPath (s2 :: rest2) ++ trailing)).tail = [] ∨
          (s1 ++ (joinPath (s2 :: rest2) ++ trailing)).tail.head? = some '/')) := by
      rintro ⟨a, b, d⟩
      cases s1 with
      | nil =>
        simp [joinPath] at b
      | cons d1 s3 =>
        simp only [List.cons_append, List.head?_cons, Option.some.injEq, List.tail_cons] at b d
        cases s3 with
        | nil => exact hs.2.2.2 (by rw [a, b])
        | cons d2 s4 =>
          rcases d with d | d
          · simp at d
          · simp only [List.cons_append, List.head?_cons, Option.some.injEq] at d
            exact hno.2 (by rw [d]; simp)
    have htd := takeWhile_append_slash (c :: s1) (joinPath (s2 :: rest2) ++ trailing) hs.2.1 hx
    rw [List.cons_append, cleanLoop, if_neg hc, if_neg n1, if_neg n2]
    simp only [Bool.not_true, Bool.false_eq_true, false_and, or_false, true_and]
    rw [← List.cons_append, htd.1, htd.2, rootPath_concat acc _ hacc]
    have hlen : (s2 ++ (joinPath rest2 ++ trailing)).length + 2 ≤ f := by
      simp only [List.length_append, List.length_cons, joinPath] at hfuel ⊢
      omega
    obtain ⟨f2, rfl⟩ : ∃ f2, f = f2 + 1 := ⟨f - 1, by omega⟩
    have e : joinPath (s2 :: rest2) ++ trailing = '/' :: (s2 ++ (joinPath rest2 ++ trailing)) := by
      simp [joinPath]
    rw [e, cleanLoop, if_pos rfl]
    rw [ih s2 (acc ++ [c :: s1]) trailing f2 (hrest s2 (List.mem_cons_self _ _))
      (fun x hm => hrest x (List.mem_cons_of_mem _ hm))
      (by
        intro x hm
        simp only [List.mem_append, List.mem_singleton] at hm
        rcases hm with hm | hm
        · exact hacc x hm
        · rw [hm]; exact hs)
      ht (by omega)]
    simp

theorem joinPath_getLast (segs : List (List Char)) (h : ∀ s ∈ segs, element s) :
    (joinPath segs).getLast? ≠ some '/' := by
  by_cases hs : segs = []
  · rw [hs]
    simp [joinPath]
  · obtain ⟨init, last, rfl⟩ : ∃ init last, segs = init ++ [last] :=
      ⟨segs.dropLast, segs.getLast hs, (List.dropLast_append_getLast hs).symm⟩
    have hlast : element last := h last (by simp)
    intro e
    have e2 : joinPath (init ++ [last]) = (joinPath init ++ ['/']) ++ last := by
      rw [joinPath_append]
      simp [joinPath]
    rw [e2, List.getLast?_append] at e
    cases hl : last.getLast? with
    | none =>
      rw [List.getLast?_eq_none_iff] at hl
      exact hlast.1 hl
    | some z =>
      rw [hl] at e
      have e3 : z = '/' := by simpa using e
      rw [e3] at hl
      exact hlast.2.1 (List.mem_of_getLast?_eq_some hl)

/-- The function `cleanPath` leaves a path in canonical form as it is. -/
theorem cleanPath_canonical (p : String) (h : canonical p.data) : cleanPath p = p := by
  obtain ⟨segs, hel, hshape⟩ := h
  have hp : p = String.mk p.data := rfl
  cases segs with
  | nil =>
    rcases hshape with h1 | h1
    · have : p = "/" := String.ext h1
      rw [this]
      decide
    · exact absurd rfl h1.1
  | cons s rest =>
    have hs := hel s (List.mem_cons_self _ _)
    have hrest : ∀ x ∈ rest, element x := fun x hm => hel x (List.mem_cons_of_mem _ hm)
    have hroot : rootPath (s :: rest) = joinPath (s :: rest) := by
      unfold rootPath
      rw [if_neg (List.cons_ne_nil _ _)]
    obtain ⟨trailing, ht, hdata⟩ : ∃ trailing, (trailing = [] ∨ trailing = ['/']) ∧
        p.data = '/' :: (s ++ (joinPath rest ++ trailing)) := by
      rcases hshape with h1 | h1
      · exact ⟨[], Or.inl rfl, by rw [h1, hroot]; simp [joinPath]⟩
      · exact ⟨['/'], Or.inr rfl, by rw [h1.2]; simp [joinPath]⟩
    have hclean : Clean ('/' :: (s ++ (joinPath rest ++ trailing))) = joinPath (s :: rest) := by
      unfold Clean
      simp only [List.cons_ne_nil, if_false, List.head?_cons, decide_True, if_true,
        List.tail_cons]
      have h0 : (['/'] : List Char) = rootPath [] := rfl
      rw [h0, cleanLoop_canonical rest s [] trailing _ hs hrest (by simp) ht
        (by simp only [List.length_cons]; omega)]
      rw [List.nil_append, hroot]
      simp [joinPath]
    have hne : p ≠ "" := by
      intro e
      rw [e] at hdata
      simp at hdata
    have hlen := joinPath_length s rest hs.1
    have hnp : joinPath (s :: rest) ≠ ['/'] := by
      intro e
      rw [e] at hlen
      simp at hlen
    unfold cleanPath
    rw [if_neg hne]
    simp only [hdata, List.head?_cons, ne_eq, not_true_eq_false, if_false, hclean]
    rcases ht with ht | ht
    · subst ht
      have e : '/' :: (s ++ (joinPath rest ++ [])) = joinPath (s :: rest) := by simp [joinPath]
      have hl : ('/' :: (s ++ (joinPath rest ++ []))).getLast? ≠ some '/' := by
        rw [e]
        exact joinPath_getLast _ hel
      rw [if_neg (fun x => hl x.1)]
      apply String.ext
      rw [hdata, e]
    · subst ht
      have e : '/' :: (s ++ (joinPath rest ++ ['/'])) = joinPath (s :: rest) ++ ['/'] := by
        simp [joinPath]
      have hl : ('/' :: (s ++ (joinPath rest ++ ['/']))).getLast? = some '/' := by
        rw [e]
        simp
      rw [if_pos ⟨hl, hnp⟩]
      split_ifs
      · apply String.ext
        rw [hdata]
      · apply String.ext
        rw [hdata, e]

theorem canonical_head (p : List Char) (h : canonical p) : p.head? = some '/' := by
  obtain ⟨segs, _, h1 | h1⟩ := h
  · rw [h1]
    exact rootPath_head segs
  · rw [h1.2]
    cases segs with
    | nil => exact absurd rfl h1.1
    | cons s r => rfl

theorem unescape_append_slash : ∀ (n : Nat) (e s2 : List Char), e.length ≤ n →
    url.unescape (e ++ '/' :: s2) =
      (url.unescape e).bind fun u => (url.unescape s2).map fun t => u ++ '/' :: t := by
  intro n
  induction n using Nat.strong_induction_on with
  | _ n ih =>
    intro e s2 hl
    cases e with
    | nil =>
      rw [List.nil_append, unescape_cons _ _ (by decide)]
      simp [url.unescape]
    | cons c r =>
      by_cases hc : c = '%'
      · subst hc
        match r, hl with
        | [], _ =>
          rw [url.unescape.eq_def]
          simp only [List.cons_append, List.nil_append, if_true]
          cases s2 with
          | nil => simp [url.unescape]
          | cons b r2 =>
            have : ishex '/' = false := by decide
            simp [this, url.unescape]
        | [a], _ =>
          rw [url.unescape.eq_def]
          have : ishex '/' = false := by decide
          simp [this, url.unescape]
        | a :: b :: r2, hl =>
          have hlen : r2.length < n := by
            simp only [List.length_cons] at hl
            omega
          have := ih r2.length hlen r2 s2 (le_refl _)
          rw [url.unescape.eq_def]
          simp only [List.cons_append, if_true]
          rw [this]
          conv_rhs => rw [url.unescape.eq_def]
          simp only [if_true]
          by_cases hx : ishex a = true ∧ ishex b = true
          · simp only [hx, and_self, if_true]
            cases url.unescape r2 <;> cases url.unescape s2 <;> simp
          · simp only [hx, if_false]
            simp
      · have hlen : r.length < n := by
          simp only [List.length_cons] at hl
          omega
        have := ih r.length hlen r s2 (le_refl _)
        rw [List.cons_append, unescape_cons _ _ hc, this, unescape_cons _ _ hc]
        cases url.unescape r <;> cases url.unescape s2 <;> simp

theorem unescape_eq_nil (s : List Char) (h : url.unescape s = some []) : s = [] := by
  cases s with
  | nil => rfl
  | cons c r =>
    exfalso
    by_cases hc : c = '%'
    · subst hc
      rw [url.unescape.eq_def] at h
      simp only [if_true] at h
      match r, h with
      | [], h => simp at h
      | [_], h => simp at h
      | a :: b :: r2, h =>
        simp only at h
        split_ifs at h
        cases h2 : url.unescape r2 <;> simp [h2] at h
    · rw [unescape_cons _ _ hc] at h
      cases h2 : url.unescape r <;> simp [h2] at h

/-- What follows a slash in a path in canonical form is a path in canonical
form again. -/
theorem canonical_suffix : ∀ (segs : List (List Char)) (trailing u t : List Char),
    (∀ s ∈ segs, element s) → (trailing = [] ∨ trailing = ['/']) →
    joinPath segs ++ trailing = u ++ '/' :: t → canonical ('/' :: t) := by
  intro segs
  induction segs with
  | nil =>
    intro trailing u t _ ht h
    rcases ht with ht | ht
    · subst ht
      simp [joinPath] at h
    · subst ht
      simp only [joinPath, List.nil_append] at h
      cases u with
      | nil =>
        simp only [List.nil_append, List.cons.injEq, true_and] at h
        rw [← h]
        exact ⟨[], by simp, Or.inl rfl⟩
      | cons c u2 =>
        have := congrArg List.length h
        simp at this
  | cons g gs ih =>
    intro trailing u t hel ht h
    have hg := hel g (List.mem_cons_self _ _)
    have hgs : ∀ s ∈ gs, element s := fun s hm => hel s (List.mem_cons_of_mem _ hm)
    cases u with
    | nil =>
      simp only [joinPath, List.cons_append, List.nil_append, List.cons.injEq, true_and] at h
      refine ⟨g :: gs, hel, ?_⟩
      rcases ht with ht | ht
      · left
        subst ht
        unfold rootPath
        rw [if_neg (List.cons_ne_nil _ _), ← h]
        simp [joinPath]
      · right
        subst ht
        refine ⟨List.cons_ne_nil _ _, ?_⟩
        rw [← h]
        simp [joinPath]
    | cons c u2 =>
      simp only [joinPath, List.cons_append, List.cons.injEq] at h
      have h2 : g ++ (joinPath gs ++ trailing) = u2 ++ '/' :: t := by
        rw [← h.2]
        simp
      rcases List.append_eq_append_iff.mp h2 with ⟨a, ha1, ha2⟩ | ⟨c2, hc1, hc2⟩
      · exact ih trailing a t hgs ht ha2
      · cases c2 with
        | nil =>
          simp only [List.nil_append] at hc2
          exact ih trailing [] t hgs ht (by rw [List.nil_append]; exact hc2.symm)
        | cons x c3 =>
          exfalso
          simp only [List.cons_append, List.cons.injEq] at hc2
          apply hg.2.1
          rw [hc1, ← hc2.1]
          simp

theorem dropWhile_head (s : List Char) :
    s.dropWhile (fun x => x ≠ '/') = [] ∨
      ∃ s2, s.dropWhile (fun x => x ≠ '/') = '/' :: s2 := by
  induction s with
  | nil => exact Or.inl rfl
  | cons c r ih =>
    by_cases hc : c = '/'
    · right
      exact ⟨r, by rw [List.dropWhile_cons]; simp [hc]⟩
    · rw [List.dropWhile_cons]
      simp only [ne_eq, hc, not_false_eq_true, decide_True, if_true]
      exact ih

/-- The first element of a path in canonical form, read off the text. -/
theorem canonical_first (t : List Char) (h : canonical ('/' :: t)) (ht : t ≠ []) :
    element (t.takeWhile fun x => x ≠ '/') := by
  obtain ⟨segs, hel, hshape⟩ := h
  cases segs with
  | nil =>
    rcases hshape with h1 | h1
    · simp only [rootPath, if_true, List.cons.injEq, true_and] at h1
      exact absurd h1 ht
    · exact absurd rfl h1.1
  | cons g gs =>
    have hg := hel g (List.mem_cons_self _ _)
    obtain ⟨trailing, htr, hdata⟩ : ∃ trailing, (trailing = [] ∨ trailing = ['/']) ∧
        t = g ++ (joinPath gs ++ trailing) := by
      rcases hshape with h1 | h1
      · refine ⟨[], Or.inl rfl, ?_⟩
        unfold rootPath at h1
        rw [if_neg (List.cons_ne_nil _ _)] at h1
        simp only [joinPath, List.cons_append, List.cons.injEq, true_and] at h1
        rw [h1]
        simp
      · refine ⟨['/'], Or.inr rfl, ?_⟩
        have := h1.2
        simp only [joinPath, List.cons_append, List.cons.injEq, true_and] at this
        rw [this]
        simp
    rw [hdata, (takeWhile_append_slash g _ hg.2.1 (joinPath_head gs trailing htr)).1]
    exact hg

/-- A written path is in canonical form when the path it decodes to is. -/
theorem canonical_of_unescape : ∀ (n : Nat) (s t : List Char), s.length ≤ n →
    url.unescape s = some t → canonical ('/' :: t) → canonical ('/' :: s) := by
  intro n
  induction n using Nat.strong_induction_on with
  | _ n ih =>
    intro s t hl hu hcan
    by_cases hs : s = []
    · rw [hs]
      exact ⟨[], by simp, Or.inl rfl⟩
    · have ht : t ≠ [] := by
        intro e
        rw [e] at hu
        exact hs (unescape_eq_nil s hu)
      have hfirst := canonical_first t hcan ht
      have hsplit : s = s.takeWhile (fun x => x ≠ '/') ++ s.dropWhile (fun x => x ≠ '/') :=
        (List.takeWhile_append_dropWhile _ _).symm
      have hno := takeWhile_no_slash_mem s
      rcases dropWhile_head s with hd | ⟨s2, hd⟩
      · -- a single element
        rw [hd, List.append_nil] at hsplit
        have hel : element s := by
          refine ⟨hs, by rw [hsplit]; exact hno, ?_, ?_⟩
          · intro e
            rw [e] at hu
            have : t = ['.'] := by
              have h2 : url.unescape ['.'] = some ['.'] := by decide
              rw [h2] at hu
              exact (Option.some.inj hu).symm
            rw [this] at hfirst
            exact hfirst.2.2.1 (by decide)
          · intro e
            rw [e] at hu
            have : t = ['.', '.'] := by
              have h2 : url.unescape ['.', '.'] = some ['.', '.'] := by decide
              rw [h2] at hu
              exact (Option.some.inj hu).symm
            rw [this] at hfirst
            exact hfirst.2.2.2 (by decide)
        exact ⟨[s], by simpa using hel, Or.inl (by simp [rootPath, joinPath])⟩
      · rw [hd] at hsplit
        generalize he : s.takeWhile (fun x => x ≠ '/') = e at hsplit hno
        have hu2 := hu
        rw [hsplit, unescape_append_slash e.length e s2 (le_refl _)] at hu2
        cases hue : url.unescape e with
        | none => simp [hue] at hu2
        | some u =>
          cases hus : url.unescape s2 with
          | none => simp [hue, hus] at hu2
          | some t2 =>
            simp only [hue, hus, Option.some_bind, Option.map_some', Option.some.injEq] at hu2
            -- the rest of the decoded path is in canonical form
            have hcan2 : canonical ('/' :: t2) := by
              obtain ⟨segs, hel, hshape⟩ := hcan
              rcases hshape with h1 | h1
              · have hne : segs ≠ [] := by
                  intro e0
                  rw [e0] at h1
                  simp only [rootPath, if_true, List.cons.injEq, true_and] at h1
                  rw [h1] at hu2
                  simp at hu2
                unfold rootPath at h1
                rw [if_neg hne] at h1
                exact canonical_suffix segs [] ('/' :: u) t2 hel (Or.inl rfl)
                  (by rw [List.append_nil, ← h1, ← hu2]; simp)
              · exact canonical_suffix segs ['/'] ('/' :: u) t2 hel (Or.inr rfl)
                  (by rw [← h1.2, ← hu2]; simp)
            have hlen : s2.length < n := by
              have := congrArg List.length hsplit
              simp only [List.length_append, List.length_cons] at this
              omega
            have hcan3 := ih s2.length hlen s2 t2 (le_refl _) hus hcan2
            -- the first element
            have hel : element e := by
              refine ⟨?_, hno, ?_, ?_⟩
              · intro e0
                rw [e0] at hue
                have : u = [] := by
                  have h2 : url.unescape [] = some [] := by decide
                  rw [h2] at hue
                  exact (Option.some.inj hue).symm
                rw [this] at hu2
                rw [← hu2] at hfirst
                simp only [List.nil_append] at hfirst
                exact hfirst.1 (by simp [List.takeWhile])
              · intro e0
                rw [e0] at hue
                have : u = ['.'] := by
                  have h2 : url.unescape ['.'] = some ['.'] := by decide
                  rw [h2] at hue
                  exact (Option.some.inj hue).symm
                rw [this] at hu2
                rw [← hu2] at hfirst
                exact hfirst.2.2.1 (by simp [List.takeWhile])
              · intro e0
                rw [e0] at hue
                have : u = ['.', '.'] := by
                  have h2 : url.unescape ['.', '.'] = some ['.', '.'] := by decide
                  rw [h2] at hue
                  exact (Option.some.inj hue).symm
                rw [this] at hu2
                rw [← hu2] at hfirst
                exact hfirst.2.2.2 (by simp [List.takeWhile])
            obtain ⟨segs3, hel3, hshape3⟩ := hcan3
            refine ⟨e :: segs3, ?_, ?_⟩
            · intro x hm
              simp only [List.mem_cons] at hm
              rcases hm with hm | hm
              · rw [hm]; exact hel
              · exact hel3 x hm
            · rw [hsplit]
              rcases hshape3 with h3 | h3
              · by_cases hs3 : segs3 = []
                · right
                  refine ⟨List.cons_ne_nil _ _, ?_⟩
                  rw [hs3] at h3 ⊢
                  simp only [rootPath, if_true, List.cons.injEq, true_and] at h3
                  rw [h3]
                  simp [joinPath]
                · left
                  unfold rootPath at h3 ⊢
                  rw [if_neg hs3] at h3
                  rw [if_neg (List.cons_ne_nil _ _)]
                  simp only [joinPath, List.cons.injEq, true_and]
                  rw [← h3]
                  simp
              · right
                refine ⟨List.cons_ne_nil _ _, ?_⟩
                simp only [joinPath, List.cons_append, List.cons.injEq, true_and]
                rw [List.append_assoc, ← h3.2]

/-- The escaped path of a request is in canonical form when its path is. -/
theorem cleanPath_escaped (r : Request) (h : cleanPath r.Path = r.Path) :
    cleanPath r.EscapedPath = r.EscapedPath := by
  have hcan := cleanPath_fixed_shape r.Path h
  have hhead := canonical_head _ hcan
  rcases r.rooted with he | he | he
  · exfalso
    have hd := r.decoded
    rw [he] at hd
    have : r.Path.data = [] := by rw [hd]; decide
    rw [this] at hhead
    simp at hhead
  · exfalso
    have hd := r.decoded
    rw [he] at hd
    have : r.Path.data = ['*'] := by rw [hd]; decide
    rw [this] at hhead
    simp at hhead
  · obtain ⟨s, hs⟩ : ∃ s, r.EscapedPath.data = '/' :: s := by
      cases hd : r.EscapedPath.data with
      | nil => rw [hd] at he; simp at he
      | cons c s =>
        rw [hd] at he
        simp only [List.head?_cons, Option.some.injEq] at he
        exact ⟨s, by rw [he]⟩
    have hE : r.EscapedPath = String.mk ('/' :: s) := String.ext hs
    have hpath : r.Path = String.mk ('/' :: (pathUnescape (String.mk s)).data) := by
      rw [r.decoded, hE, pathUnescape_cons _ _ (by decide)]
    cases hu : url.unescape s with
    | none =>
      have : pathUnescape (String.mk s) = String.mk s := by
        unfold pathUnescape
        simp only [hu]
      rw [this] at hpath
      rw [hE, ← hpath]
      exact h
    | some t =>
      have : pathUnescape (String.mk s) = String.mk t := by
        unfold pathUnescape
        simp only [hu]
      rw [this] at hpath
      rw [hpath] at hcan
      apply cleanPath_canonical
      rw [hs]
      exact canonical_of_unescape s.length s t (le_refl _) hu hcan

/-! ## The route table of `main` -/

theorem registerRoutes_eq : registerRoutes = .ok routes := by rfl

theorem findChild_nil (k : String) : (⟨[]⟩ : routingNode).findChild k = ⟨[]⟩ := rfl

theorem matchPath_nil (fuel : Nat) (path : List Char) :
    (⟨[]⟩ : routingNode).matchPath fuel path = none := by
  cases fuel <;> simp [routingNode.matchPath]

theorem findChild_leaf (h : HandlerId) (k : String) :
    (⟨[h.leaf]⟩ : routingNode).findChild k = ⟨[]⟩ := by
  cases h <;> rfl

/-- Below the leaf of a route only the empty path is found. -/
theorem matchPath_leaf (h : HandlerId) (fuel : Nat) (path : List Char) :
    (⟨[h.leaf]⟩ : routingNode).matchPath (fuel + 1) path =
      if path = [] then some h.leaf else none := by
  rw [routingNode.matchPath]
  by_cases hp : path = []
  · subst hp
    cases h <;> rfl
  · have hp2 : path.isEmpty = false := by
      cases path with
      | nil => exact absurd rfl hp
      | cons c r => rfl
    have hm : (⟨[h.leaf]⟩ : routingNode).multiChild = none := by cases h <;> rfl
    simp only [List.isEmpty_cons, Bool.false_eq_true, if_false, hp2, findChild_leaf,
      matchPath_nil, ite_self, hm, hp]

theorem routes_tree : routes.tree = routesFrom 0 := rfl

theorem routesFrom_findChild_zero (k : String) :
    (routesFrom 0).findChild k = if k = "" then routesFrom 1 else ⟨[]⟩ := by
  by_cases hk : k = ""
  · subst hk
    rfl
  · have e : ¬ "" = k := fun e => hk e.symm
    simp [routingNode.findChild, routesFrom, HandlerId.leaf, pattern.keys, literalPattern,
      segment.key, hk, e]

theorem routesFrom_findChild_one (k : String) :
    (routesFrom 1).findChild k = if k = "" then routesFrom 2 else ⟨[]⟩ := by
  by_cases hk : k = ""
  · subst hk
    rfl
  · have e : ¬ "" = k := fun e => hk e.symm
    simp [routingNode.findChild, routesFrom, HandlerId.leaf, pattern.keys, literalPattern,
      segment.key, hk, e]

theorem routesFrom_findChild_two (k : String) :
    (routesFrom 2).findChild k =
      if k = "health" then ⟨[HandlerId.health.leaf]⟩
      else if k = "api" then ⟨[HandlerId.api.leaf]⟩
      else ⟨[]⟩ := by
  by_cases h1 : k = "health"
  · subst h1
    rfl
  · by_cases h2 : k = "api"
    · subst h2
      rfl
    · have e1 : ¬ "health" = k := fun e => h1 e.symm
      have e2 : ¬ "api" = k := fun e => h2 e.symm
      simp [routingNode.findChild, routesFrom, HandlerId.leaf, pattern.keys, literalPattern,
        segment.key, h1, h2, e1, e2]

/-- The search below the node of the empty method: a path is found when its
first segment is the name of a route and nothing follows it. -/
theorem routesFrom_matchPath (fuel : Nat) (path : List Char) :
    (routesFrom 2).matchPath (fuel + 2) path =
      if path ≠ [] ∧ (firstSegment path).2 = [] ∧ (firstSegment path).1 = "health" then
        some HandlerId.health.leaf
      else if path ≠ [] ∧ (firstSegment path).2 = [] ∧ (firstSegment path).1 = "api" then
        some HandlerId.api.leaf
      else none := by
  rw [routingNode.matchPath]
  have hne : (routesFrom 2).leaves.isEmpty = false := rfl
  have hleaf : (routesFrom 2).leaf = none := rfl
  have hmulti : (routesFrom 2).multiChild = none := rfl
  have hwild : (routesFrom 2).findChild "" = ⟨[]⟩ := rfl
  simp only [hne, Bool.false_eq_true, if_false, hleaf, hmulti, hwild, matchPath_nil, ite_self]
  by_cases hp : path = []
  · subst hp
    simp
  · have hp2 : path.isEmpty = false := by
      cases path with
      | nil => exact absurd rfl hp
      | cons c r => rfl
    simp only [hp2, Bool.false_eq_true, if_false, routesFrom_findChild_two, ne_eq, hp,
      not_false_eq_true, true_and]
    have hne2 : ("api" : String) ≠ "health" := by decide
    by_cases h1 : (firstSegment path).1 = "health"
    · simp only [h1, if_true, matchPath_leaf, and_true]
      by_cases h3 : (firstSegment path).2 = []
      · simp [h3]
      · simp [h3]
    · by_cases h2 : (firstSegment path).1 = "api"
      · simp only [h2, hne2, if_false, if_true, matchPath_leaf, and_true, and_false]
        by_cases h3 : (firstSegment path).2 = []
        · simp [h3]
        · simp [h3]
      · simp [h1, h2, matchPath_nil]

theorem routesFrom_matchMethodAndPath (method : String) (path : List Char) :
    (routesFrom 1).matchMethodAndPath method path =
      if path ≠ [] ∧ (firstSegment path).2 = [] ∧ (firstSegment path).1 = "health" then
        some HandlerId.health.leaf
      else if path ≠ [] ∧ (firstSegment path).2 = [] ∧ (firstSegment path).1 = "api" then
        some HandlerId.api.leaf
      else none := by
  unfold routingNode.matchMethodAndPath
  have hne : (routesFrom 1).leaves.isEmpty = false := rfl
  have hfuel : (routesFrom 2).matchPath (path.length + 1) path =
      if path ≠ [] ∧ (firstSegment path).2 = [] ∧ (firstSegment path).1 = "health" then
        some HandlerId.health.leaf
      else if path ≠ [] ∧ (firstSegment path).2 = [] ∧ (firstSegment path).1 = "api" then
        some HandlerId.api.leaf
      else none := by
    cases path with
    | nil => rfl
    | cons c r => exact routesFrom_matchPath r.length (c :: r)
  have hget : (routesFrom 1).findChild "GET" = ⟨[]⟩ := by
    rw [routesFrom_findChild_one, if_neg (by decide)]
  simp only [hne, Bool.false_eq_true, if_false, hget, matchPath_nil, ite_self]
  by_cases hm : method = ""
  · subst hm
    have h0 : (routesFrom 1).findChild "" = routesFrom 2 := rfl
    rw [h0, hfuel]
    split_ifs <;> rfl
  · have h0 : (routesFrom 1).findChild "" = routesFrom 2 := rfl
    rw [routesFrom_findChild_one, if_neg hm, matchPath_nil, h0, hfuel]

/-- The search of the routing tree of `main`: host and method play no part. -/
theorem routes_matchHost (host method : String) (path : List Char) :
    routes.tree.matchHost host method path =
      if path ≠ [] ∧ (firstSegment path).2 = [] ∧ (firstSegment path).1 = "health" then
        some HandlerId.health.leaf
      else if path ≠ [] ∧ (firstSegment path).2 = [] ∧ (firstSegment path).1 = "api" then
        some HandlerId.api.leaf
      else none := by
  unfold routingNode.matchHost
  have h0 : (routesFrom 0).findChild "" = routesFrom 1 := rfl
  have hnil : (⟨[]⟩ : routingNode).matchMethodAndPath method path = none := rfl
  rw [routes_tree, h0, routesFrom_matchMethodAndPath]
  by_cases hh : host = ""
  · simp [hh]
  · simp only [ne_eq, hh, not_false_eq_true, if_true, routesFrom_findChild_zero, if_false, hnil]

theorem firstSegment_rooted (s : List Char) :
    firstSegment ('/' :: s) =
      if s = [] then ("/", [])
      else (pathUnescape (String.mk (s.takeWhile fun x => x ≠ '/')),
        s.dropWhile fun x => x ≠ '/') := by
  unfold firstSegment
  by_cases hs : s = []
  · simp [hs]
  · simp [hs]

/-- A path that ends in a slash is not the path of a route. -/
theorem routes_matchHost_slash (host method : String) (p : List Char) :
    routes.tree.matchHost host method (p ++ ['/']) = none := by
  have key : ¬ ((firstSegment (p ++ ['/'])).2 = [] ∧
      ((firstSegment (p ++ ['/'])).1 = "health" ∨ (firstSegment (p ++ ['/'])).1 = "api")) := by
    cases p with
    | nil =>
      rintro ⟨_, h | h⟩
      · exact absurd h (by decide)
      · exact absurd h (by decide)
    | cons c r =>
      rintro ⟨h, _⟩
      unfold firstSegment at h
      have hne : ¬ (c :: (r ++ ['/']) = ['/']) := by simp
      simp only [List.cons_append, List.drop_succ_cons, List.drop_zero] at h
      rw [if_neg hne] at h
      have := no_slash_of_dropWhile _ h
      simp at this
  rw [routes_matchHost]
  rw [if_neg (fun h => key ⟨h.2.1, Or.inl h.2.2⟩), if_neg (fun h => key ⟨h.2.1, Or.inr h.2.2⟩)]

theorem routes_matchOrRedirect (host method path : String) (u : Option Request) :
    routes.matchOrRedirect host method path u =
      (routes.tree.matchHost host method path.data, none) := by
  unfold ServeMux.matchOrRedirect
  cases u with
  | none => rfl
  | some r =>
    have h : exactMatch (routes.tree.matchHost host method (path.data ++ ['/']))
        (path.data ++ ['/']) = false := by
      rw [routes_matchHost_slash]
      rfl
    simp [h]

theorem routes_matchingMethods (host path : String) : routes.matchingMethods host path = [] := by
  have h1 : ∀ p : List Char, routes.tree.matchingMethods host p = [] := by
    intro p
    unfold routingNode.matchingMethods
    have a : (routesFrom 1).matchingMethodsPath p = [] := rfl
    have b : (⟨[]⟩ : routingNode).matchingMethodsPath p = [] := rfl
    have h0 : (routesFrom 0).findChild "" = routesFrom 1 := rfl
    rw [routes_tree, h0, a]
    by_cases hh : host = ""
    · simp [hh]
    · simp [hh, routesFrom_findChild_zero, b]
  unfold ServeMux.matchingMethods
  simp only [h1, ite_self, List.append_nil]
  rfl

theorem routes_leafHandler (n : Option routingLeaf) (host path : String) :
    routes.leafHandler n host path =
      match n with
      | some l => .registered l.handler
      | none => .NotFoundHandler := by
  unfold ServeMux.leafHandler
  cases n with
  | some l => rfl
  | none => simp [routes_matchingMethods]

/-- The path of a request names a route exactly when the escaped path has one
segment, which decodes to the name of the route. -/
theorem path_iff_segment (r : Request) (name : String) (h1 : name ≠ "") (h2 : name ≠ "/")
    (h3 : '/' ∉ name.data) :
    (r.EscapedPath.data ≠ [] ∧ (firstSegment r.EscapedPath.data).2 = [] ∧
      (firstSegment r.EscapedPath.data).1 = name) ↔ r.Path = "/" ++ name := by
  have hname : ("/" ++ name : String) = String.mk ('/' :: name.data) := by
    apply String.ext
    simp [String.data_append]
  rcases r.rooted with he | he | he
  · constructor
    · rintro ⟨a, _⟩
      exact absurd (by rw [he]) a
    · intro hp
      have hd := r.decoded
      rw [he] at hd
      rw [hp, hname] at hd
      exact absurd (congrArg String.data hd) (by simp [pathUnescape, url.unescape])
  · constructor
    · rintro ⟨_, _, c⟩
      rw [he] at c
      exact absurd c.symm h1
    · intro hp
      have hd := r.decoded
      rw [he, hp, hname] at hd
      have hd2 := congrArg String.data hd
      have : (pathUnescape "*").data = ['*'] := by decide
      rw [this] at hd2
      simp at hd2
  · obtain ⟨s, hs⟩ : ∃ s, r.EscapedPath.data = '/' :: s := by
      cases hd : r.EscapedPath.data with
      | nil => rw [hd] at he; simp at he
      | cons c s =>
        rw [hd] at he
        simp only [List.head?_cons, Option.some.injEq] at he
        exact ⟨s, by rw [he]⟩
    have hE : r.EscapedPath = String.mk ('/' :: s) := String.ext hs
    have hpath : r.Path = String.mk ('/' :: (pathUnescape (String.mk s)).data) := by
      rw [r.decoded, hE, pathUnescape_cons _ _ (by decide)]
    rw [hs, firstSegment_rooted, hpath, hname]
    constructor
    · rintro ⟨_, b, c⟩
      by_cases hs0 : s = []
      · rw [if_pos hs0] at c
        exact absurd c.symm h2
      · rw [if_neg hs0] at b c
        simp only at b c
        have hno := no_slash_of_dropWhile s b
        rw [takeWhile_no_slash s hno] at c
        rw [c]
    · intro hp
      have hp2 : (pathUnescape (String.mk s)).data = name.data := by
        have := congrArg String.data hp
        simpa using this
      have hno : '/' ∉ s := by
        intro hm
        have := slash_mem_pathUnescape s hm
        rw [hp2] at this
        exact h3 this
      have hs0 : s ≠ [] := by
        rintro rfl
        have : (pathUnescape (String.mk [])).data = [] := by decide
        rw [this] at hp2
        exact h1 (String.ext hp2.symm)
      rw [if_neg hs0]
      refine ⟨by simp, dropWhile_no_slash s hno, ?_⟩
      simp only
      rw [takeWhile_no_slash s hno]
      exact String.ext hp2

/-- The escaped path of a request for a route is in canonical form. -/
theorem cleanPath_of_path (r : Request) (name : String) (h1 : name ≠ "") (h2 : name ≠ ".")
    (h3 : '/' ∉ name.data) (h4 : name ≠ "..") (hp : r.Path = "/" ++ name) :
    cleanPath r.EscapedPath = r.EscapedPath := by
  have hname : ("/" ++ name : String) = String.mk ('/' :: name.data) := by
    apply String.ext
    simp [String.data_append]
  rcases r.rooted with he | he | he
  · have hd := r.decoded
    rw [he, hp, hname] at hd
    exact absurd (congrArg String.data hd) (by simp [pathUnescape, url.unescape])
  · have hd := r.decoded
    rw [he, hp, hname] at hd
    have hd2 := congrArg String.data hd
    have : (pathUnescape "*").data = ['*'] := by decide
    rw [this] at hd2
    simp at hd2
  · obtain ⟨s, hs⟩ : ∃ s, r.EscapedPath.data = '/' :: s := by
      cases hd : r.EscapedPath.data with
      | nil => rw [hd] at he; simp at he
      | cons c s =>
        rw [hd] at he
        simp only [List.head?_cons, Option.some.injEq] at he
        exact ⟨s, by rw [he]⟩
    have hE : r.EscapedPath = String.mk ('/' :: s) := String.ext hs
    have hpath : r.Path = String.mk ('/' :: (pathUnescape (String.mk s)).data) := by
      rw [r.decoded, hE, pathUnescape_cons _ _ (by decide)]
    have hp2 : (pathUnescape (String.mk s)).data = name.data := by
      have := congrArg String.data (hpath.symm.trans (hp.trans hname))
      simpa using this
    have hno : '/' ∉ s := by
      intro hm
      have := slash_mem_pathUnescape s hm
      rw [hp2] at this
      exact h3 this
    have hs0 : s ≠ [] := by
      rintro rfl
      have : (pathUnescape (String.mk [])).data = [] := by decide
      rw [this] at hp2
      exact h1 (String.ext hp2.symm)
    have hs1 : s ≠ ['.'] := by
      rintro rfl
      have : (pathUnescape (String.mk ['.'])).data = ['.'] := by decide
      rw [this] at hp2
      exact h2 (String.ext hp2.symm)
    have hs2 : s ≠ ['.', '.'] := by
      rintro rfl
      have : (pathUnescape (String.mk ['.', '.'])).data = ['.', '.'] := by decide
      rw [this] at hp2
      exact h4 (String.ext hp2.symm)
    rw [hE]
    exact cleanPath_segment s hno hs0 hs1 hs2

/-- Dispatch on the route table of `main`, in one formula. -/
theorem routes_findHandler (r : Request) :
    routes.findHandler r =
      if r.Method ≠ "CONNECT" ∧ cleanPath r.EscapedPath ≠ r.EscapedPath then
        .RedirectHandler (cleanPath r.EscapedPath) r.RawQuery StatusTemporaryRedirect
      else if r.Path = "/health" then .registered .health
      else if r.Path = "/api" then .registered .api
      else .NotFoundHandler := by
  have hh := path_iff_segment r "health" (by decide) (by decide) (by decide)
  have ha := path_iff_segment r "api" (by decide) (by decide) (by decide)
  have e1 : ("/" ++ "health" : String) = "/health" := by decide
  have e2 : ("/" ++ "api" : String) = "/api" := by decide
  rw [e1] at hh
  rw [e2] at ha
  have hmatch : ∀ host : String,
      routes.leafHandler (routes.tree.matchHost host r.Method r.EscapedPath.data) host
        r.EscapedPath =
      if r.Path = "/health" then .registered .health
      else if r.Path = "/api" then .registered .api
      else .NotFoundHandler := by
    intro host
    rw [routes_leafHandler, routes_matchHost]
    by_cases p1 : r.Path = "/health"
    · rw [if_pos (hh.mpr p1), if_pos p1]
      rfl
    · rw [if_neg (fun h => p1 (hh.mp h)), if_neg p1]
      by_cases p2 : r.Path = "/api"
      · rw [if_pos (ha.mpr p2), if_pos p2]
        rfl
      · rw [if_neg (fun h => p2 (ha.mp h)), if_neg p2]
  unfold ServeMux.findHandler
  simp only [routes_matchOrRedirect]
  by_cases hm : r.Method = "CONNECT"
  · have hm2 : ¬ (r.Method ≠ "CONNECT" ∧ cleanPath r.EscapedPath ≠ r.EscapedPath) :=
      fun h => h.1 hm
    rw [if_pos hm, if_neg hm2]
    have := hmatch r.URLHost
    rw [routes_leafHandler] at this ⊢
    rw [routes_matchHost] at this ⊢
    exact this
  · rw [if_neg hm]
    by_cases hc : cleanPath r.EscapedPath = r.EscapedPath
    · have hm2 : ¬ (r.Method ≠ "CONNECT" ∧ cleanPath r.EscapedPath ≠ r.EscapedPath) :=
        fun h => h.2 hc
      rw [if_neg hm2]
      simp only [hc, ne_eq, not_true_eq_false, if_false]
      exact hmatch _
    · simp only [ne_eq, hc, hm, not_false_eq_true, if_true, and_self]

theorem not_asterisk_of_path (r : Request) (h : r.Path = "/health" ∨ r.Path = "/api") :
    r.RequestURI ≠ "*" := by
  intro hs
  rcases r.asterisk hs with h1 | h1 <;> rcases h with h2 | h2 <;> rw [h1] at h2 <;>
    exact absurd h2 (by decide)

theorem HandlerId.ServeHTTP_eq (h : HandlerId) (now : Time) (w : ResponseWriter) (r : Request)
    (p : Proc) :
    h.ServeHTTP now w r p =
      ((Encode (w.SetHeader "Content-Type" "application/json")
        { Message := h.message, Timestamp := now }).1, p) := by
  cases h <;> rfl

/-- A request for the path of a handler reaches that handler, whatever its
method, and leaves the process as it was. -/
theorem serverHandler_registered (now : Time) (r : Request) (budget : Option Nat) (p : Proc)
    (hp : p.mux = routes) (h : HandlerId) (hpath : r.Path = h.pattern) :
    serverHandler now r budget p =
      (.handled h (Encode ((newResponseWriter r budget).SetHeader "Content-Type"
        "application/json") { Message := h.message, Timestamp := now }).1.finishRequest, p) := by
  have hstar : r.RequestURI ≠ "*" := by
    apply not_asterisk_of_path
    cases h
    · left; exact hpath
    · right; exact hpath
  have hH : routes.findHandler r = .registered h := by
    rw [routes_findHandler]
    cases h
    · have hp2 : r.Path = "/health" := hpath
      have hc := cleanPath_of_path r "health" (by decide) (by decide) (by decide) (by decide) hp2
      simp [hp2, hc]
    · have hp2 : r.Path = "/api" := hpath
      have hc := cleanPath_of_path r "api" (by decide) (by decide) (by decide) (by decide) hp2
      have : ("/api" : String) ≠ "/health" := by decide
      simp [hp2, this, hc]
  simp only [serverHandler, ServeMux.ServeHTTP, hstar, false_and, if_false, hp, hH,
    HandlerId.ServeHTTP_eq]

/-! ## Decimal digits -/

theorem digitVal_digitChar (d : Nat) : digitVal (digitChar d) = some (d % 10) := by
  have h : d % 10 < 10 := Nat.mod_lt _ (by decide)
  unfold digitChar
  generalize d % 10 = k at *
  interval_cases k <;> rfl

theorem digitChar_toNat (d : Nat) : (digitChar d).toNat = 48 + d % 10 := by
  have h : d % 10 < 10 := Nat.mod_lt _ (by decide)
  unfold digitChar
  generalize d % 10 = k at *
  interval_cases k <;> rfl

theorem digitsW_length (w n : Nat) : (digitsW w n).length = w := by
  induction w generalizing n with
  | zero => rfl
  | succ w ih => simp [digitsW, ih]

theorem readDigits_digitsW (w n : Nat) (rest : List Char) (h : n < 10 ^ w) :
    readDigits w (digitsW w n ++ rest) = some (n, rest) := by
  induction w generalizing n rest with
  | zero =>
    have : n = 0 := by simpa using h
    subst this
    rfl
  | succ w ih =>
    have h1 : n / 10 < 10 ^ w := by
      rw [Nat.div_lt_iff_lt_mul (by decide)]
      rw [pow_succ] at h
      exact h
    simp only [digitsW, readDigits, List.append_assoc, List.singleton_append]
    rw [ih (n / 10) _ h1]
    simp only [digitVal_digitChar]
    congr 2
    omega

theorem decimalLen_le (fuel n w : Nat) (hw : 1 ≤ w) (h : n < 10 ^ w) :
    decimalLen fuel n ≤ w := by
  induction fuel generalizing n w with
  | zero => exact hw
  | succ fuel ih =>
    simp only [decimalLen]
    split_ifs with h10
    · exact hw
    · have hw2 : 2 ≤ w := by
        by_contra hlt
        have : w = 1 := by omega
        subst this
        simp at h
        omega
      have h1 : n / 10 < 10 ^ (w - 1) := by
        rw [Nat.div_lt_iff_lt_mul (by decide), ← pow_succ]
        have : w - 1 + 1 = w := by omega
        rw [this]
        exact h
      have := ih (n / 10) (w - 1) (by omega) h1
      omega

/-- A number that fits its field is written with exactly the digits of the field. -/
theorem appendInt_fits (x : Int) (w : Nat) (hw : 1 ≤ w) (h0 : 0 ≤ x) (h : x < 10 ^ w) :
    appendInt x w = digitsW w x.toNat := by
  have hx : x.natAbs = x.toNat := by omega
  have hlt : x.toNat < 10 ^ w := by
    have : ((x.toNat : Nat) : Int) < ((10 ^ w : Nat) : Int) := by
      rw [Int.toNat_of_nonneg h0]
      push_cast
      exact h
    exact_mod_cast this
  have hlen := decimalLen_le x.toNat x.toNat w hw hlt
  simp only [appendInt, hx]
  rw [if_neg (by omega), max_eq_left hlen]
  rfl

theorem digitChar_timeChar (d : Nat) : timeChar (digitChar d) := by
  left
  rw [digitChar_toNat]
  have h : d % 10 < 10 := Nat.mod_lt _ (by decide)
  omega

theorem digitsW_timeChar (w n : Nat) : ∀ c ∈ digitsW w n, timeChar c := by
  induction w generalizing n with
  | zero => simp [digitsW]
  | succ w ih =>
    intro c hc
    simp only [digitsW, List.mem_append, List.mem_singleton] at hc
    rcases hc with hc | hc
    · exact ih _ c hc
    · subst hc; exact digitChar_timeChar _

theorem appendInt_timeChar (x : Int) (w : Nat) : ∀ c ∈ appendInt x w, timeChar c := by
  intro c hc
  simp only [appendInt, List.mem_append] at hc
  rcases hc with hc | hc
  · split_ifs at hc
    · simp at hc; subst hc; right; left; rfl
    · simp at hc
  · exact digitsW_timeChar _ _ c hc

theorem trimZeros_sub (ds : List Char) : ∀ c ∈ trimZeros ds, c ∈ ds := by
  intro c hc
  simp only [trimZeros, List.mem_reverse] at hc
  have := (List.dropWhile_sublist (fun c => decide (c = '0')) (l := ds.reverse)).subset hc
  simpa using this

theorem appendNano_timeChar (n : Nat) : ∀ c ∈ appendNano n, timeChar c := by
  intro c hc
  simp only [appendNano] at hc
  split_ifs at hc
  · simp at hc
  · simp only [List.mem_cons] at hc
    rcases hc with hc | hc
    · subst hc; right; right; right; right; right; right; rfl
    · exact appendInt_timeChar _ _ c (trimZeros_sub _ c hc)

theorem appendZone_timeChar (o : Int) : ∀ c ∈ appendZone o, timeChar c := by
  intro c hc
  simp only [appendZone] at hc
  split_ifs at hc <;> simp only [List.mem_cons, List.mem_append, List.mem_singleton,
    List.not_mem_nil, or_false] at hc
  · subst hc; right; right; right; right; left; rfl
  all_goals
    rcases hc with hc | hc | hc | hc
    · subst hc; first | (right; left; rfl) | (right; right; right; right; right; left; rfl)
    · exact appendInt_timeChar _ _ c hc
    · subst hc; right; right; left; rfl
    · exact appendInt_timeChar _ _ c hc

theorem appendFormatRFC3339_timeChar (t : Time) :
    ∀ c ∈ t.appendFormatRFC3339, timeChar c := by
  intro c hc
  simp only [Time.appendFormatRFC3339, List.mem_cons, List.mem_append] at hc
  rcases hc with hc | hc | hc | hc | hc | hc | hc | hc | hc | hc | hc | hc | hc
  · exact appendInt_timeChar _ _ c hc
  · subst hc; right; left; rfl
  · exact appendInt_timeChar _ _ c hc
  · subst hc; right; left; rfl
  · exact appendInt_timeChar _ _ c hc
  · subst hc; right; right; right; left; rfl
  · exact appendInt_timeChar _ _ c hc
  · subst hc; right; right; left; rfl
  · exact appendInt_timeChar _ _ c hc
  · subst hc; right; right; left; rfl
  · exact appendInt_timeChar _ _ c hc
  · exact appendNano_timeChar _ c hc
  · exact appendZone_timeChar _ c hc

theorem timeChar_plain (c : Char) (h : timeChar c) :
    c ≠ '"' ∧ c ≠ '\\' ∧ ¬ c.toNat < 32 := by
  rcases h with h | h | h | h | h | h | h
  · refine ⟨?_, ?_, by omega⟩
    · intro hc; subst hc; revert h; decide
    · intro hc; subst hc; revert h; decide
  all_goals subst h; decide

/-! ## Decoding what the encoder wrote -/

theorem readString_plain (T rest : List Char)
    (h : ∀ c ∈ T, c ≠ '"' ∧ c ≠ '\\' ∧ ¬ c.toNat < 32) :
    readString (T ++ '"' :: rest) = some (T, rest) := by
  induction T with
  | nil => rw [readString.eq_def]; simp
  | cons c T ih =>
    have hc := h c (List.mem_cons_self _ _)
    have ih2 := ih (fun x hx => h x (List.mem_cons_of_mem _ hx))
    rw [List.cons_append, readString.eq_def]
    simp only [if_neg hc.1, if_neg hc.2.1, if_neg hc.2.2, ih2]

theorem skipSpace_cons (c : Char) (s : List Char) (h : isSpace c = false) :
    skipSpace (c :: s) = c :: s := by
  simp [skipSpace, List.dropWhile, h]

/-- An object of two string members, written without white space and closed by
a newline, decodes to its two members. -/
theorem decodeObject_two (k1 v1 k2 v2 : List Char)
    (hk1 : ∀ c ∈ k1, c ≠ '"' ∧ c ≠ '\\' ∧ ¬ c.toNat < 32)
    (hv1 : ∀ c ∈ v1, c ≠ '"' ∧ c ≠ '\\' ∧ ¬ c.toNat < 32)
    (hk2 : ∀ c ∈ k2, c ≠ '"' ∧ c ≠ '\\' ∧ ¬ c.toNat < 32)
    (hv2 : ∀ c ∈ v2, c ≠ '"' ∧ c ≠ '\\' ∧ ¬ c.toNat < 32) :
    decodeObject ('\x7b' :: '"' :: (k1 ++ '"' :: ':' :: '"' :: (v1 ++ '"' :: ',' :: '"' ::
      (k2 ++ '"' :: ':' :: '"' :: (v2 ++ ['"', '\x7d', '\n']))))) =
      some [(String.mk k1, String.mk v1), (String.mk k2, String.mk v2)] := by
  have q : isSpace '"' = false := by decide
  have e1 : skipSpace ['\n'] = [] := by decide
  simp only [decodeObject, List.length_cons, readMembers, readQuoted, readChar]
  rw [skipSpace_cons _ _ (by decide : isSpace '\x7b' = false)]
  simp only [if_true]
  rw [skipSpace_cons _ _ q]
  simp only [if_neg (by decide : ¬ ('"' : Char) = '\x7d'), if_true]
  rw [readString_plain k1 _ hk1]
  simp only []
  rw [skipSpace_cons _ _ (by decide : isSpace ':' = false)]
  simp only [if_true]
  rw [skipSpace_cons _ _ q]
  simp only [if_true]
  rw [readString_plain v1 _ hv1]
  simp only []
  rw [skipSpace_cons _ _ (by decide : isSpace ',' = false)]
  simp only [if_true]
  rw [skipSpace_cons _ _ q]
  simp only [if_true]
  rw [readString_plain k2 _ hk2]
  simp only []
  rw [skipSpace_cons _ _ (by decide : isSpace ':' = false)]
  simp only [if_true]
  rw [skipSpace_cons _ _ q]
  simp only [if_true]
  rw [readString_plain v2 _ hv2]
  simp only []
  rw [skipSpace_cons _ _ (by decide : isSpace '\x7d' = false)]
  simp only [if_neg (by decide : ¬ ('\x7d' : Char) = ','), if_true, e1]

/-! ## What the two handlers write -/

theorem strictRFC3339_ok (t : Time) (h : t.inRFC3339) : t.strictRFC3339 = .ok () := by
  obtain ⟨h1, h2, h3⟩ := h
  unfold Time.strictRFC3339
  rw [if_neg (by omega), if_neg (by omega)]

theorem strictRFC3339_error (t : Time) (h : ¬ t.inRFC3339) :
    ∃ e, t.strictRFC3339 = .error e := by
  unfold Time.strictRFC3339
  split_ifs with h1 h2
  · exact ⟨_, rfl⟩
  · exact ⟨_, rfl⟩
  · exfalso
    apply h
    refine ⟨by omega, by omega, ?_⟩
    by_cases h0 : t.offset = 0
    · rw [h0]; decide
    · have := fun hge => h2 ⟨h0, hge⟩
      omega

theorem marshal_ok (msg : String) (t : Time) (h : t.inRFC3339) :
    Response.marshal { Message := msg, Timestamp := t } =
      .ok ("\x7b\"message\":".data ++ (encodeString msg ++
        (",\"timestamp\":".data ++ (('"' :: (t.appendFormatRFC3339 ++ ['"'])) ++ ['\x7d'])))) := by
  unfold Response.marshal Time.MarshalJSON
  simp only [strictRFC3339_ok t h]

theorem marshal_error (msg : String) (t : Time) (h : ¬ t.inRFC3339) :
    ∃ e, Response.marshal { Message := msg, Timestamp := t } = .error e := by
  obtain ⟨e, he⟩ := strictRFC3339_error t h
  unfold Response.marshal Time.MarshalJSON
  simp only [he]
  exact ⟨_, rfl⟩

/-- Whatever `Encode` meets, a handler that set the content type and encoded
once leaves status 200 and that one header behind. -/
theorem Encode_status (r : Request) (budget : Option Nat) (v : Response) :
    (Encode ((newResponseWriter r budget).SetHeader "Content-Type" "application/json")
        v).1.finishRequest.status = 200 ∧
    (Encode ((newResponseWriter r budget).SetHeader "Content-Type" "application/json")
        v).1.finishRequest.sent = ⟨[("Content-Type", "application/json")]⟩ ∧
    (Encode ((newResponseWriter r budget).SetHeader "Content-Type" "application/json")
        v).1.finishRequest.reqMethod = r.Method := by
  unfold Encode
  cases hm : v.marshal with
  | error e =>
    simp [ResponseWriter.finishRequest, ResponseWriter.WriteHeader, ResponseWriter.SetHeader,
      newResponseWriter, Header.Set]
  | ok b =>
    simp only [ResponseWriter.Write, ResponseWriter.SetHeader, newResponseWriter,
      ResponseWriter.WriteHeader, Header.Set]
    cases budget with
    | none =>
      by_cases hh : r.Method = "HEAD" <;>
        simp [ResponseWriter.finishRequest, ResponseWriter.WriteHeader, bodyAllowedForStatus, hh]
    | some n =>
      by_cases hh : r.Method = "HEAD" <;> by_cases hl : b.length + 1 ≤ n <;>
        simp [ResponseWriter.finishRequest, ResponseWriter.WriteHeader, bodyAllowedForStatus,
          hh, hl]

/-- The body that went out after such a handler: nothing for `HEAD` or when
the value cannot be marshalled, otherwise what the connection took of the
encoding and its newline. -/
theorem Encode_body (r : Request) (budget : Option Nat) (v : Response) :
    (Encode ((newResponseWriter r budget).SetHeader "Content-Type" "application/json")
        v).1.finishRequest.body =
      if r.Method = "HEAD" then []
      else
        match v.marshal with
        | .error _ => []
        | .ok b =>
          match budget with
          | none => b ++ ['\n']
          | some n => (b ++ ['\n']).take n := by
  unfold Encode
  cases hm : v.marshal with
  | error e =>
    simp [ResponseWriter.finishRequest, ResponseWriter.WriteHeader, ResponseWriter.SetHeader,
      newResponseWriter, Header.Set]
  | ok b =>
    simp only [ResponseWriter.Write, ResponseWriter.SetHeader, newResponseWriter,
      ResponseWriter.WriteHeader, Header.Set]
    cases budget with
    | none =>
      by_cases hh : r.Method = "HEAD" <;>
        simp [ResponseWriter.finishRequest, ResponseWriter.WriteHeader, bodyAllowedForStatus, hh]
    | some n =>
      by_cases hh : r.Method = "HEAD" <;> by_cases hl : b.length + 1 ≤ n <;>
        simp [ResponseWriter.finishRequest, ResponseWriter.WriteHeader, bodyAllowedForStatus,
          hh, hl]

/-! ## The calendar: from the absolute second to the civil date and back -/

/-- The year and day that `absYear` finds, with the four counts of cycles it
takes off: `a` cycles of 400 years, `b` of 100, `c` of 4 and `e` single years. -/
theorem absYear_spec (abs : Int) :
    ∃ a b c e : Int, 0 ≤ b ∧ b ≤ 3 ∧ 0 ≤ c ∧ c ≤ 24 ∧ 0 ≤ e ∧ e ≤ 3 ∧
      (absYear abs).1 = 400 * a + 100 * b + 4 * c + e + absoluteZeroYear ∧
      0 ≤ (absYear abs).2 ∧ (absYear abs).2 ≤ 365 ∧
      ((absYear abs).2 = 365 → e = 3 ∧ (c < 24 ∨ b = 3)) ∧
      abs / 86400 = 146097 * a + 36524 * b + 1461 * c + 365 * e + (absYear abs).2 := by
  unfold absYear
  simp only []
  generalize abs / 86400 = d
  generalize hn400 : d / 146097 = n400
  have h1 : 0 ≤ d - 146097 * n400 ∧ d - 146097 * n400 < 146097 := by omega
  generalize hd1 : d - 146097 * n400 = d1 at *
  generalize hm : d1 / 36524 = m at *
  have hm2 : 0 ≤ m ∧ m ≤ 4 := by omega
  generalize hb : m - m / 4 = b at *
  have hb2 : 0 ≤ b ∧ b ≤ 3 ∧ 0 ≤ d1 - 36524 * b ∧ d1 - 36524 * b ≤ 36524 ∧
      (d1 - 36524 * b = 36524 → b = 3) := by omega
  generalize hd2 : d1 - 36524 * b = d2 at *
  generalize hc : d2 / 1461 = c at *
  have hc2 : 0 ≤ c ∧ c ≤ 24 ∧ 0 ≤ d2 - 1461 * c ∧ d2 - 1461 * c ≤ 1460 := by omega
  generalize hd3 : d2 - 1461 * c = d3 at *
  generalize hk : d3 / 365 = k at *
  have hk2 : 0 ≤ k ∧ k ≤ 4 := by omega
  generalize he : k - k / 4 = e at *
  refine ⟨n400, b, c, e, ?_⟩
  omega

theorem isLeap_of_cycles (a b c e : Int) (hb : 0 ≤ b ∧ b ≤ 3) (hc : 0 ≤ c ∧ c ≤ 24)
    (he : 0 ≤ e ∧ e ≤ 3) :
    isLeap (400 * a + 100 * b + 4 * c + e + absoluteZeroYear) = true ↔
      e = 3 ∧ (c < 24 ∨ b = 3) := by
  simp only [isLeap, absoluteZeroYear, decide_eq_true_eq]
  omega

theorem daysSinceEpoch_of_cycles (a b c e : Int) (hb : 0 ≤ b ∧ b ≤ 3) (hc : 0 ≤ c ∧ c ≤ 24)
    (he : 0 ≤ e ∧ e ≤ 3) :
    daysSinceEpoch (400 * a + 100 * b + 4 * c + e + absoluteZeroYear) =
      146097 * a + 36524 * b + 1461 * c + 365 * e := by
  unfold daysSinceEpoch
  simp only []
  have e0 : 400 * a + 100 * b + 4 * c + e + absoluteZeroYear - absoluteZeroYear =
      400 * a + 100 * b + 4 * c + e := by omega
  rw [e0]
  have e1 : (400 * a + 100 * b + 4 * c + e) / 400 = a := by omega
  rw [e1]
  have e2 : (400 * a + 100 * b + 4 * c + e - 400 * a) = 100 * b + 4 * c + e := by omega
  rw [e2]
  have e3 : (100 * b + 4 * c + e) / 100 = b := by omega
  rw [e3]
  have e4 : (100 * b + 4 * c + e - 100 * b) = 4 * c + e := by omega
  rw [e4]
  have e5 : (4 * c + e) / 4 = c := by omega
  rw [e5]
  omega

/-- The month and day of day `day` (from 0) of a common year. -/
theorem commonMonth_spec (day : Int) (h0 : 0 ≤ day) (h1 : day ≤ 364) (md : Int × Int)
    (hmd : md = if day ≥ daysBefore (day / 31 + 1)
      then (day / 31 + 2, day - daysBefore (day / 31 + 1) + 1)
      else (day / 31 + 1, day - daysBefore (day / 31) + 1)) :
    1 ≤ md.1 ∧ md.1 ≤ 12 ∧ 1 ≤ md.2 ∧ md.2 ≤ daysBefore md.1 - daysBefore (md.1 - 1) ∧
    daysBefore (md.1 - 1) + (md.2 - 1) = day ∧ (md.1 ≤ 2 ↔ day < 59) := by
  have hm : 0 ≤ day / 31 ∧ day / 31 ≤ 11 := by omega
  generalize hk : day / 31 = k at *
  obtain ⟨hk0, hk1⟩ := hm
  interval_cases k <;> norm_num [daysBefore] at hmd <;> split_ifs at hmd with hge <;>
    subst hmd <;> norm_num [daysBefore] <;> omega

/-- The month and day that `monthDay` finds are a date of the year, and they
count back to the day of the year. -/
theorem monthDay_spec (year yday : Int) (h0 : 0 ≤ yday) (h1 : yday ≤ 365)
    (hl : yday = 365 → isLeap year = true) :
    1 ≤ (monthDay year yday).1 ∧ (monthDay year yday).1 ≤ 12 ∧
    1 ≤ (monthDay year yday).2 ∧ (monthDay year yday).2 ≤ daysIn (monthDay year yday).1 year ∧
    daysBefore ((monthDay year yday).1 - 1) +
      (if isLeap year = true ∧ (monthDay year yday).1 ≥ 3 then 1 else 0) +
      ((monthDay year yday).2 - 1) = yday := by
  unfold monthDay daysIn
  generalize isLeap year = L at *
  cases L
  · have hy : yday ≤ 364 := by
      by_contra hc
      have : yday = 365 := by omega
      simpa using hl this
    simp only [Bool.false_eq_true, false_and, if_false, and_false]
    obtain ⟨a1, a2, a3, a4, a5, -⟩ := commonMonth_spec yday h0 hy _ rfl
    exact ⟨a1, a2, a3, a4, by omega⟩
  · simp only [true_and, and_true]
    by_cases h59 : yday = 31 + 29 - 1
    · subst h59
      simp [daysBefore]
    · rw [if_neg h59]
      generalize hday : (if yday > 31 + 29 - 1 then yday - 1 else yday) = day
      have hd : 0 ≤ day ∧ day ≤ 364 ∧ (yday > 59 → day = yday - 1) ∧ (yday < 59 → day = yday) := by
        split_ifs at hday <;> omega
      obtain ⟨a1, a2, a3, a4, a5, a6⟩ := commonMonth_spec day hd.1 hd.2.1 _ rfl
      generalize (if day ≥ daysBefore (day / 31 + 1)
        then (day / 31 + 2, day - daysBefore (day / 31 + 1) + 1)
        else (day / 31 + 1, day - daysBefore (day / 31) + 1)) = md at *
      refine ⟨a1, a2, a3, ?_, ?_⟩
      · split_ifs with hm2
        · rw [hm2] at a4
          norm_num [daysBefore] at a4
          omega
        · exact a4
      · split_ifs <;> omega

theorem absClock_spec (abs : Int) :
    0 ≤ (absClock abs).1 ∧ (absClock abs).1 ≤ 23 ∧
    0 ≤ (absClock abs).2.1 ∧ (absClock abs).2.1 ≤ 59 ∧
    0 ≤ (absClock abs).2.2 ∧ (absClock abs).2.2 ≤ 59 ∧
    (absClock abs).1 * 3600 + (absClock abs).2.1 * 60 + (absClock abs).2.2 = abs % 86400 := by
  unfold absClock
  simp only []
  omega

theorem civil_roundtrip (abs : Int) :
    civilToAbs (absYear abs).1 (monthDay (absYear abs).1 (absYear abs).2).1
      (monthDay (absYear abs).1 (absYear abs).2).2
      (absClock abs).1 (absClock abs).2.1 (absClock abs).2.2 = abs := by
  obtain ⟨a, b, c, e, hb0, hb1, hc0, hc1, he0, he1, hy, hd0, hd1, hleap, hd⟩ := absYear_spec abs
  have hl : (absYear abs).2 = 365 → isLeap (absYear abs).1 = true := by
    intro h
    rw [hy, isLeap_of_cycles a b c e ⟨hb0, hb1⟩ ⟨hc0, hc1⟩ ⟨he0, he1⟩]
    exact hleap h
  obtain ⟨-, -, -, -, hmd⟩ := monthDay_spec (absYear abs).1 (absYear abs).2 hd0 hd1 hl
  obtain ⟨-, -, -, -, -, -, hclock⟩ := absClock_spec abs
  have hdse : daysSinceEpoch (absYear abs).1 =
      146097 * a + 36524 * b + 1461 * c + 365 * e := by
    rw [hy]
    exact daysSinceEpoch_of_cycles a b c e ⟨hb0, hb1⟩ ⟨hc0, hc1⟩ ⟨he0, he1⟩
  unfold civilToAbs
  simp only []
  rw [hdse]
  have hmd2 : daysBefore ((monthDay (absYear abs).1 (absYear abs).2).1 - 1) +
      (if isLeap (absYear abs).1 = true ∧ (monthDay (absYear abs).1 (absYear abs).2).1 ≥ 3
        then 1 else 0) +
      ((monthDay (absYear abs).1 (absYear abs).2).2 - 1) = (absYear abs).2 := hmd
  generalize daysBefore ((monthDay (absYear abs).1 (absYear abs).2).1 - 1) = x1 at *
  generalize (if isLeap (absYear abs).1 = true ∧
    (monthDay (absYear abs).1 (absYear abs).2).1 ≥ 3 then (1 : Int) else 0) = x2 at *
  generalize (monthDay (absYear abs).1 (absYear abs).2).2 = x3 at *
  generalize (absYear abs).2 = yday at *
  omega

/-! ## Parsing what `appendFormatRFC3339` wrote -/

theorem takeWhile_append_stop {p : Char → Bool} (l : List Char) (c : Char) (r : List Char)
    (hl : ∀ x ∈ l, p x = true) (hc : p c = false) :
    (l ++ c :: r).takeWhile p = l ∧ (l ++ c :: r).dropWhile p = c :: r := by
  induction l with
  | nil => simp [List.takeWhile, List.dropWhile, hc]
  | cons x l ih =>
    have hx := hl x (List.mem_cons_self _ _)
    have ih2 := ih (fun y hy => hl y (List.mem_cons_of_mem _ hy))
    simp [List.takeWhile, List.dropWhile, hx, ih2.1, ih2.2]

theorem trimZeros_split (ds : List Char) :
    ∃ k, ds = trimZeros ds ++ List.replicate k '0' := by
  have h1 := List.takeWhile_append_dropWhile (fun c => decide (c = '0')) ds.reverse
  have h2 : ∃ k, ds.reverse.takeWhile (fun c => decide (c = '0')) = List.replicate k '0' := by
    refine ⟨(ds.reverse.takeWhile (fun c => decide (c = '0'))).length, ?_⟩
    rw [List.eq_replicate_iff]
    refine ⟨rfl, fun b hb => ?_⟩
    have := List.mem_takeWhile_imp hb
    simpa using this
  obtain ⟨k, hk⟩ := h2
  refine ⟨k, ?_⟩
  have h3 := congrArg List.reverse h1
  rw [hk] at h3
  simp only [List.reverse_append, List.reverse_reverse, List.reverse_replicate] at h3
  unfold trimZeros
  exact h3.symm

theorem digitsW_isDigit (w n : Nat) : ∀ c ∈ digitsW w n, (digitVal c).isSome = true := by
  induction w generalizing n with
  | zero => simp [digitsW]
  | succ w ih =>
    intro c hc
    simp only [digitsW, List.mem_append, List.mem_singleton] at hc
    rcases hc with hc | hc
    · exact ih _ c hc
    · subst hc; rw [digitVal_digitChar]; rfl

theorem readFraction_appendNano (n : Nat) (hn : n < 1000000000) (c : Char) (z : List Char)
    (hc1 : c ≠ '.') (hc2 : (digitVal c).isSome = false) :
    readFraction (appendNano n ++ c :: z) = some (n, c :: z) := by
  unfold appendNano
  split_ifs with h0
  · subst h0
    simp [readFraction, hc1]
  · have hfit : appendInt (n : Int) 9 = digitsW 9 n := by
      rw [appendInt_fits _ 9 (by decide) (by omega) (by exact_mod_cast hn)]
      simp
    rw [hfit]
    obtain ⟨k, hk⟩ := trimZeros_split (digitsW 9 n)
    have hlen : (trimZeros (digitsW 9 n)).length + k = 9 := by
      have := congrArg List.length hk
      simp only [digitsW_length, List.length_append, List.length_replicate] at this
      omega
    have hdig : ∀ x ∈ trimZeros (digitsW 9 n), (digitVal x).isSome = true :=
      fun x hx => digitsW_isDigit 9 n x (trimZeros_sub _ x hx)
    have hne : trimZeros (digitsW 9 n) ≠ [] := by
      intro he
      rw [he] at hk hlen
      have hk9 : k = 9 := by simpa using hlen
      rw [hk9] at hk
      have h1 := readDigits_digitsW 9 n [] (by norm_num; exact hn)
      rw [hk] at h1
      have h2 : readDigits 9 ([] ++ List.replicate 9 '0' ++ []) = some (0, []) := by decide
      rw [h1] at h2
      simp at h2
      exact h0 h2
    obtain ⟨ht, hd⟩ := takeWhile_append_stop (trimZeros (digitsW 9 n)) c z hdig hc2
    have hpad : (trimZeros (digitsW 9 n) ++ List.replicate 9 '0').take 9 = digitsW 9 n := by
      rw [List.take_append_eq_append_take, List.take_of_length_le (by omega),
        List.take_replicate]
      have : min (9 - (trimZeros (digitsW 9 n)).length) 9 = k := by omega
      rw [this]
      exact hk.symm
    simp only [List.cons_append, readFraction, if_true, ht, hd, if_neg hne, hpad]
    have h1 := readDigits_digitsW 9 n [] (by norm_num; exact hn)
    rw [List.append_nil] at h1
    rw [h1]

theorem digitsW_two_ne_Z (a : Nat) (c : Char) (rest : List Char) :
    c :: (digitsW 2 a ++ rest) ≠ ['Z'] := by
  intro h
  have := congrArg List.length h
  simp [digitsW_length] at this

/-- The zone is read back as the offset it was written for, when that offset
is a whole number of minutes less than 24 hours. -/
theorem readZone_appendZone (o : Int) (hm : o % 60 = 0)
    (h24 : (Int.tdiv o 60).natAbs / 60 < 24) :
    readZone (appendZone o) = some o := by
  obtain ⟨q, rfl⟩ : ∃ q, o = 60 * q := ⟨o / 60, by omega⟩
  have htd : Int.tdiv (60 * q) 60 = q := Int.mul_tdiv_cancel_left q (by decide)
  rw [htd] at h24
  unfold appendZone
  rw [htd]
  by_cases h0 : 60 * q = 0
  · rw [if_pos h0, h0]; rfl
  · rw [if_neg h0]
    simp only []
    by_cases hneg : q < 0
    · simp only [if_pos hneg]
      have hz0 : 0 ≤ -q / 60 := by omega
      have hz1 : -q / 60 < 10 ^ 2 := by norm_num; omega
      have hz2 : 0 ≤ -q % 60 := by omega
      have hz3 : -q % 60 < 10 ^ 2 := by norm_num; omega
      rw [appendInt_fits _ 2 (by decide) hz0 hz1, appendInt_fits _ 2 (by decide) hz2 hz3]
      unfold readZone
      rw [if_neg (digitsW_two_ne_Z _ _ _)]
      simp only [true_or, or_true, if_true]
      rw [readDigits_digitsW 2 _ _ (by omega)]
      simp only [if_true]
      have := readDigits_digitsW 2 (-q % 60).toNat [] (by omega)
      rw [List.append_nil] at this
      rw [this]
      dsimp only
      rw [if_pos (by omega)]
      congr 1
      omega
    · simp only [if_neg hneg]
      have hz0 : 0 ≤ q / 60 := by omega
      have hz1 : q / 60 < 10 ^ 2 := by norm_num; omega
      have hz2 : 0 ≤ q % 60 := by omega
      have hz3 : q % 60 < 10 ^ 2 := by norm_num; omega
      rw [appendInt_fits _ 2 (by decide) hz0 hz1, appendInt_fits _ 2 (by decide) hz2 hz3]
      unfold readZone
      rw [if_neg (digitsW_two_ne_Z _ _ _)]
      simp only [true_or, or_true, if_true]
      rw [readDigits_digitsW 2 _ _ (by omega)]
      simp only [if_true]
      have := readDigits_digitsW 2 (q % 60).toNat [] (by omega)
      rw [List.append_nil] at this
      rw [this]
      dsimp only
      rw [if_pos (by omega)]
      rw [if_neg (by decide)]
      congr 1
      omega

theorem appendZone_head (o : Int) :
    ∃ c z, appendZone o = c :: z ∧ c ≠ '.' ∧ (digitVal c).isSome = false := by
  unfold appendZone
  by_cases h0 : o = 0
  · rw [if_pos h0]
    exact ⟨'Z', [], rfl, by decide, by decide⟩
  · rw [if_neg h0]
    simp only []
    by_cases h1 : Int.tdiv o 60 < 0
    · simp only [if_pos h1]
      exact ⟨'-', _, rfl, by decide, by decide⟩
    · simp only [if_neg h1]
      exact ⟨'+', _, rfl, by decide, by decide⟩

/-- Parsing is the inverse of formatting on the clock readings that RFC 3339
can write with their zone in whole minutes. -/
theorem parse_appendFormat (t : Time) (hr : t.inRFC3339) (hw : t.wholeMinutes) :
    parseRFC3339 t.appendFormatRFC3339 = some t := by
  obtain ⟨hy0, hy1, hz24⟩ := hr
  unfold Time.Year at hy0 hy1
  obtain ⟨a, b, c, e, hb0, hb1, hc0, hc1, he0, he1, hy, hd0, hd1, hleap, hd⟩ :=
    absYear_spec t.abs
  have hl : (absYear t.abs).2 = 365 → isLeap (absYear t.abs).1 = true := by
    intro h
    rw [hy, isLeap_of_cycles a b c e ⟨hb0, hb1⟩ ⟨hc0, hc1⟩ ⟨he0, he1⟩]
    exact hleap h
  obtain ⟨hm0, hm1, hdd0, hdd1, -⟩ := monthDay_spec (absYear t.abs).1 (absYear t.abs).2 hd0 hd1 hl
  obtain ⟨hh0, hh1, hmi0, hmi1, hs0, hs1, -⟩ := absClock_spec t.abs
  have hrt := civil_roundtrip t.abs
  have hdays : (monthDay (absYear t.abs).1 (absYear t.abs).2).2 ≤ 31 := by
    have : daysIn (monthDay (absYear t.abs).1 (absYear t.abs).2).1 (absYear t.abs).1 ≤ 31 := by
      generalize (monthDay (absYear t.abs).1 (absYear t.abs).2).1 = m at hm0 hm1 ⊢
      unfold daysIn
      split_ifs
      · decide
      · interval_cases m <;> simp [daysBefore]
    omega
  obtain ⟨zc, zz, hz, hzc1, hzc2⟩ := appendZone_head t.offset
  unfold Time.appendFormatRFC3339
  simp only []
  generalize absYear t.abs = yd at *
  generalize monthDay yd.1 yd.2 = md at *
  generalize absClock t.abs = hms at *
  rw [appendInt_fits yd.1 4 (by decide) hy0 (by norm_num; omega),
    appendInt_fits md.1 2 (by decide) (by omega) (by norm_num; omega),
    appendInt_fits md.2 2 (by decide) (by omega) (by norm_num; omega),
    appendInt_fits hms.1 2 (by decide) hh0 (by norm_num; omega),
    appendInt_fits hms.2.1 2 (by decide) hmi0 (by norm_num; omega),
    appendInt_fits hms.2.2 2 (by decide) hs0 (by norm_num; omega)]
  unfold parseRFC3339
  rw [readDigits_digitsW 4 _ _ (by norm_num; omega)]
  dsimp only
  rw [readDigits_digitsW 2 _ _ (by norm_num; omega)]
  dsimp only
  rw [readDigits_digitsW 2 _ _ (by norm_num; omega)]
  dsimp only
  rw [readDigits_digitsW 2 _ _ (by norm_num; omega)]
  dsimp only
  rw [readDigits_digitsW 2 _ _ (by norm_num; omega)]
  dsimp only
  rw [readDigits_digitsW 2 _ _ (by norm_num; omega)]
  dsimp only
  rw [hz, readFraction_appendNano t.nsec.val t.nsec.isLt zc zz hzc1 hzc2]
  dsimp only
  rw [← hz, readZone_appendZone t.offset hw hz24]
  dsimp only
  have e1 : ((yd.1.toNat : Nat) : Int) = yd.1 := Int.toNat_of_nonneg hy0
  have e2 : ((md.1.toNat : Nat) : Int) = md.1 := Int.toNat_of_nonneg (by omega)
  have e3 : ((md.2.toNat : Nat) : Int) = md.2 := Int.toNat_of_nonneg (by omega)
  have e4 : ((hms.1.toNat : Nat) : Int) = hms.1 := Int.toNat_of_nonneg hh0
  have e5 : ((hms.2.1.toNat : Nat) : Int) = hms.2.1 := Int.toNat_of_nonneg hmi0
  have e6 : ((hms.2.2.toNat : Nat) : Int) = hms.2.2 := Int.toNat_of_nonneg hs0
  split
  · rw [e1, e2, e3, e4, e5, e6, hrt]
    cases t with
    | mk sec nsec offset =>
      simp only [Time.abs]
      have : sec + offset + unixToAbsolute - unixToAbsolute - offset = sec := by omega
      rw [this]
  · rename_i hno
    exfalso
    apply hno
    rw [e1, e2, e3]
    refine ⟨rfl, rfl, rfl, rfl, rfl, ?_, ?_, ?_, hdd1, ?_, ?_, ?_, t.nsec.isLt⟩ <;> omega

/-! ## The answers to `/health` and `/api` -/

theorem request_pattern (method : String) (h : HandlerId) :
    (request method h.pattern).Path = h.pattern := by
  cases h <;> rfl

/-- The answer to a request for the path of a handler, field by field. -/
theorem respond_registered (h : HandlerId) (r : Request) (now : Time)
    (hpath : r.Path = h.pattern) :
    (respond r now).handler = some h ∧
    (respond r now).status = 200 ∧
    (respond r now).header = ⟨[("Content-Type", "application/json")]⟩ ∧
    (respond r now).body =
      (if r.Method = "HEAD" then []
       else
        match Response.marshal { Message := h.message, Timestamp := now } with
        | .error _ => []
        | .ok b => b ++ ['\n']) := by
  unfold respond
  rw [serverHandler_registered now r none started rfl h hpath]
  obtain ⟨h1, h2, -⟩ := Encode_status r none { Message := h.message, Timestamp := now }
  have h3 := Encode_body r none { Message := h.message, Timestamp := now }
  refine ⟨rfl, h1, h2, ?_⟩
  simp only [Answer.body]
  rw [h3]

theorem encodeString_health :
    encodeString "Service is healthy" = "\"Service is healthy\"".data := by decide

theorem encodeString_api :
    encodeString "Hello from Go API" = "\"Hello from Go API\"".data := by decide

/-- The body written for a request that is not `HEAD` at a clock reading that
RFC 3339 can write. -/
theorem respond_body (h : HandlerId) (r : Request) (now : Time) (hpath : r.Path = h.pattern)
    (hm : r.Method ≠ "HEAD") (ht : now.inRFC3339) :
    (respond r now).body =
      '\x7b' :: '"' :: ("message".data ++ '"' :: ':' :: '"' :: (h.message.data ++
        '"' :: ',' :: '"' :: ("timestamp".data ++ '"' :: ':' :: '"' ::
          (now.appendFormatRFC3339 ++ ['"', '\x7d', '\n'])))) := by
  rw [(respond_registered h r now hpath).2.2.2, if_neg hm, marshal_ok _ _ ht]
  simp only [encodeString]
  cases h <;> simp [HandlerId.message, encodeChar]

theorem plain_of_decide (l : List Char)
    (h : l.all (fun c => decide (c ≠ '"' ∧ c ≠ '\\' ∧ ¬ c.toNat < 32)) = true) :
    ∀ c ∈ l, c ≠ '"' ∧ c ≠ '\\' ∧ ¬ c.toNat < 32 := by
  intro c hc
  have := List.all_eq_true.mp h c hc
  simpa using this

/-- The body of such a request decodes to the two members. -/
theorem respond_decodes (h : HandlerId) (r : Request) (now : Time) (hpath : r.Path = h.pattern)
    (hm : r.Method ≠ "HEAD") (ht : now.inRFC3339) :
    decodeObject (respond r now).body =
      some [("message", h.message), ("timestamp", String.mk now.appendFormatRFC3339)] := by
  rw [respond_body h r now hpath hm ht]
  have hmsg : ∀ c ∈ h.message.data, c ≠ '"' ∧ c ≠ '\\' ∧ ¬ c.toNat < 32 := by
    cases h <;> exact plain_of_decide _ (by decide)
  rw [decodeObject_two "message".data h.message.data "timestamp".data now.appendFormatRFC3339
    (plain_of_decide _ (by decide)) hmsg (plain_of_decide _ (by decide))
    (fun c hc => timeChar_plain c (appendFormatRFC3339_timeChar now c hc))]

theorem respond_message (h : HandlerId) (r : Request) (now : Time) (hpath : r.Path = h.pattern)
    (hm : r.Method ≠ "HEAD") (ht : now.inRFC3339) :
    decodeMessage (respond r now).body = some h.message := by
  unfold decodeMessage decodeField
  rw [respond_decodes h r now hpath hm ht]
  rfl

theorem respond_timestamp (h : HandlerId) (r : Request) (now : Time) (hpath : r.Path = h.pattern)
    (hm : r.Method ≠ "HEAD") (ht : now.inRFC3339) (hw : now.wholeMinutes) :
    decodeTimestamp (respond r now).body = some now := by
  unfold decodeTimestamp decodeField
  rw [respond_decodes h r now hpath hm ht]
  have : List.find? (fun kv => kv.1 == "timestamp")
      [("message", h.message), ("timestamp", String.mk now.appendFormatRFC3339)] =
      some ("timestamp", String.mk now.appendFormatRFC3339) := by
    rfl
  dsimp only
  rw [this]
  exact parse_appendFormat now ht hw

/-- The timestamp a client reads is the parse of the text of the clock reading. -/
theorem respond_timestamp_text (h : HandlerId) (r : Request) (now : Time)
    (hpath : r.Path = h.pattern) (hm : r.Method ≠ "HEAD") (ht : now.inRFC3339) :
    decodeTimestamp (respond r now).body = parseRFC3339 now.appendFormatRFC3339 := by
  unfold decodeTimestamp decodeField
  rw [respond_decodes h r now hpath hm ht]
  rfl

/-- The seconds of a zone offset are not written: `oddZoneReading` has the text
of the instant 30 seconds later in the zone of 1 hour. -/
theorem oddZoneReading_text :
    oddZoneReading.appendFormatRFC3339 =
      Time.appendFormatRFC3339 { sec := 1704067230, nsec := 0, offset := 3600 } := by
  with_unfolding_all decide

theorem oddZoneReading_timestamp (h : HandlerId) :
    decodeTimestamp (respond (request "GET" h.pattern) oddZoneReading).body =
      some { sec := 1704067230, nsec := 0, offset := 3600 } := by
  have hm : (request "GET" h.pattern).Method ≠ "HEAD" := by
    show ("GET" : String) ≠ "HEAD"
    decide
  rw [respond_timestamp_text h _ _ (request_pattern _ h) hm (by with_unfolding_all decide),
    oddZoneReading_text,
    parse_appendFormat _ (by with_unfolding_all decide) (by with_unfolding_all decide)]

/-- The text `Encode` hands to `Write`, the same for every request: it decodes
to the message of the handler. -/
theorem written_message (h : HandlerId) (now : Time) (ht : now.inRFC3339) :
    ∃ b, Response.marshal { Message := h.message, Timestamp := now } = .ok b ∧
      decodeMessage (b ++ ['\n']) = some h.message := by
  refine ⟨_, marshal_ok h.message now ht, ?_⟩
  have hm : (request "GET" h.pattern).Method ≠ "HEAD" := by
    show ("GET" : String) ≠ "HEAD"
    decide
  have h1 := respond_message h (request "GET" h.pattern) now (request_pattern _ h) hm ht
  rw [(respond_registered h (request "GET" h.pattern) now (request_pattern _ h)).2.2.2, if_neg hm,
    marshal_ok _ _ ht] at h1
  exact h1

/-- No body when the request is `HEAD` or the clock reading cannot be written. -/
theorem respond_empty (h : HandlerId) (r : Request) (now : Time) (hpath : r.Path = h.pattern)
    (hno : r.Method = "HEAD" ∨ ¬ now.inRFC3339) : (respond r now).body = [] := by
  rw [(respond_registered h r now hpath).2.2.2]
  rcases hno with hm | ht
  · rw [if_pos hm]
  · obtain ⟨e, he⟩ := marshal_error h.message now ht
    rw [he]
    simp

theorem newYear2024_inRFC3339 : newYear2024.inRFC3339 := by
  with_unfolding_all decide

theorem year10000_not_inRFC3339 : ¬ year10000.inRFC3339 := by
  with_unfolding_all decide

theorem pattern_of_path (r : Request) (hp : r.Path = "/health" ∨ r.Path = "/api") :
    ∃ h : HandlerId, r.Path = h.pattern := by
  rcases hp with hp | hp
  · exact ⟨.health, hp⟩
  · exact ⟨.api, hp⟩

theorem tickingClock_nonDecreasing : nonDecreasing tickingClock := by
  intro i j hij
  simp only [tickingClock, Time.unixNano]
  omega

/-! ## The claims about `/health` and `/api` -/

/-- C1, amended.  Every request whose path is exactly `/health` is answered by
`healthHandler` with status 200 and the header `Content-Type: application/json`,
whatever its method, headers, body and the clock reading.  When the method is
not `HEAD` and the clock reading is one RFC 3339 can write, the body decodes as
JSON to an object whose `message` is exactly "Service is healthy"; for a `HEAD`
request, or a clock reading RFC 3339 cannot write, the body is empty.  (The
text the handler hands to `Write` at a clock reading RFC 3339 can write is the
same for every method and decodes to that message; for `HEAD` the server sends
none of it.) -/
theorem c1_health_answer (r : Request) (now : Time) (hp : r.Path = "/health") :
    (respond r now).handler = some .health ∧
    (respond r now).status = 200 ∧
    (respond r now).header.Get "Content-Type" = "application/json" ∧
    (r.Method ≠ "HEAD" → now.inRFC3339 →
      decodeMessage (respond r now).body = some "Service is healthy") ∧
    (r.Method = "HEAD" ∨ ¬ now.inRFC3339 → (respond r now).body = []) ∧
    (now.inRFC3339 →
      ∃ b, Response.marshal { Message := "Service is healthy", Timestamp := now } = .ok b ∧
        decodeMessage (b ++ ['\n']) = some "Service is healthy") := by
  obtain ⟨h1, h2, h3, -⟩ := respond_registered .health r now hp
  refine ⟨h1, h2, ?_, ?_, ?_, ?_⟩
  · rw [h3]; rfl
  · intro hm ht
    exact respond_message .health r now hp hm ht
  · intro hno
    exact respond_empty .health r now hp hno
  · intro ht
    exact written_message .health now ht

/-- The witness of C1: `GET /health` at 2024-01-01T00:00:00Z. -/
theorem c1_health_answer_witness :
    (request "GET" "/health").Path = "/health" ∧
    (respond (request "GET" "/health") newYear2024).status = 200 ∧
    (respond (request "GET" "/health") newYear2024).header.Get "Content-Type" =
      "application/json" ∧
    decodeMessage (respond (request "GET" "/health") newYear2024).body =
      some "Service is healthy" :=
  ⟨rfl, (c1_health_answer (request "GET" "/health") newYear2024 rfl).2.1,
    (c1_health_answer (request "GET" "/health") newYear2024 rfl).2.2.1,
    (c1_health_answer (request "GET" "/health") newYear2024 rfl).2.2.2.1 (by decide)
      newYear2024_inRFC3339⟩

/-- C1 as stated fails at two inputs.  `HEAD /health` has the path `/health`
and is answered with status 200 and an empty body, which decodes to no
`message`; and so is `GET /health` handled at the clock reading
10000-01-01T00:00:00Z, which `Time.MarshalJSON` refuses. -/
theorem c1_head_health_no_message :
    (request "HEAD" "/health").Path = "/health" ∧
    (respond (request "HEAD" "/health") newYear2024).status = 200 ∧
    (respond (request "HEAD" "/health") newYear2024).body = [] ∧
    decodeMessage (respond (request "HEAD" "/health") newYear2024).body = none ∧
    (request "GET" "/health").Path = "/health" ∧
    (respond (request "GET" "/health") year10000).body = [] ∧
    decodeMessage (respond (request "GET" "/health") year10000).body = none := by
  have hb := respond_empty .health (request "HEAD" "/health") newYear2024 rfl (Or.inl rfl)
  have hc := respond_empty .health (request "GET" "/health") year10000 rfl
    (Or.inr year10000_not_inRFC3339)
  refine ⟨rfl, (respond_registered .health _ newYear2024 rfl).2.1, hb, ?_, rfl, hc, ?_⟩
  · rw [hb]
    rfl
  · rw [hc]
    rfl

/-- C2, amended.  Every request whose path is exactly `/api` is answered by
`apiHandler` with status 200 and the header `Content-Type: application/json`,
whatever its method, headers, body and the clock reading.  When the method is
not `HEAD` and the clock reading is one RFC 3339 can write, the body decodes as
JSON to an object whose `message` is exactly "Hello from Go API"; for a `HEAD`
request, or a clock reading RFC 3339 cannot write, the body is empty.  (The
text the handler hands to `Write` at a clock reading RFC 3339 can write is the
same for every method and decodes to that message; for `HEAD` the server sends
none of it.) -/
theorem c2_api_answer (r : Request) (now : Time) (hp : r.Path = "/api") :
    (respond r now).handler = some .api ∧
    (respond r now).status = 200 ∧
    (respond r now).header.Get "Content-Type" = "application/json" ∧
    (r.Method ≠ "HEAD" → now.inRFC3339 →
      decodeMessage (respond r now).body = some "Hello from Go API") ∧
    (r.Method = "HEAD" ∨ ¬ now.inRFC3339 → (respond r now).body = []) ∧
    (now.inRFC3339 →
      ∃ b, Response.marshal { Message := "Hello from Go API", Timestamp := now } = .ok b ∧
        decodeMessage (b ++ ['\n']) = some "Hello from Go API") := by
  obtain ⟨h1, h2, h3, -⟩ := respond_registered .api r now hp
  refine ⟨h1, h2, ?_, ?_, ?_, ?_⟩
  · rw [h3]; rfl
  · intro hm ht
    exact respond_message .api r now hp hm ht
  · intro hno
    exact respond_empty .api r now hp hno
  · intro ht
    exact written_message .api now ht

/-- The witness of C2: `POST /api` at 2024-01-01T00:00:00Z. -/
theorem c2_api_answer_witness :
    (request "POST" "/api").Path = "/api" ∧
    (respond (request "POST" "/api") newYear2024).status = 200 ∧
    (respond (request "POST" "/api") newYear2024).header.Get "Content-Type" =
      "application/json" ∧
    decodeMessage (respond (request "POST" "/api") newYear2024).body =
      some "Hello from Go API" :=
  ⟨rfl, (c2_api_answer (request "POST" "/api") newYear2024 rfl).2.1,
    (c2_api_answer (request "POST" "/api") newYear2024 rfl).2.2.1,
    (c2_api_answer (request "POST" "/api") newYear2024 rfl).2.2.2.1 (by decide)
      newYear2024_inRFC3339⟩

/-- C2 as stated fails at two inputs.  `HEAD /api` has the path `/api` and is
answered with status 200 and an empty body, which decodes to no `message`; and
so is `POST /api` handled at the clock reading 10000-01-01T00:00:00Z, which
`Time.MarshalJSON` refuses. -/
theorem c2_head_api_no_message :
    (request "HEAD" "/api").Path = "/api" ∧
    (respond (request "HEAD" "/api") newYear2024).status = 200 ∧
    (respond (request "HEAD" "/api") newYear2024).body = [] ∧
    decodeMessage (respond (request "HEAD" "/api") newYear2024).body = none ∧
    (request "POST" "/api").Path = "/api" ∧
    (respond (request "POST" "/api") year10000).body = [] ∧
    decodeMessage (respond (request "POST" "/api") year10000).body = none := by
  have hb := respond_empty .api (request "HEAD" "/api") newYear2024 rfl (Or.inl rfl)
  have hc := respond_empty .api (request "POST" "/api") year10000 rfl
    (Or.inr year10000_not_inRFC3339)
  refine ⟨rfl, (respond_registered .api _ newYear2024 rfl).2.1, hb, ?_, rfl, hc, ?_⟩
  · rw [hb]
    rfl
  · rw [hc]
    rfl

theorem newYear2024_text : newYear2024.appendFormatRFC3339 = "2024-01-01T00:00:00Z".data := by
  with_unfolding_all decide

/-- C4, amended.  For every clock reading `now` that RFC 3339 can write and
every request that is not `HEAD`, the body of the answer for `/health` is
exactly the text `{"message":"Service is healthy","timestamp":"<T>"}` followed
by one newline, and the body for `/api` is exactly
`{"message":"Hello from Go API","timestamp":"<T>"}` followed by one newline,
where `<T>` is the RFC 3339 text of `now`; each decodes to a JSON object with
exactly the two members `message` and `timestamp`, in that order. -/
theorem c4_body_is_json_line (r : Request) (now : Time) (hm : r.Method ≠ "HEAD")
    (ht : now.inRFC3339) :
    (r.Path = "/health" →
      (respond r now).body =
        "\x7b\"message\":\"Service is healthy\",\"timestamp\":\"".data ++
          (now.appendFormatRFC3339 ++ "\"\x7d\n".data) ∧
      decodeObject (respond r now).body =
        some [("message", "Service is healthy"),
          ("timestamp", String.mk now.appendFormatRFC3339)]) ∧
    (r.Path = "/api" →
      (respond r now).body =
        "\x7b\"message\":\"Hello from Go API\",\"timestamp\":\"".data ++
          (now.appendFormatRFC3339 ++ "\"\x7d\n".data) ∧
      decodeObject (respond r now).body =
        some [("message", "Hello from Go API"),
          ("timestamp", String.mk now.appendFormatRFC3339)]) := by
  constructor
  · intro hp
    exact ⟨respond_body .health r now hp hm ht, respond_decodes .health r now hp hm ht⟩
  · intro hp
    exact ⟨respond_body .api r now hp hm ht, respond_decodes .api r now hp hm ht⟩

/-- The witness of C4: the body of `GET /health` at 2024-01-01T00:00:00Z. -/
theorem c4_body_is_json_line_witness :
    (request "GET" "/health").Method ≠ "HEAD" ∧ newYear2024.inRFC3339 ∧
    (respond (request "GET" "/health") newYear2024).body =
      "\x7b\"message\":\"Service is healthy\",\"timestamp\":\"2024-01-01T00:00:00Z\"\x7d\n".data := by
  refine ⟨by decide, newYear2024_inRFC3339, ?_⟩
  have h := ((c4_body_is_json_line (request "GET" "/health") newYear2024 (by decide)
    newYear2024_inRFC3339).1 rfl).1
  rw [h, newYear2024_text]
  rfl

/-- C4 as stated fails at three inputs.  The body of `GET /health` at
2024-01-01T00:00:00Z is not the JSON text alone, a newline follows it; the body
of `HEAD /health` at that reading is empty; and so is the body of `GET /health`
at the reading 10000-01-01T00:00:00Z, which has no RFC 3339 text. -/
theorem c4_body_has_newline :
    (respond (request "GET" "/health") newYear2024).body ≠
      "\x7b\"message\":\"Service is healthy\",\"timestamp\":\"2024-01-01T00:00:00Z\"\x7d".data ∧
    (respond (request "GET" "/health") newYear2024).body =
      "\x7b\"message\":\"Service is healthy\",\"timestamp\":\"2024-01-01T00:00:00Z\"\x7d".data
        ++ ['\n'] ∧
    (respond (request "HEAD" "/health") newYear2024).body = [] ∧
    (respond (request "GET" "/health") year10000).body = [] := by
  have h := respond_body .health (request "GET" "/health") newYear2024 rfl (by decide)
    newYear2024_inRFC3339
  rw [h, newYear2024_text]
  refine ⟨by decide, rfl, ?_, ?_⟩
  · exact respond_empty .health (request "HEAD" "/health") newYear2024 rfl (Or.inl rfl)
  · exact respond_empty .health (request "GET" "/health") year10000 rfl
      (Or.inr year10000_not_inRFC3339)

/-- C5, amended.  Two requests for the same defined path, `/health` or `/api`,
handled at the same clock reading get the same handler, the same status 200
and the same `Content-Type`, whatever their methods; their bodies are the same
when both or neither of them is a `HEAD` request, and the body of a `HEAD`
request is empty.  In particular `POST /health` is answered like
`GET /health`.  (The handlers themselves do not look at the request: on the
same writer they do the same for both.) -/
theorem c5_method_independent (r1 r2 : Request) (now : Time) (hsame : r1.Path = r2.Path)
    (hp : r1.Path = "/health" ∨ r1.Path = "/api") :
    (respond r1 now).handler = (respond r2 now).handler ∧
    (respond r1 now).status = 200 ∧ (respond r2 now).status = 200 ∧
    (respond r1 now).header.Get "Content-Type" = "application/json" ∧
    (respond r2 now).header.Get "Content-Type" = "application/json" ∧
    ((r1.Method = "HEAD" ↔ r2.Method = "HEAD") →
      (respond r1 now).body = (respond r2 now).body) ∧
    (r2.Method = "HEAD" → (respond r2 now).body = []) ∧
    (∀ (w : ResponseWriter) (p : Proc),
      healthHandler now w r1 p = healthHandler now w r2 p ∧
      apiHandler now w r1 p = apiHandler now w r2 p) := by
  obtain ⟨h, hpat⟩ := pattern_of_path r1 hp
  have hpat2 : r2.Path = h.pattern := by rw [← hsame]; exact hpat
  obtain ⟨a1, a2, a3, a4⟩ := respond_registered h r1 now hpat
  obtain ⟨b1, b2, b3, b4⟩ := respond_registered h r2 now hpat2
  refine ⟨by rw [a1, b1], a2, b2, by rw [a3]; rfl, by rw [b3]; rfl, ?_, ?_,
    fun w p => ⟨rfl, rfl⟩⟩
  · intro hiff
    rw [a4, b4]
    by_cases h1 : r1.Method = "HEAD"
    · rw [if_pos h1, if_pos (hiff.mp h1)]
    · rw [if_neg h1, if_neg (fun h2 => h1 (hiff.mpr h2))]
  · intro h2
    rw [b4, if_pos h2]

/-- The witness of C5: `GET /health` and `POST /health` at the same clock
reading have the same status, content type and body. -/
theorem c5_method_independent_witness :
    (respond (request "GET" "/health") newYear2024).status =
      (respond (request "POST" "/health") newYear2024).status ∧
    (respond (request "GET" "/health") newYear2024).header.Get "Content-Type" =
      (respond (request "POST" "/health") newYear2024).header.Get "Content-Type" ∧
    (respond (request "GET" "/health") newYear2024).body =
      (respond (request "POST" "/health") newYear2024).body := by
  have h := c5_method_independent (request "GET" "/health") (request "POST" "/health")
    newYear2024 rfl (Or.inl rfl)
  refine ⟨?_, ?_, h.2.2.2.2.2.1 (by decide)⟩
  · rw [h.2.1, h.2.2.1]
  · rw [h.2.2.2.1, h.2.2.2.2.1]

/-- C5 as stated fails: `GET /health` and `HEAD /health` differ only in the
method and are handled at the same clock reading, and their bodies differ. -/
theorem c5_head_body_differs :
    (request "GET" "/health").Path = (request "HEAD" "/health").Path ∧
    (respond (request "GET" "/health") newYear2024).body ≠
      (respond (request "HEAD" "/health") newYear2024).body := by
  refine ⟨rfl, ?_⟩
  rw [respond_empty .health (request "HEAD" "/health") newYear2024 rfl (Or.inl rfl),
    respond_body .health (request "GET" "/health") newYear2024 rfl (by decide)
      newYear2024_inRFC3339]
  exact List.cons_ne_nil _ _

/-- C6, amended.  For every request to `/health` or `/api` that is not `HEAD`,
handled at a clock reading that RFC 3339 can write with its zone offset in whole
minutes, the `timestamp` field of the body parses as a date-time and is the
clock reading taken while the request was handled; under a non-decreasing
clock it is not earlier than the reading when the request was issued and not
later than the reading when the response was received. -/
theorem c6_timestamp_is_reading (clock : Nat → Time) (hmono : nonDecreasing clock)
    (issued handled received : Nat) (hih : issued ≤ handled) (hhr : handled ≤ received)
    (r : Request) (hp : r.Path = "/health" ∨ r.Path = "/api") (hm : r.Method ≠ "HEAD")
    (ht : (clock handled).inRFC3339) (hw : (clock handled).wholeMinutes) :
    ∃ ts, decodeTimestamp (respond r (clock handled)).body = some ts ∧
      ts = clock handled ∧
      (clock issued).unixNano ≤ ts.unixNano ∧ ts.unixNano ≤ (clock received).unixNano := by
  obtain ⟨h, hpat⟩ := pattern_of_path r hp
  exact ⟨clock handled, respond_timestamp h r (clock handled) hpat hm ht hw, rfl,
    hmono _ _ hih, hmono _ _ hhr⟩

/-- The witness of C6: `GET /api` issued at moment 1 of the ticking clock,
handled at moment 2 and received at moment 3 carries the reading of moment 2. -/
theorem c6_timestamp_is_reading_witness :
    nonDecreasing tickingClock ∧
    decodeTimestamp (respond (request "GET" "/api") (tickingClock 2)).body =
      some { sec := 1704067202, nsec := 0, offset := 0 } := by
  refine ⟨tickingClock_nonDecreasing, ?_⟩
  obtain ⟨ts, h1, h2, -⟩ := c6_timestamp_is_reading tickingClock tickingClock_nonDecreasing 1 2 3
    (by decide) (by decide) (request "GET" "/api") (Or.inr rfl) (by decide)
    (by with_unfolding_all decide) (by with_unfolding_all decide)
  rw [h1, h2]
  rfl

/-- C6 as stated fails at three inputs.  The answer to `HEAD /api` has no
body, so it has no `timestamp` field to parse, and neither has the answer to
`GET /api` handled at the clock reading 10000-01-01T00:00:00Z.  And the
timestamp of `GET /api` handled at a reading whose zone offset has 30 odd
seconds parses to an instant 30 seconds after the reading. -/
theorem c6_timestamp_missing_or_shifted :
    (request "HEAD" "/api").Path = "/api" ∧
    decodeTimestamp (respond (request "HEAD" "/api") newYear2024).body = none ∧
    (request "GET" "/api").Path = "/api" ∧
    decodeTimestamp (respond (request "GET" "/api") year10000).body = none ∧
    decodeTimestamp (respond (request "GET" "/api") oddZoneReading).body =
      some { sec := 1704067230, nsec := 0, offset := 3600 } ∧
    oddZoneReading.unixNano + 30 * 1000000000 =
      Time.unixNano { sec := 1704067230, nsec := 0, offset := 3600 } := by
  refine ⟨rfl, ?_, rfl, ?_, oddZoneReading_timestamp .api, by decide⟩
  · rw [respond_empty .api (request "HEAD" "/api") newYear2024 rfl (Or.inl rfl)]
    rfl
  · rw [respond_empty .api (request "GET" "/api") year10000 rfl
      (Or.inr year10000_not_inRFC3339)]
    rfl

/-- C7, amended.  Under a non-decreasing clock, two requests to the same
endpoint, neither of them `HEAD`, the second handled after the first, at clock
readings that RFC 3339 can write with their zone offsets in whole minutes, get
answers that both carry a timestamp, and the timestamp of the second is not
earlier than the timestamp of the first. -/
theorem c7_timestamps_ordered (clock : Nat → Time) (hmono : nonDecreasing clock)
    (first second : Nat) (hseq : first ≤ second) (r1 r2 : Request)
    (hsame : r1.Path = r2.Path) (hp : r1.Path = "/health" ∨ r1.Path = "/api")
    (hm1 : r1.Method ≠ "HEAD") (hm2 : r2.Method ≠ "HEAD")
    (ht1 : (clock first).inRFC3339) (hw1 : (clock first).wholeMinutes)
    (ht2 : (clock second).inRFC3339) (hw2 : (clock second).wholeMinutes) :
    ∃ ts1 ts2, decodeTimestamp (respond r1 (clock first)).body = some ts1 ∧
      decodeTimestamp (respond r2 (clock second)).body = some ts2 ∧
      ts1.unixNano ≤ ts2.unixNano := by
  obtain ⟨h, hpat⟩ := pattern_of_path r1 hp
  have hpat2 : r2.Path = h.pattern := by rw [← hsame]; exact hpat
  exact ⟨clock first, clock second, respond_timestamp h r1 _ hpat hm1 ht1 hw1,
    respond_timestamp h r2 _ hpat2 hm2 ht2 hw2, hmono _ _ hseq⟩

/-- The witness of C7: two `GET /health` at moments 5 and 9 of the ticking
clock. -/
theorem c7_timestamps_ordered_witness :
    nonDecreasing tickingClock ∧
    ∃ ts1 ts2,
      decodeTimestamp (respond (request "GET" "/health") (tickingClock 5)).body = some ts1 ∧
      decodeTimestamp (respond (request "GET" "/health") (tickingClock 9)).body = some ts2 ∧
      ts1.unixNano ≤ ts2.unixNano :=
  ⟨tickingClock_nonDecreasing,
    c7_timestamps_ordered tickingClock tickingClock_nonDecreasing 5 9 (by decide)
      (request "GET" "/health") (request "GET" "/health") rfl (Or.inl rfl) (by decide)
      (by decide) (by with_unfolding_all decide) (by with_unfolding_all decide)
      (by with_unfolding_all decide) (by with_unfolding_all decide)⟩

/-- C7 as stated fails at three inputs.  Of a `GET /health` followed by a
`HEAD /health` the first answer carries a timestamp and the second carries
none, and neither does a `GET /health` handled at the clock reading
10000-01-01T00:00:00Z.  And of two `GET /health` handled one second apart, the
first in a zone whose offset has 30 odd seconds, both answers carry a timestamp
and the second timestamp is earlier than the first. -/
theorem c7_timestamp_missing_or_earlier :
    decodeTimestamp (respond (request "GET" "/health") (tickingClock 0)).body =
      some (tickingClock 0) ∧
    decodeTimestamp (respond (request "HEAD" "/health") (tickingClock 1)).body = none ∧
    decodeTimestamp (respond (request "GET" "/health") year10000).body = none ∧
    oddZoneReading.unixNano ≤ nextReading.unixNano ∧
    decodeTimestamp (respond (request "GET" "/health") oddZoneReading).body =
      some { sec := 1704067230, nsec := 0, offset := 3600 } ∧
    decodeTimestamp (respond (request "GET" "/health") nextReading).body = some nextReading ∧
    nextReading.unixNano < Time.unixNano { sec := 1704067230, nsec := 0, offset := 3600 } := by
  refine ⟨?_, ?_, ?_, by decide, oddZoneReading_timestamp .health, ?_, by decide⟩
  · exact respond_timestamp .health _ _ rfl (by decide) (by with_unfolding_all decide)
      (by with_unfolding_all decide)
  · rw [respond_empty .health (request "HEAD" "/health") (tickingClock 1) rfl (Or.inl rfl)]
    rfl
  · rw [respond_empty .health (request "GET" "/health") year10000 rfl
      (Or.inr year10000_not_inRFC3339)]
    rfl
  · exact respond_timestamp .health _ _ rfl (by decide) (by with_unfolding_all decide)
      (by with_unfolding_all decide)

/-! ## Dispatch, start-up, statelessness and failed writes -/

/-- The answer of the server to a request, case by case, on the route table of
`main`; the process is left as it was. -/
theorem serverHandler_cases (now : Time) (r : Request) (budget : Option Nat) (p : Proc)
    (hp : p.mux = routes) :
    serverHandler now r budget p =
      (if r.RequestURI = "*" ∧ r.Method = "OPTIONS" then .options
       else if r.RequestURI = "*" then .badRequest
       else if r.Method ≠ "CONNECT" ∧ cleanPath r.EscapedPath ≠ r.EscapedPath then
         .redirect (cleanPath r.EscapedPath) r.RawQuery StatusTemporaryRedirect
       else if r.Path = "/health" then
         .handled .health (Encode ((newResponseWriter r budget).SetHeader "Content-Type"
           "application/json") { Message := "Service is healthy", Timestamp := now }).1.finishRequest
       else if r.Path = "/api" then
         .handled .api (Encode ((newResponseWriter r budget).SetHeader "Content-Type"
           "application/json") { Message := "Hello from Go API", Timestamp := now }).1.finishRequest
       else .notFound, p) := by
  by_cases h1 : r.RequestURI = "*" ∧ r.Method = "OPTIONS"
  · simp only [serverHandler, if_pos h1]
  · by_cases h2 : r.RequestURI = "*"
    · simp only [serverHandler, if_neg h1, ServeMux.ServeHTTP, if_pos h2]
    · by_cases h3 : r.Method ≠ "CONNECT" ∧ cleanPath r.EscapedPath ≠ r.EscapedPath
      · simp only [serverHandler, if_neg h1, ServeMux.ServeHTTP, if_neg h2, hp, routes_findHandler,
          if_pos h3]
      · by_cases h4 : r.Path = "/health"
        · rw [serverHandler_registered now r budget p hp .health h4, if_neg h1, if_neg h2,
            if_neg h3, if_pos h4]
          rfl
        · by_cases h5 : r.Path = "/api"
          · rw [serverHandler_registered now r budget p hp .api h5, if_neg h1, if_neg h2,
              if_neg h3, if_neg h4, if_pos h5]
            rfl
          · simp only [serverHandler, if_neg h1, ServeMux.ServeHTTP, if_neg h2, hp,
              routes_findHandler, if_neg h3, if_neg h4, if_neg h5]

theorem serverHandler_proc (now : Time) (r : Request) (budget : Option Nat) (p : Proc)
    (hp : p.mux = routes) : (serverHandler now r budget p).2 = p := by
  rw [serverHandler_cases now r budget p hp]

/-- The answer does not depend on the trace of the process. -/
theorem serverHandler_answer (now : Time) (r : Request) (budget : Option Nat) (p q : Proc)
    (hp : p.mux = routes) (hq : q.mux = routes) :
    (serverHandler now r budget p).1 = (serverHandler now r budget q).1 := by
  rw [serverHandler_cases now r budget p hp, serverHandler_cases now r budget q hq]

theorem Serve_mux (p : Proc) (xs : List Exchange) (hp : p.mux = routes) :
    (Serve p xs).2.mux = routes := by
  induction xs generalizing p with
  | nil => exact hp
  | cons x xs ih =>
    simp only [Serve]
    apply ih
    rw [serverHandler_proc x.now x.r x.budget p hp]
    exact hp

/-- The trace after serving: the trace before, then one answer per request. -/
theorem Serve_trace (p : Proc) (xs : List Exchange) (hp : p.mux = routes) :
    (Serve p xs).2.trace = p.trace ++ (Serve p xs).1.map Event.answered := by
  induction xs generalizing p with
  | nil => simp [Serve]
  | cons x xs ih =>
    simp only [Serve]
    rw [ih _ (by rw [serverHandler_proc x.now x.r x.budget p hp]; exact hp)]
    rw [serverHandler_proc x.now x.r x.budget p hp]
    simp

theorem respond_cases (r : Request) (now : Time) :
    respond r now =
      (if r.RequestURI = "*" ∧ r.Method = "OPTIONS" then .options
       else if r.RequestURI = "*" then .badRequest
       else if r.Method ≠ "CONNECT" ∧ cleanPath r.EscapedPath ≠ r.EscapedPath then
         .redirect (cleanPath r.EscapedPath) r.RawQuery StatusTemporaryRedirect
       else if r.Path = "/health" then
         .handled .health (Encode ((newResponseWriter r none).SetHeader "Content-Type"
           "application/json") { Message := "Service is healthy", Timestamp := now }).1.finishRequest
       else if r.Path = "/api" then
         .handled .api (Encode ((newResponseWriter r none).SetHeader "Content-Type"
           "application/json") { Message := "Hello from Go API", Timestamp := now }).1.finishRequest
       else .notFound) := by
  unfold respond
  rw [serverHandler_cases now r none started rfl]

/-- C3, amended.  Dispatch is by exact match on the path: a request is
dispatched to `healthHandler` iff its path is `/health` and to `apiHandler` iff
its path is `/api`.  For every other path neither handler is invoked.  Unless
the request target is the asterisk form, the answer then is the default
not-found response with status 404 when the path is in canonical form (as
`/health/`, `/healthz`, `/api/v1` and `/` are), or the path as it is written,
the escaped path, is (as `/%2Fhealth` and `/%2e%2e/health` are), or the method
is `CONNECT`; and it is a redirect, to the URL whose path is the canonical form
of the written path and whose query is the one of the request, with a status of
the class 3xx and so not 404, when the written path is not canonical (as
`//health` and `/x/../health`) and the method is not `CONNECT`. -/
theorem c3_dispatch_exact (r : Request) (now : Time) :
    ((respond r now).handler = some .health ↔ r.Path = "/health") ∧
    ((respond r now).handler = some .api ↔ r.Path = "/api") ∧
    (r.Path ≠ "/health" → r.Path ≠ "/api" →
      (respond r now).handler = none ∧
      (r.RequestURI ≠ "*" →
        (r.Method = "CONNECT" ∨ cleanPath r.Path = r.Path ∨
          cleanPath r.EscapedPath = r.EscapedPath) →
        respond r now = .notFound ∧ (respond r now).status = 404) ∧
      (r.RequestURI ≠ "*" → r.Method ≠ "CONNECT" →
        cleanPath r.EscapedPath ≠ r.EscapedPath →
        (∃ code, respond r now = .redirect (cleanPath r.EscapedPath) r.RawQuery code ∧
          300 ≤ code ∧ code < 400) ∧
        (respond r now).status ≠ 404 ∧ respond r now ≠ .notFound)) := by
  have hne : ("/api" : String) ≠ "/health" := by decide
  refine ⟨⟨?_, ?_⟩, ⟨?_, ?_⟩, ?_⟩
  · intro h
    rw [respond_cases] at h
    split_ifs at h with h1 h2 h3 h4 h5 <;> first | exact h4 | (simp [Answer.handler] at h)
  · intro h
    rw [(respond_registered .health r now h).1]
  · intro h
    rw [respond_cases] at h
    split_ifs at h with h1 h2 h3 h4 h5 <;> first | exact h5 | (simp [Answer.handler] at h)
  · intro h
    rw [(respond_registered .api r now h).1]
  · intro h1 h2
    refine ⟨?_, ?_, ?_⟩
    · rw [respond_cases]
      split_ifs <;> rfl
    · intro h3 h4
      have h5 : ¬ (r.Method ≠ "CONNECT" ∧ cleanPath r.EscapedPath ≠ r.EscapedPath) := by
        rintro ⟨a, b⟩
        rcases h4 with h4 | h4 | h4
        · exact a h4
        · exact b (cleanPath_escaped r h4)
        · exact b h4
      have h6 : ¬ (r.RequestURI = "*" ∧ r.Method = "OPTIONS") := fun h => h3 h.1
      rw [respond_cases, if_neg h6, if_neg h3, if_neg h5, if_neg h1, if_neg h2]
      exact ⟨rfl, rfl⟩
    · intro h3 h4 h5
      have h6 : ¬ (r.RequestURI = "*" ∧ r.Method = "OPTIONS") := fun h => h3 h.1
      rw [respond_cases, if_neg h6, if_neg h3, if_pos ⟨h4, h5⟩]
      refine ⟨⟨StatusTemporaryRedirect, rfl, by decide, by decide⟩, ?_, ?_⟩
      · show StatusTemporaryRedirect ≠ 404
        decide
      · intro h
        cases h

/-- Instances of C3: the paths named by the claim and by the specification
that are written in canonical form get the answer 404, whatever the method, and
so do `/%2Fhealth` and `/%2e%2e/health`, whose escapes stand for a slash and
for dots; the path `/he%61lth` is the path `/health`. -/
theorem c3_dispatch_exact_witness :
    respond (request "GET" "/health/") newYear2024 = .notFound ∧
    respond (request "GET" "/healthz") newYear2024 = .notFound ∧
    respond (request "POST" "/api/v1") newYear2024 = .notFound ∧
    respond (request "GET" "/") newYear2024 = .notFound ∧
    respond (request "GET" "/nonexistent") newYear2024 = .notFound ∧
    (respond (request "GET" "/missing") newYear2024).status = 404 ∧
    respond (request "CONNECT" "//health") newYear2024 = .notFound ∧
    respond (request "GET" "/%2Fhealth") newYear2024 = .notFound ∧
    respond (request "GET" "/%2e%2e/health") newYear2024 = .notFound ∧
    (respond (request "GET" "/he%61lth") newYear2024).handler = some .health :=
  ⟨((c3_dispatch_exact (request "GET" "/health/") newYear2024).2.2 (by decide) (by decide)).2.1
      (by decide) (Or.inr (Or.inl (by decide))) |>.1,
   ((c3_dispatch_exact (request "GET" "/healthz") newYear2024).2.2 (by decide) (by decide)).2.1
      (by decide) (Or.inr (Or.inl (by decide))) |>.1,
   ((c3_dispatch_exact (request "POST" "/api/v1") newYear2024).2.2 (by decide) (by decide)).2.1
      (by decide) (Or.inr (Or.inl (by decide))) |>.1,
   ((c3_dispatch_exact (request "GET" "/") newYear2024).2.2 (by decide) (by decide)).2.1
      (by decide) (Or.inr (Or.inl (by decide))) |>.1,
   ((c3_dispatch_exact (request "GET" "/nonexistent") newYear2024).2.2 (by decide) (by decide)).2.1
      (by decide) (Or.inr (Or.inl (by decide))) |>.1,
   ((c3_dispatch_exact (request "GET" "/missing") newYear2024).2.2 (by decide) (by decide)).2.1
      (by decide) (Or.inr (Or.inl (by decide))) |>.2,
   ((c3_dispatch_exact (request "CONNECT" "//health") newYear2024).2.2 (by decide) (by decide)).2.1
      (by decide) (Or.inl rfl) |>.1,
   ((c3_dispatch_exact (request "GET" "/%2Fhealth") newYear2024).2.2 (by decide) (by decide)).2.1
      (by decide) (Or.inr (Or.inr (by decide))) |>.1,
   ((c3_dispatch_exact (request "GET" "/%2e%2e/health") newYear2024).2.2 (by decide)
      (by decide)).2.1 (by decide) (Or.inr (Or.inr (by decide))) |>.1,
   (c3_dispatch_exact (request "GET" "/he%61lth") newYear2024).1.mpr (by decide)⟩

/-- C3 as stated fails at four inputs.  The paths `//health` and
`/x/../health` are neither `/health` nor `/api`, and a `GET` for them is
answered with a redirect to `/health`, not with 404.  The path `*` of the
asterisk form is neither, and `GET *` is answered with 400 and `OPTIONS *`
with 200. -/
theorem c3_noncanonical_redirects :
    (request "GET" "//health").Path ≠ "/health" ∧ (request "GET" "//health").Path ≠ "/api" ∧
    (∃ code, respond (request "GET" "//health") newYear2024 = .redirect "/health" "" code) ∧
    (respond (request "GET" "//health") newYear2024).status ≠ 404 ∧
    respond (request "GET" "//health") newYear2024 ≠ .notFound ∧
    (request "GET" "/x/../health").Path ≠ "/health" ∧
    (request "GET" "/x/../health").Path ≠ "/api" ∧
    (∃ code, respond (request "GET" "/x/../health") newYear2024 = .redirect "/health" "" code) ∧
    (respond (request "GET" "/x/../health") newYear2024).status ≠ 404 ∧
    (request "GET" "*").Path ≠ "/health" ∧ (request "GET" "*").Path ≠ "/api" ∧
    (respond (request "GET" "*") newYear2024).status = 400 ∧
    (respond (request "OPTIONS" "*") newYear2024).status = 200 := by
  have h1 : respond (request "GET" "//health") newYear2024 =
      .redirect "/health" "" StatusTemporaryRedirect := by
    rw [respond_cases]
    decide
  have h2 : respond (request "GET" "/x/../health") newYear2024 =
      .redirect "/health" "" StatusTemporaryRedirect := by
    rw [respond_cases]
    decide
  have h3 : respond (request "GET" "*") newYear2024 = .badRequest := by
    rw [respond_cases]
    decide
  have h4 : respond (request "OPTIONS" "*") newYear2024 = .options := by
    rw [respond_cases]
    decide
  refine ⟨by decide, by decide, ⟨_, h1⟩, ?_, ?_, by decide, by decide, ⟨_, h2⟩, ?_,
    by decide, by decide, ?_, ?_⟩
  · rw [h1]
    decide
  · rw [h1]
    intro h
    cases h
  · rw [h2]
    decide
  · rw [h3]
    rfl
  · rw [h4]
    rfl

/-- C8, amended.  `main` registers exactly the two routes `/health` and `/api`
and then listens, once, on `:8080` (port 8080 on all interfaces).  When binding
fails the error is logged and the process exits with status 1 without having
answered any request and without a second attempt to listen; when the
listener returns an error after it has started to serve, the error is logged
and the process exits with status 1, without a second attempt to listen: in
`main` nothing follows the error of the listener but the report and the exit,
so the run records no answer after it.  While the listener is running `main`
has not returned: it returns, with status 0, only if the listener returned
without error. -/
theorem c8_main_startup (net : String → ListenOutcome) :
    registerRoutes = .ok routes ∧
    routes.tree.leaves.map (fun l => (l.pattern.str, l.pattern.method, l.pattern.host, l.handler)) =
      [("/health", "", "", .health), ("/api", "", "", .api)] ∧
    (main net).proc.mux = routes ∧
    (main net).proc.trace.filter (fun e => e matches .listen _) = [.listen ":8080"] ∧
    (∀ err, net ":8080" = .bindError err →
      (main net).proc.trace =
        [.logged "Server starting on :8080", .listen ":8080", .logged err, .exit 1] ∧
      (main net).answers = [] ∧ (main net).status = .exited 1) ∧
    (∀ served err, net ":8080" = .stopped served (some err) →
      (main net).proc.trace =
        [.logged "Server starting on :8080", .listen ":8080"] ++
          (main net).answers.map Event.answered ++ [.logged err, .exit 1] ∧
      (main net).answers = (Serve started served).1 ∧ (main net).status = .exited 1) ∧
    (∀ served, net ":8080" = .running served →
      (main net).status = .blocked ∧ (∀ code, Event.exit code ∉ (main net).proc.trace)) ∧
    ((main net).status = .exited 0 ↔ ∃ served, net ":8080" = .stopped served none) := by
  have hreg := registerRoutes_eq
  have hfilter : ∀ l : List Answer,
      (l.map Event.answered).filter (fun e => e matches .listen _) = [] := by
    intro l
    induction l with
    | nil => rfl
    | cons a l ih => simp [List.filter]
  refine ⟨hreg, rfl, ?_, ?_, ?_, ?_, ?_, ?_⟩
  · unfold main
    rw [hreg]
    cases net ":8080" with
    | bindError err => rfl
    | stopped served err =>
      cases err with
      | none => exact Serve_mux started served rfl
      | some err => exact Serve_mux started served rfl
    | running served => exact Serve_mux started served rfl
  · unfold main
    rw [hreg]
    cases net ":8080" with
    | bindError err => rfl
    | stopped served err =>
      cases err with
      | none =>
        simp only [logFatal]
        show List.filter _ ((Serve started served).2.trace ++ _) = _
        rw [Serve_trace started served rfl, List.filter_append, List.filter_append, hfilter]
        rfl
      | some err =>
        simp only [logFatal]
        show List.filter _ ((Serve started served).2.trace ++ _) = _
        rw [Serve_trace started served rfl, List.filter_append, List.filter_append, hfilter]
        rfl
    | running served =>
      show List.filter _ ((Serve started served).2.trace) = _
      rw [Serve_trace started served rfl, List.filter_append, hfilter]
      rfl
  · intro err he
    unfold main
    rw [hreg, he]
    exact ⟨rfl, rfl, rfl⟩
  · intro served err he
    unfold main
    rw [hreg, he]
    refine ⟨?_, rfl, rfl⟩
    show (Serve started served).2.trace ++ _ = _
    rw [Serve_trace started served rfl]
    rfl
  · intro served he
    unfold main
    rw [hreg, he]
    refine ⟨rfl, ?_⟩
    intro code hmem
    have hmem2 : Event.exit code ∈ (Serve started served).2.trace := hmem
    rw [Serve_trace started served rfl] at hmem2
    simp [started] at hmem2
  · unfold main
    rw [hreg]
    cases hnet : net ":8080" with
    | bindError err => simp
    | stopped served err =>
      cases err with
      | none => simp
      | some err => simp
    | running served => simp

/-- An instance of C8: when port 8080 is taken, nothing is served and the
process ends with status 1 after logging the error. -/
theorem c8_main_startup_witness :
    (main (fun _ => .bindError "listen tcp :8080: bind: address already in use")).proc.trace =
      [.logged "Server starting on :8080", .listen ":8080",
        .logged "listen tcp :8080: bind: address already in use", .exit 1] ∧
    (main (fun _ => .bindError "listen tcp :8080: bind: address already in use")).answers = [] ∧
    (main (fun _ => .bindError "listen tcp :8080: bind: address already in use")).status =
      .exited 1 :=
  (c8_main_startup (fun _ => .bindError "listen tcp :8080: bind: address already in use")).2.2.2.2.1
    _ rfl

/-- C8 as stated fails: a listener that returns an error need not have failed
to bind.  With the listener `failsAfterOne` the process logs the error and
exits with status 1, and it has served a request before. -/
theorem c8_served_before_error :
    (main failsAfterOne).status = .exited 1 ∧
    (main failsAfterOne).answers = [respond (request "GET" "/health") newYear2024] ∧
    (main failsAfterOne).answers ≠ [] ∧
    (main failsAfterOne).proc.trace =
      [.logged "Server starting on :8080", .listen ":8080",
        .answered (respond (request "GET" "/health") newYear2024),
        .logged "accept tcp [::]:8080: accept4: cannot allocate memory", .exit 1] := by
  have h1 : (main failsAfterOne).answers = [respond (request "GET" "/health") newYear2024] := by
    unfold main
    rw [registerRoutes_eq]
    rfl
  have h2 : (main failsAfterOne).proc.trace =
      (Serve started [{ r := request "GET" "/health", now := newYear2024, budget := none }]).2.trace
        ++ [.logged "accept tcp [::]:8080: accept4: cannot allocate memory", .exit 1] := by
    unfold main
    rw [registerRoutes_eq]
    rfl
  refine ⟨?_, h1, ?_, ?_⟩
  · unfold main
    rw [registerRoutes_eq]
    rfl
  · rw [h1]
    exact List.cons_ne_nil _ _
  · rw [h2, Serve_trace started _ rfl]
    rfl

/-- C9, amended.  Requests are handled independently, no state is carried from
one to the next: after any two histories of requests the server gives the same
answer (status, headers, body) to the same request handled at the same clock
reading, and handling requests leaves the route table as `main` built it.  For
`/health` and `/api` the answer is a function of the path, of the clock
reading and of whether the method is `HEAD`. -/
theorem c9_stateless (before1 before2 : List Exchange) (x : Exchange) :
    (serverHandler x.now x.r x.budget (Serve started before1).2).1 =
      (serverHandler x.now x.r x.budget (Serve started before2).2).1 ∧
    (Serve started before1).2.mux = routes ∧
    (serverHandler x.now x.r x.budget (Serve started before1).2).2.mux = routes ∧
    (∀ r1 r2 now, r1.Path = r2.Path → (r1.Path = "/health" ∨ r1.Path = "/api") →
      (r1.Method = "HEAD" ↔ r2.Method = "HEAD") →
      (respond r1 now).status = (respond r2 now).status ∧
      (respond r1 now).header = (respond r2 now).header ∧
      (respond r1 now).body = (respond r2 now).body) := by
  have m1 := Serve_mux started before1 rfl
  have m2 := Serve_mux started before2 rfl
  refine ⟨serverHandler_answer _ _ _ _ _ m1 m2, m1, ?_, ?_⟩
  · rw [serverHandler_proc _ _ _ _ m1]
    exact m1
  · intro r1 r2 now hsame hp hiff
    obtain ⟨h, hpat⟩ := pattern_of_path r1 hp
    have hpat2 : r2.Path = h.pattern := by rw [← hsame]; exact hpat
    obtain ⟨-, a2, a3, a4⟩ := respond_registered h r1 now hpat
    obtain ⟨-, b2, b3, b4⟩ := respond_registered h r2 now hpat2
    refine ⟨by rw [a2, b2], by rw [a3, b3], ?_⟩
    rw [a4, b4]
    by_cases h1 : r1.Method = "HEAD"
    · rw [if_pos h1, if_pos (hiff.mp h1)]
    · rw [if_neg h1, if_neg (fun h2 => h1 (hiff.mpr h2))]

/-- C9 as stated fails: the body of the answer is not a function of the path
and the clock reading alone, since `GET /api` and `HEAD /api` at the same clock
reading get different bodies. -/
theorem c9_not_function_of_path :
    ¬ ∃ f : String → Time → List Char, ∀ r now, (respond r now).body = f r.Path now := by
  rintro ⟨f, hf⟩
  have h1 := hf (request "GET" "/api") newYear2024
  have h2 := hf (request "HEAD" "/api") newYear2024
  have h3 : (request "GET" "/api").Path = (request "HEAD" "/api").Path := rfl
  rw [h3, ← h2, respond_empty .api (request "HEAD" "/api") newYear2024 rfl (Or.inl rfl),
    respond_body .api (request "GET" "/api") newYear2024 rfl (by decide)
      newYear2024_inRFC3339] at h1
  exact List.cons_ne_nil _ _ h1

/-- C10.  A write that fails is ignored.  Whatever the connection takes of the
body (`budget`), each handler returns, leaves the process as it found it (it
logs nothing and does not exit), and the answer has status 200 and the header
`Content-Type: application/json`, as on a connection that takes everything; the
body that went out is the start of the body of the successful answer, so no
error text is written. -/
theorem c10_failed_write_ignored (h : HandlerId) (now : Time) (r : Request) (n : Nat) (p : Proc) :
    (h.ServeHTTP now (newResponseWriter r (some n)) r p).2 = p ∧
    (h.ServeHTTP now (newResponseWriter r none) r p).2 = p ∧
    (h.ServeHTTP now (newResponseWriter r (some n)) r p).1.finishRequest.status = 200 ∧
    (h.ServeHTTP now (newResponseWriter r none) r p).1.finishRequest.status = 200 ∧
    (h.ServeHTTP now (newResponseWriter r (some n)) r p).1.finishRequest.sent =
      ⟨[("Content-Type", "application/json")]⟩ ∧
    (h.ServeHTTP now (newResponseWriter r none) r p).1.finishRequest.sent =
      ⟨[("Content-Type", "application/json")]⟩ ∧
    (h.ServeHTTP now (newResponseWriter r (some n)) r p).1.finishRequest.body =
      (h.ServeHTTP now (newResponseWriter r none) r p).1.finishRequest.body.take n := by
  rw [HandlerId.ServeHTTP_eq, HandlerId.ServeHTTP_eq]
  obtain ⟨a1, a2, -⟩ := Encode_status r (some n) { Message := h.message, Timestamp := now }
  obtain ⟨b1, b2, -⟩ := Encode_status r none { Message := h.message, Timestamp := now }
  refine ⟨rfl, rfl, a1, b1, a2, b2, ?_⟩
  show (Encode _ _).1.finishRequest.body = List.take n (Encode _ _).1.finishRequest.body
  rw [Encode_body, Encode_body]
  split_ifs
  · simp
  · cases Response.marshal { Message := h.message, Timestamp := now } with
    | error e => simp
    | ok b => rfl

/-- An instance of C10 where the write does fail: on a connection that takes
20 characters `Encode` returns an error, and the answer to `GET /health` still
has status 200, the JSON content type and the first 20 characters of the
body. -/
theorem c10_failed_write_ignored_witness :
    (Encode ((newResponseWriter (request "GET" "/health") (some 20)).SetHeader "Content-Type"
      "application/json") { Message := "Service is healthy", Timestamp := newYear2024 }).2 =
      some "write: broken pipe" ∧
    (healthHandler newYear2024 (newResponseWriter (request "GET" "/health") (some 20))
      (request "GET" "/health") started).2 = started ∧
    (healthHandler newYear2024 (newResponseWriter (request "GET" "/health") (some 20))
      (request "GET" "/health") started).1.finishRequest.status = 200 ∧
    (healthHandler newYear2024 (newResponseWriter (request "GET" "/health") (some 20))
      (request "GET" "/health") started).1.finishRequest.body = "\x7b\"message\":\"Service ".data := by
  have h := c10_failed_write_ignored .health newYear2024 (request "GET" "/health") 20 started
  refine ⟨by with_unfolding_all decide, h.1, h.2.2.1, ?_⟩
  with_unfolding_all decide

end GoAPI
